import Mathlib

/-!
# Hide-n-Seek: attack-window analyser and schedule obfuscation

A shallow embedding of `src/Hide-n-Seek/new_obfuscation.c`.

Conventions of the embedding:

* a C `int *` array is a `List Int`; a write `a[k] = v` is `a.set k v`, a read `a[k]` is
  `a.getD k 0` (every theorem carries the bounds that keep the reads inside the array);
* C `int` values that may go negative (array contents, window lengths, the bounds `l`, `r`
  of the sort and of the search) are `Int`; loop counters and element counts are `Nat`;
* a function that mutates its arguments returns the mutated arrays next to its result.
-/

namespace HideNSeek

/-! ## PatternConstraint: `IfSkipPossible` (source lines 656-675) -/

/-- The body of the `for(i=0;i<patternLen;i++)` loop of `IfSkipPossible`, with `rem` iterations
left to run, the loop counter at `i` and the running counter at `sum`.
The result is `false` when the loop leaves through `return 0`, `true` when it runs to its end. -/
def IfSkipPossible.scan (patternList : List Int) (patternLen : Nat) (skipLimit : Int) :
    Nat → Nat → Int → Bool
  | 0, _, _ => true
  | rem + 1, i, sum =>
    let sum1 : Int :=
      if patternList.getD (i % patternLen) 0 = patternList.getD ((i + 1) % patternLen) 0
          ∧ patternList.getD (i % patternLen) 0 = 0 then sum + 1 else 0
    if sum1 ≥ skipLimit then false
    else IfSkipPossible.scan patternList patternLen skipLimit rem (i + 1) sum1

/-- The function `IfSkipPossible`: returns the C return value and the pattern array as the
call leaves it. -/
def IfSkipPossible (patternList : List Int) (patternLen : Nat) (skipLimit : Int)
    (newSkipPosition : Nat) : Int × List Int :=
  let p := patternList.set newSkipPosition 0
  if IfSkipPossible.scan p patternLen skipLimit patternLen 0 0 then (1, p)
  else (0, p.set newSkipPosition 1)

/-- A pattern is binary when each entry is 0 or 1. -/
def IsBinary (p : List Int) : Prop := ∀ v ∈ p, v = 0 ∨ v = 1

instance (p : List Int) : Decidable (IsBinary p) := by
  unfold IsBinary; infer_instance

/-- The pattern of length `n` has a circular run of `len` consecutive zeros starting at `s`:
the entries at `s, s+1, ..., s+len-1`, indices taken modulo `n`, are all 0. -/
def CircZeroRun (p : List Int) (n s len : Nat) : Prop :=
  s < n ∧ len ≤ n ∧ ∀ j, j < len → p.getD ((s + j) % n) 0 = 0

instance (p : List Int) (n s len : Nat) : Decidable (CircZeroRun p n s len) := by
  unfold CircZeroRun; infer_instance

/-- The pattern has a run of `len` consecutive zeros at the indices `s, ..., s+len-1`, all of
them inside `0..n-1` (the run does not wrap). -/
def LinZeroRun (p : List Int) (n s len : Nat) : Prop :=
  s + len ≤ n ∧ ∀ j, j < len → p.getD (s + j) 0 = 0

instance (p : List Int) (n s len : Nat) : Decidable (LinZeroRun p n s len) := by
  unfold LinZeroRun; infer_instance

/-- The test of the loop body: the entries at `i` and `i+1` (modulo the length) are both 0. -/
def ZeroPair (p : List Int) (n i : Nat) : Prop :=
  p.getD (i % n) 0 = p.getD ((i + 1) % n) 0 ∧ p.getD (i % n) 0 = 0

instance (p : List Int) (n i : Nat) : Decidable (ZeroPair p n i) := by
  unfold ZeroPair; infer_instance

/-! ## SortedSetOps: `IntMerge`, `IntSort`, `BinarySearch` (source lines 214-291, 429-451)

The bounds `l`, `m`, `r` are C `int`s and are kept as `Int` (`r` is `-1` for an empty array).
The midpoint `l + (r - l) / 2` uses the truncating division of C, `Int.tdiv`. -/

/-- The copy loops of `IntMerge` (`L[i] = arr[l + i]`): the `n` entries of `a` from index
`start` on. -/
def IntMerge.copyOut (a : List Int) (start n : Nat) : List Int :=
  (List.range n).map (fun i => a.getD (start + i) 0)

/-- State of the merge loops of `IntMerge`: the two arrays and the counters `i`, `j`, `k`. -/
structure MergeState where
  arr : List Int
  temp : List Int
  i : Nat
  j : Nat
  k : Nat
deriving DecidableEq, Repr

/-- The loop `while (i < n1 && j < n2)` of `IntMerge`. -/
def IntMerge.mergeLoop (L L1 R R1 : List Int) (n1 n2 : Nat) (st : MergeState) : MergeState :=
  if st.i < n1 ∧ st.j < n2 then
    if L.getD st.i 0 ≤ R.getD st.j 0 then
      IntMerge.mergeLoop L L1 R R1 n1 n2
        { arr := st.arr.set st.k (L.getD st.i 0), temp := st.temp.set st.k (L1.getD st.i 0),
          i := st.i + 1, j := st.j, k := st.k + 1 }
    else
      IntMerge.mergeLoop L L1 R R1 n1 n2
        { arr := st.arr.set st.k (R.getD st.j 0), temp := st.temp.set st.k (R1.getD st.j 0),
          i := st.i, j := st.j + 1, k := st.k + 1 }
  else st
termination_by (n1 - st.i) + (n2 - st.j)
decreasing_by
  all_goals simp_wf
  all_goals omega

/-- The loop `while (i < n1)` of `IntMerge`, copying what is left of `L`, `L1`. -/
def IntMerge.restL (L L1 : List Int) (n1 : Nat) (st : MergeState) : MergeState :=
  if st.i < n1 then
    IntMerge.restL L L1 n1
      { arr := st.arr.set st.k (L.getD st.i 0), temp := st.temp.set st.k (L1.getD st.i 0),
        i := st.i + 1, j := st.j, k := st.k + 1 }
  else st
termination_by n1 - st.i
decreasing_by
  all_goals simp_wf
  all_goals omega

/-- The loop `while (j < n2)` of `IntMerge`, copying what is left of `R`, `R1`. -/
def IntMerge.restR (R R1 : List Int) (n2 : Nat) (st : MergeState) : MergeState :=
  if st.j < n2 then
    IntMerge.restR R R1 n2
      { arr := st.arr.set st.k (R.getD st.j 0), temp := st.temp.set st.k (R1.getD st.j 0),
        i := st.i, j := st.j + 1, k := st.k + 1 }
  else st
termination_by n2 - st.j
decreasing_by
  all_goals simp_wf
  all_goals omega

/-- The function `IntMerge`: merges `arr[l..m]` and `arr[m+1..r]` back into `arr[l..r]`, moving
the entries of `temp` along. Returns the two arrays as the call leaves them. -/
def IntMerge (arr temp : List Int) (l m r : Int) : List Int × List Int :=
  let n1 := (m - l + 1).toNat
  let n2 := (r - m).toNat
  let L := IntMerge.copyOut arr l.toNat n1
  let L1 := IntMerge.copyOut temp l.toNat n1
  let R := IntMerge.copyOut arr (m + 1).toNat n2
  let R1 := IntMerge.copyOut temp (m + 1).toNat n2
  let s1 := IntMerge.mergeLoop L L1 R R1 n1 n2
    { arr := arr, temp := temp, i := 0, j := 0, k := l.toNat }
  let s2 := IntMerge.restL L L1 n1 s1
  let s3 := IntMerge.restR R R1 n2 s2
  (s3.arr, s3.temp)

/-- The function `IntSort`: returns the two arrays as the call leaves them. -/
def IntSort (arr1 arr2 : List Int) (l r : Int) : List Int × List Int :=
  if l < r then
    let m := l + Int.tdiv (r - l) 2
    let s1 := IntSort arr1 arr2 l m
    let s2 := IntSort s1.1 s1.2 (m + 1) r
    IntMerge s2.1 s2.2 l m r
  else (arr1, arr2)
termination_by (r - l).toNat
decreasing_by
  all_goals simp_wf
  all_goals rw [Int.tdiv_eq_ediv (by omega) (by decide)]
  all_goals omega

/-- The function `BinarySearch`: the loop `while (l <= r)` as a recursion on the pair
`(l, r)`; the value is the C return value. -/
def BinarySearch (arr : List Int) (l r x : Int) : Int :=
  if l ≤ r then
    let m := l + Int.tdiv (r - l) 2
    if arr.getD m.toNat 0 = x then m
    else if arr.getD m.toNat 0 < x then BinarySearch arr (m + 1) r x
    else BinarySearch arr l (m - 1) x
  else -1
termination_by (r - l + 1).toNat
decreasing_by
  all_goals simp_wf
  all_goals rw [Int.tdiv_eq_ediv (by omega) (by decide)]
  all_goals omega

/-! ## Data model (source lines 92-117) -/

/-- The C `struct Instance`. `atkWin` and `insWin` are the conflict set: identifiers and the
origin values recorded with them. A freed array is the empty list. -/
structure Instance where
  index : Int := 0
  atkWinLen : Int := 0
  atkWinCount : Nat := 0
  attackable : Int := 0
  atkWin : List Int := []
  insWin : List Int := []
deriving DecidableEq, Repr, Inhabited

/-- The C `struct Message`, used both for a monitored entity and for a record of the trace.
The two `float` fields are rationals. -/
structure Message where
  ID : String := ""
  periodicity : Rat := 0
  count : Nat := 0
  DLC : Int := 0
  txTime : Rat := 0
  atkWinLen : Int := 0
  tAtkWinLen : Int := 0
  tAtkWinCount : Nat := 0
  readCount : Nat := 0
  tAtkWin : List Int := []
  tInsWin : List Int := []
  instances : List Instance := []
  sortedASP : List Int := []
  pattern : List Int := []
  skipLimit : Int := 0
deriving DecidableEq, Repr, Inhabited

/-! ## WindowIntersector: `CommonMessages` (source lines 455-527) -/

/-- What the `for` loops of `CommonMessages` build: the arrays `intersection`,
`intersection1` and the counter `atkWinCount`. -/
structure Collected where
  intersection : List Int
  intersection1 : List Int
  atkWinCount : Nat
deriving DecidableEq, Repr

/-- One of the two `for` loops of `CommonMessages`: each entry of the larger input (`big`,
with origins `bigOrig`, `nBig` entries) is searched in the sorted smaller input (`small`,
`nSmall` entries); on a hit the arrays grow by one slot, which receives the pair, and the
counter goes up. -/
def CommonMessages.collect (small : List Int) (nSmall : Nat) (big bigOrig : List Int)
    (nBig : Nat) : Collected :=
  (List.range nBig).foldl
    (fun acc i =>
      if BinarySearch small 0 ((nSmall : Int) - 1) (big.getD i 0) ≥ 0 then
        { intersection := acc.intersection ++ [big.getD i 0]
          intersection1 := acc.intersection1 ++ [bigOrig.getD i 0]
          atkWinCount := acc.atkWinCount + 1 }
      else acc)
    { intersection := [], intersection1 := [], atkWinCount := 0 }

/-- What `CommonMessages` leaves behind: the four input arrays (one of the two inputs is
sorted in place) and the instance. -/
structure CommonResult where
  a : List Int
  x : List Int
  b : List Int
  y : List Int
  ins : Instance
deriving DecidableEq, Repr

/-- The final part of `CommonMessages`: the old arrays of the instance are freed, the count is
stored and, when it is positive, the first `atkWinCount` collected pairs are copied in. -/
def CommonMessages.store (ins : Instance) (c : Collected) : Instance :=
  if c.atkWinCount > 0 then
    { ins with
      atkWinCount := c.atkWinCount
      atkWin := (List.range c.atkWinCount).map (fun i => c.intersection.getD i 0)
      insWin := (List.range c.atkWinCount).map (fun i => c.intersection1.getD i 0) }
  else
    { ins with atkWinCount := c.atkWinCount, atkWin := [], insWin := [] }

/-- The function `CommonMessages`. -/
def CommonMessages (a x : List Int) (n_a : Nat) (b y : List Int) (n_b : Nat)
    (ins : Instance) : CommonResult :=
  if n_a ≤ n_b then
    let s := IntSort a x 0 ((n_a : Int) - 1)
    { a := s.1, x := s.2, b := b, y := y,
      ins := CommonMessages.store ins (CommonMessages.collect s.1 n_a b y n_b) }
  else
    let s := IntSort b y 0 ((n_b : Int) - 1)
    { a := a, x := x, b := s.1, y := s.2,
      ins := CommonMessages.store ins (CommonMessages.collect s.1 n_b a x n_a) }

/-! ## AttackWindowAnalyzer: `GetCurrentInstance`, `AnalyzeCANTraffic` (source lines 530-652)

Two things the function uses are outside the embedding and are parameters:
`id_to_long`, the numeric form of an identifier string (`strtol` of the C library), and
`idleGap pkt next`, the floating-point test `nextTxStart - (txStart + txEnds) > maxIdle` on a
record and its successor. The number of monitored entities, the global `ECUCountVar`, is the
length of the candidate list. -/

/-- The function `GetCurrentInstance`: the `readCount` of the first candidate whose identifier
string equals `id`, or `-1`. -/
def GetCurrentInstance : List Message → String → Int
  | [], _ => -1
  | c :: cs, id => if c.ID = id then (c.readCount : Int) else GetCurrentInstance cs id

/-- The loop `for (l = readCount; l < count; l++) if (pattern[l] == 0) k++` of
`AnalyzeCANTraffic`: the value of `k` it leaves. -/
def skippedSoFar (pattern : List Int) (readCount count : Nat) : Nat :=
  ((List.range' readCount (count - readCount)).filter (fun l => pattern.getD l 1 = 0)).length

/-- The accumulator of an entity is dropped: both arrays are freed, length and count are
zeroed. This is the body of the two tests `if (tAtkWinLen > 0)`. -/
def clearAccumulator (c : Message) : Message :=
  if c.tAtkWinLen > 0 then
    { c with tAtkWin := [], tInsWin := [], tAtkWinLen := 0, tAtkWinCount := 0 }
  else c

/-- The commit of the second and later hyper-periods (source lines 599-621) on the instance
at position `t`: the window length becomes the minimum of the old and the accumulated
length (`fmin` on two `int`s, cast back to `int`); a zero length empties the conflict set,
any other length calls `CommonMessages`, which may also sort the accumulator in place. -/
def commitLater (c : Message) (t : Nat) : Message :=
  let ins := c.instances.getD t default
  let ins1 : Instance := { ins with atkWinLen := min ins.atkWinLen c.tAtkWinLen }
  if ins1.atkWinLen = 0 then
    let ins2 : Instance := { ins1 with atkWinCount := 0, atkWin := [], insWin := [] }
    { c with instances := c.instances.set t ins2 }
  else
    let res := CommonMessages ins1.atkWin ins1.insWin ins1.atkWinCount
      c.tAtkWin c.tInsWin c.tAtkWinCount ins1
    { c with instances := c.instances.set t res.ins, tAtkWin := res.b, tInsWin := res.y }

/-- The commit of the first hyper-period (source lines 622-636) on the instance at position
`t`: length, count and the first `tAtkWinCount` accumulated pairs are copied in. -/
def commitFirst (c : Message) (t : Nat) : Message :=
  let ins := c.instances.getD t default
  let ins1 : Instance :=
    { ins with
      atkWinLen := c.tAtkWinLen
      atkWinCount := c.tAtkWinCount
      atkWin := (List.range c.tAtkWinCount).map (fun l => c.tAtkWin.getD l 0)
      insWin := (List.range c.tAtkWinCount).map (fun l => c.tInsWin.getD l 0) }
  { c with instances := c.instances.set t ins1 }

/-- The body of the loop over the candidates in `AnalyzeCANTraffic` for the record `pkt`
and the candidate `c`; `idle` is the idle-gap test of the record, `cands` the candidate list
as it stands (read by `GetCurrentInstance`). The result is the candidate afterwards. -/
def analyzeEntity (id_to_long : String → Int) (idle : Bool) (pkt : Message)
    (cands : List Message) (c : Message) : Message :=
  let idPkt := id_to_long pkt.ID
  let idEcu := id_to_long c.ID
  let k := skippedSoFar c.pattern c.readCount c.count
  if idPkt > idEcu ∨ (idle = true ∧ idPkt ≠ idEcu) then
    clearAccumulator c
  else if idPkt < idEcu then
    let insNo := GetCurrentInstance cands pkt.ID
    let cnt := c.tAtkWinCount + 1
    { c with
      tAtkWinCount := cnt
      tAtkWinLen := c.tAtkWinLen + pkt.DLC * 8 + 47
      tAtkWin := (if cnt = 1 then [] else c.tAtkWin) ++ [idPkt]
      tInsWin := (if cnt = 1 then [] else c.tInsWin) ++ [insNo] }
  else
    let t := (c.readCount + k) % c.count
    let c1 := if c.readCount ≥ c.count then commitLater c t else commitFirst c t
    let c2 := clearAccumulator c1
    { c2 with readCount := c.readCount + k + 1 }

/-- The loop `for(i=0;i<ECUCountVar;i++)` of `AnalyzeCANTraffic` for one record. -/
def analyzePacket (id_to_long : String → Int) (idleGap : Message → Message → Bool)
    (pkt next : Message) (cands : List Message) : List Message :=
  (List.range cands.length).foldl
    (fun cs i => cs.set i (analyzeEntity id_to_long (idleGap pkt next) pkt cs (cs.getD i default)))
    cands

/-- The function `AnalyzeCANTraffic`: the loop `while (j < CANCount-1)` over the trace. -/
def AnalyzeCANTraffic (id_to_long : String → Int) (idleGap : Message → Message → Bool)
    (CANTraffic : List Message) (CANCount : Nat) (candidates : List Message) : List Message :=
  (List.range (CANCount - 1)).foldl
    (fun cs j => analyzePacket id_to_long idleGap (CANTraffic.getD j default)
      (CANTraffic.getD (j + 1) default) cs)
    candidates

/-! ## Instance sort: `InsMergeByAtkWinLen`, `InsSortByAtkWinLen` (source lines 364-427) -/

/-- The copy loops of `InsMergeByAtkWinLen` (`L[i] = (*instances)[l + i]`): the `n` entries of
`a` from index `start` on. -/
def InsMergeByAtkWinLen.copyOut (a : List Instance) (start n : Nat) : List Instance :=
  (List.range n).map (fun i => a.getD (start + i) default)

/-- State of the merge loops of `InsMergeByAtkWinLen`: the array and the counters `i`, `j`,
`k`. -/
structure InsMergeState where
  instances : List Instance
  i : Nat
  j : Nat
  k : Nat
deriving DecidableEq, Repr

/-- The loop `while (i < n1 && j < n2)` of `InsMergeByAtkWinLen`: the left entry goes first
when `L[i].atkWinLen >= R[j].atkWinLen`. -/
def InsMergeByAtkWinLen.mergeLoop (L R : List Instance) (n1 n2 : Nat) (st : InsMergeState) :
    InsMergeState :=
  if st.i < n1 ∧ st.j < n2 then
    if (L.getD st.i default).atkWinLen ≥ (R.getD st.j default).atkWinLen then
      InsMergeByAtkWinLen.mergeLoop L R n1 n2
        { instances := st.instances.set st.k (L.getD st.i default),
          i := st.i + 1, j := st.j, k := st.k + 1 }
    else
      InsMergeByAtkWinLen.mergeLoop L R n1 n2
        { instances := st.instances.set st.k (R.getD st.j default),
          i := st.i, j := st.j + 1, k := st.k + 1 }
  else st
termination_by (n1 - st.i) + (n2 - st.j)
decreasing_by
  all_goals simp_wf
  all_goals omega

/-- The loop `while (i < n1)` of `InsMergeByAtkWinLen`, copying what is left of `L`. -/
def InsMergeByAtkWinLen.restL (L : List Instance) (n1 : Nat) (st : InsMergeState) :
    InsMergeState :=
  if st.i < n1 then
    InsMergeByAtkWinLen.restL L n1
      { instances := st.instances.set st.k (L.getD st.i default),
        i := st.i + 1, j := st.j, k := st.k + 1 }
  else st
termination_by n1 - st.i
decreasing_by
  all_goals simp_wf
  all_goals omega

/-- The loop `while (j < n2)` of `InsMergeByAtkWinLen`, copying what is left of `R`. -/
def InsMergeByAtkWinLen.restR (R : List Instance) (n2 : Nat) (st : InsMergeState) :
    InsMergeState :=
  if st.j < n2 then
    InsMergeByAtkWinLen.restR R n2
      { instances := st.instances.set st.k (R.getD st.j default),
        i := st.i, j := st.j + 1, k := st.k + 1 }
  else st
termination_by n2 - st.j
decreasing_by
  all_goals simp_wf
  all_goals omega

/-- The function `InsMergeByAtkWinLen`: merges `instances[l..m]` and `instances[m+1..r]` back
into `instances[l..r]`. Returns the array as the call leaves it. -/
def InsMergeByAtkWinLen (instances : List Instance) (l m r : Int) : List Instance :=
  let n1 := (m - l + 1).toNat
  let n2 := (r - m).toNat
  let L := InsMergeByAtkWinLen.copyOut instances l.toNat n1
  let R := InsMergeByAtkWinLen.copyOut instances (m + 1).toNat n2
  let s1 := InsMergeByAtkWinLen.mergeLoop L R n1 n2
    { instances := instances, i := 0, j := 0, k := l.toNat }
  let s2 := InsMergeByAtkWinLen.restL L n1 s1
  let s3 := InsMergeByAtkWinLen.restR R n2 s2
  s3.instances

/-- The function `InsSortByAtkWinLen`: returns the array as the call leaves it. -/
def InsSortByAtkWinLen (instances : List Instance) (l r : Int) : List Instance :=
  if l < r then
    let m := l + Int.tdiv (r - l) 2
    let s1 := InsSortByAtkWinLen instances l m
    let s2 := InsSortByAtkWinLen s1 (m + 1) r
    InsMergeByAtkWinLen s2 l m r
  else instances
termination_by (r - l).toNat
decreasing_by
  all_goals simp_wf
  all_goals rw [Int.tdiv_eq_ediv (by omega) (by decide)]
  all_goals omega

/-! ## Specification-level notions used to state the claims on the sort -/

/-- Stable merge of two lists of (key, value) pairs by key: on a tie the pair of the left
list goes first. This is what the three merge loops of `IntMerge` compute. -/
def mergePairs : List (Int × Int) → List (Int × Int) → List (Int × Int)
  | [], r => r
  | a :: l, [] => a :: l
  | a :: l, b :: r =>
    if a.1 ≤ b.1 then a :: mergePairs l (b :: r) else b :: mergePairs (a :: l) r

/-- The keys of a list of pairs are in non-decreasing order. -/
def KeysSorted (ps : List (Int × Int)) : Prop := ps.Pairwise (fun p q => p.1 ≤ q.1)

/-- The pairs with key `k`, in the order in which they occur. -/
def withKey (k : Int) (ps : List (Int × Int)) : List (Int × Int) :=
  ps.filter (fun p => p.1 = k)

/-- The list `out` is the stable ascending sort by key of `inp`: a permutation of it, with the
keys in non-decreasing order, in which the pairs of each key keep their order. -/
def IsStableSortOf (inp out : List (Int × Int)) : Prop :=
  out.Perm inp ∧ KeysSorted out ∧ ∀ k, withKey k out = withKey k inp

/-- The pairs `(keys[i], values[i])` for `i` in `l..r`. -/
def segPairs (keys values : List Int) (l r : Int) : List (Int × Int) :=
  ((keys.zip values).drop l.toNat).take (r - l + 1).toNat

/-- The array is in non-decreasing order on the indices `l..r`. -/
def SortedOn (arr : List Int) (l r : Int) : Prop :=
  ∀ i, i < arr.length → ∀ j, j < arr.length →
    l ≤ (i : Int) → i ≤ j → (j : Int) ≤ r → arr.getD i 0 ≤ arr.getD j 0

instance (arr : List Int) (l r : Int) : Decidable (SortedOn arr l r) := by
  unfold SortedOn; infer_instance

/-- The pairs of `ps` whose key occurs in `other`, in their order. -/
def restrictTo (other : List Int) (ps : List (Int × Int)) : List (Int × Int) :=
  ps.filter (fun p => decide (p.1 ∈ other))

/-- Stable merge of two lists of instances by descending window length: on a tie the
instance of the left list goes first. This is what the three merge loops of
`InsMergeByAtkWinLen` compute. -/
def mergeDesc : List Instance → List Instance → List Instance
  | [], r => r
  | a :: l, [] => a :: l
  | a :: l, b :: r =>
    if a.atkWinLen ≥ b.atkWinLen then a :: mergeDesc l (b :: r) else b :: mergeDesc (a :: l) r

/-- The window lengths of a list of instances are in non-increasing order. -/
def LenSortedDesc (l : List Instance) : Prop :=
  l.Pairwise (fun a b => a.atkWinLen ≥ b.atkWinLen)

instance (l : List Instance) : Decidable (LenSortedDesc l) := by
  unfold LenSortedDesc; infer_instance

/-- The instances of window length `k`, in the order in which they occur. -/
def withLen (k : Int) (l : List Instance) : List Instance :=
  l.filter (fun a => a.atkWinLen = k)

/-- The list `out` is the stable descending sort by window length of `inp`: a permutation of
it, window lengths non-increasing, in which the instances of each window length keep their
order. -/
def IsStableDescSortOf (inp out : List Instance) : Prop :=
  out.Perm inp ∧ LenSortedDesc out ∧ ∀ k, withLen k out = withLen k inp

/-- The `index` fields of a list of instances are in increasing order. -/
def IndexIncreasing (l : List Instance) : Prop :=
  l.Pairwise (fun a b => a.index < b.index)

instance (l : List Instance) : Decidable (IndexIncreasing l) := by
  unfold IndexIncreasing; infer_instance

/-! ## EntityModel: `InitializeECU` (source lines 126-143), and parts of `main` -/

/-- One iteration of the loop of `InitializeECU` on a zeroed `struct Message`: the entity as
the analysis first sees it. `count`, which the source computes in floating point as
`ceil(h / periodicity)`, is given. -/
def initEntity (ID : String) (periodicity : Rat) (count : Nat) (skipLimit : Int) : Message :=
  { ID := ID, periodicity := periodicity, count := count, skipLimit := skipLimit,
    instances := (List.range count).map (fun (j : Nat) => { index := (j : Int) }),
    sortedASP := List.replicate count 0,
    pattern := List.replicate count 1 }

/-- The function `InitializeECU` on the table of monitored entities: identifier,
periodicity, instance count and skip limit of each. -/
def InitializeECU (table : List (String × Rat × Nat × Int)) : List Message :=
  table.map (fun e => initEntity e.1 e.2.1 e.2.2.1 e.2.2.2)

/-- The global `minAtkWinLen` (source line 86): an instance is attackable when its window
length is at least this many bit times. -/
def minAtkWinLen : Int := 111

/-- The function `CheckMembership` (source lines 680-691): the first position of `item` among
the first `atkWinLen` entries of `atkWin`, or `-1`. -/
def CheckMembership (atkWin : List Int) (atkWinLen : Nat) (item : Int) : Int :=
  match (List.range atkWinLen).find? (fun i => atkWin.getD i 0 = item) with
  | some i => (i : Int)
  | none => -1

/-- The swap of Strategy 3 in `main` (source lines 888-890):
`temp = cand[k]; cand[k] = cand[i]; cand[i] = temp`, on whole structures. -/
def swapCandidates (cand : List Message) (k i : Nat) : List Message :=
  let temp := cand.getD k default
  (cand.set k (cand.getD i default)).set i temp

/-- A sequence of Strategy-3 swaps, each given by its two positions. -/
def applySwaps : List (Nat × Nat) → List Message → List Message
  | [], cand => cand
  | (k, i) :: rest, cand => applySwaps rest (swapCandidates cand k i)

/-! ## ObfuscationEngine: the rounds of `main` (source lines 791-896)

The table `ctrlSkipLimitArr` that Strategy 2 reads is a parameter, next to `id_to_long` and
`idleGap`. The output to the terminal is left out. -/

/-- The loop of source lines 797-807 for one entity: the `attackable` flag of each of the
`count` instances is set from its window length, and the `atkWinLen` of the entity becomes
the sum of the window lengths divided by `count` (the division of two C `int`s). -/
def labelEntity (c : Message) : Message :=
  { c with
    instances := (List.range c.count).foldl
      (fun (ins : List Instance) j =>
        ins.set j { ins.getD j default with
          attackable := if (ins.getD j default).atkWinLen ≥ minAtkWinLen then 1 else 0 })
      c.instances
    atkWinLen := Int.tdiv
      ((List.range c.count).foldl
        (fun (sum : Int) j => sum + (c.instances.getD j default).atkWinLen) 0)
      (c.count : Int) }

/-- The call `InsSortByAtkWinLen(&cand[i].instances, 0, cand[i].count - 1)` of source line
812 for one entity. -/
def sortEntity (c : Message) : Message :=
  { c with instances := InsSortByAtkWinLen c.instances 0 ((c.count : Int) - 1) }

/-- The `while` loop of Strategy 1 (source lines 843-846): the value of `j` it leaves, the
first position of the sorted array whose instance is attackable and whose pattern entry, read
at the `index` of the instance, is not 0; `count` when there is none. -/
def firstSkipCandidate (c : Message) : Nat :=
  match (List.range c.count).find? (fun j =>
      decide (¬ ((c.instances.getD j default).attackable = 0 ∨
        c.pattern.getD (c.instances.getD j default).index.toNat 0 = 0))) with
  | some j => j
  | none => c.count

/-- Strategy 2 (source lines 860-870) for the entity at position `i`: the loop
`for (j = 0; j < i && !ifSkip; j++)`. Returns `ifSkip` and the collection. -/
def strategy2 (id_to_long : String → Int) (ctrlSkipLimitArr : List Int) (i : Nat)
    (insToSkipObf1 : Int) (cand : List Message) : Int × List Message :=
  (List.range i).foldl
    (fun (st : Int × List Message) j =>
      if st.1 ≠ 0 then st
      else
        let ins := (st.2.getD i default).instances.getD insToSkipObf1.toNat default
        let cj := st.2.getD j default
        let insToSkipObf2 := CheckMembership ins.atkWin ins.atkWinCount (id_to_long cj.ID)
        if insToSkipObf2 ≥ 0 then
          let res := IfSkipPossible cj.pattern cj.count (ctrlSkipLimitArr.getD j 0)
            insToSkipObf2.toNat
          (res.1, st.2.set j { cj with pattern := res.2 })
        else st)
    (0, cand)

/-- The loop `for (k = i - 1; k >= 0; k--) if (periodicity differs) break;` of Strategy 3
(source lines 876-877) with `n` positions below `i` still to visit: the value of `k` it
leaves, the nearest position below `n` whose periodicity differs from that of the entity at
`i`, or `-1`. -/
def strategy3Scan (cand : List Message) (i : Nat) : Nat → Int
  | 0 => -1
  | k + 1 =>
    if (cand.getD i default).periodicity ≠ (cand.getD k default).periodicity then (k : Int)
    else strategy3Scan cand i k

/-- Strategy 3 (source lines 876-892) for the entity at position `i`. -/
def strategy3 (id_to_long : String → Int) (i : Nat) (insToSkipObf1 : Int)
    (cand : List Message) : List Message :=
  let k := strategy3Scan cand i i
  if k ≠ (i : Int) - 1 then
    let k1 := (k + 1).toNat
    let ins := (cand.getD i default).instances.getD insToSkipObf1.toNat default
    if (cand.getD i default).periodicity = (cand.getD k1 default).periodicity ∧
        CheckMembership ins.atkWin ins.atkWinCount (id_to_long (cand.getD k1 default).ID) ≥ 0
    then swapCandidates cand k1 i
    else cand
  else cand

/-- The body of the loop over the entities in the obfuscation part of `main` (source lines
839-893) for the entity at position `i`: Strategy 1, then Strategy 2, then Strategy 3. -/
def obfuscateEntity (id_to_long : String → Int) (ctrlSkipLimitArr : List Int)
    (cand : List Message) (i : Nat) : List Message :=
  let c := cand.getD i default
  let j := firstSkipCandidate c
  let insToSkipObf1 : Int := if j < c.count then (c.instances.getD j default).index else 0
  let res : Int × List Int :=
    if j < c.count then IfSkipPossible c.pattern c.count c.skipLimit insToSkipObf1.toNat
    else (0, c.pattern)
  let cand1 := cand.set i { c with pattern := res.2 }
  if res.1 ≠ 0 then cand1
  else
    let s2 := strategy2 id_to_long ctrlSkipLimitArr i insToSkipObf1 cand1
    if s2.1 ≠ 0 then s2.2 else strategy3 id_to_long i insToSkipObf1 s2.2

/-- The loop over the entities of source lines 837-894. -/
def obfuscationPolicies (id_to_long : String → Int) (ctrlSkipLimitArr : List Int)
    (cand : List Message) : List Message :=
  (List.range cand.length).foldl
    (fun cs i => obfuscateEntity id_to_long ctrlSkipLimitArr cs i) cand

/-- What one round of the `while (l <= 10)` loop of `main` does before the strategies: the
analyzer, the labels and the sort of the instances of every entity. -/
def analyzeAndSort (id_to_long : String → Int) (idleGap : Message → Message → Bool)
    (traffic : List Message) (CANCount : Nat) (cand : List Message) : List Message :=
  ((AnalyzeCANTraffic id_to_long idleGap traffic CANCount cand).map labelEntity).map sortEntity

/-- One round of the `while (l <= 10)` loop of `main`. -/
def obfuscationRound (id_to_long : String → Int) (idleGap : Message → Message → Bool)
    (ctrlSkipLimitArr : List Int) (traffic : List Message) (CANCount : Nat)
    (cand : List Message) : List Message :=
  obfuscationPolicies id_to_long ctrlSkipLimitArr
    (analyzeAndSort id_to_long idleGap traffic CANCount cand)

/-- The first `n` rounds of `main` (which runs 11 of them). -/
def obfuscationRounds (id_to_long : String → Int) (idleGap : Message → Message → Bool)
    (ctrlSkipLimitArr : List Int) (traffic : List Message) (CANCount : Nat) :
    Nat → List Message → List Message
  | 0, cand => cand
  | n + 1, cand =>
    obfuscationRounds id_to_long idleGap ctrlSkipLimitArr traffic CANCount n
      (obfuscationRound id_to_long idleGap ctrlSkipLimitArr traffic CANCount cand)

/-! ## State invariants used to state the claims on the analyzer -/

/-- The conflict set of an instance is well formed: a non-negative window length and two
arrays as long as the count says. -/
def InstanceWF (ins : Instance) : Prop :=
  0 ≤ ins.atkWinLen ∧ ins.atkWin.length = ins.atkWinCount ∧ ins.insWin.length = ins.atkWinCount

/-- The state of an entity is well formed: the accumulated length is non-negative and is 0
only for an empty accumulator, the accumulator arrays are as long as the count says, and
every instance is well formed. Every state that the analyzer reaches from `initEntity` on a
trace of non-negative sizes is of this kind (`wf_AnalyzeCANTraffic`). -/
def EntityWF (c : Message) : Prop :=
  0 ≤ c.tAtkWinLen ∧ (c.tAtkWinLen = 0 → c.tAtkWinCount = 0) ∧
    c.tAtkWin.length = c.tAtkWinCount ∧ c.tInsWin.length = c.tAtkWinCount ∧
    ∀ ins ∈ c.instances, InstanceWF ins

/-- The state of an entity that has seen no conflict: an empty accumulator, and in every
instance a window length of 0 and an empty conflict set. -/
def IdleState (c : Message) : Prop :=
  c.tAtkWinLen = 0 ∧ c.tAtkWinCount = 0 ∧ c.tAtkWin = [] ∧ c.tInsWin = [] ∧
    ∀ ins ∈ c.instances,
      ins.atkWinLen = 0 ∧ ins.atkWinCount = 0 ∧ ins.atkWin = [] ∧ ins.insWin = []

/-- The conflict set of an instance in scenario A: window length `L` and the one conflicting
identifier `P1`. -/
def SingleConflict (P1 L : Int) (ins : Instance) : Prop :=
  ins.atkWinLen = L ∧ ins.atkWinCount = 1 ∧ ins.atkWin = [P1] ∧ ins.insWin.length = 1

/-- The state of the lower-priority entity of scenario A after `m` of its own records, with
`N` instances and no skip: the first `min m N` instances hold the single conflict, and the
accumulator is empty (`acc = false`, just after a commit) or holds the one record of `P1`
seen since (`acc = true`). -/
def ScenarioState (P1 L : Int) (N m : Nat) (acc : Bool) (c : Message) : Prop :=
  c.count = N ∧ c.readCount = m ∧ c.pattern = List.replicate N 1 ∧ c.instances.length = N ∧
    (acc = false → c.tAtkWinLen = 0 ∧ c.tAtkWinCount = 0 ∧ c.tAtkWin = [] ∧ c.tInsWin = []) ∧
    (acc = true →
      c.tAtkWinLen = L ∧ c.tAtkWinCount = 1 ∧ c.tAtkWin = [P1] ∧ c.tInsWin.length = 1) ∧
    (∀ p, p < N → p < m → SingleConflict P1 L (c.instances.getD p default)) ∧
    (∀ p, p < N → InstanceWF (c.instances.getD p default))

/-- The `attackable` flag of every instance of the entity is the one that the loop of source
lines 797-807 computes from the window length. -/
def Labelled (c : Message) : Prop :=
  ∀ ins ∈ c.instances, ins.attackable = if ins.atkWinLen ≥ minAtkWinLen then 1 else 0

instance (c : Message) : Decidable (Labelled c) := by
  unfold Labelled; infer_instance

/-- Two collections hold the same entities at the same positions, up to the contents of the
skip patterns. -/
def SameButPattern (a b : List Message) : Prop :=
  a.length = b.length ∧
    ∀ t, { a.getD t default with pattern := [] } = { b.getD t default with pattern := [] }

/-! ## Concrete states used by the witnesses -/

/-- A numeric form of identifiers for the witnesses: the string read as a decimal number,
digit by digit. -/
def decimalId (s : String) : Int :=
  ((s.data.foldl (fun acc ch => acc * 10 + (ch.toNat - 48)) 0 : Nat) : Int)

/-- An entity in its second hyper-period: two instances, no skip, instance 0 with the
conflict set `(5, 0), (7, 1)` and window length 200, and an accumulator holding `(7, 3)` with
length 111. -/
def laterEntity : Message :=
  { ID := "20", count := 2, readCount := 2, pattern := [1, 1],
    tAtkWinLen := 111, tAtkWinCount := 1, tAtkWin := [7], tInsWin := [3],
    instances :=
      [{ index := 0, atkWinLen := 200, atkWinCount := 2, atkWin := [5, 7], insWin := [0, 1] },
       { index := 1, atkWinLen := 0, atkWinCount := 0 }] }

/-- A record of the trace carrying the identifier of `laterEntity`. -/
def selfRecord : Message := { ID := "20", DLC := 8, txTime := 1 }

/-- An entity in its first hyper-period with an empty accumulator: three instances, the
first already read, no skip; instance 1 holds nothing yet. -/
def firstEntity : Message :=
  { ID := "20", count := 3, readCount := 1, pattern := [1, 1, 1],
    instances :=
      [{ index := 0, atkWinLen := 111, atkWinCount := 1, atkWin := [5], insWin := [0] },
       { index := 1 }, { index := 2 }] }

/-- The entity `laterEntity` with an empty accumulator. -/
def laterEntityIdle : Message :=
  { laterEntity with tAtkWinLen := 0, tAtkWinCount := 0, tAtkWin := [], tInsWin := [] }

/-- The idle-gap test of a trace in which no record is followed by an idle gap. -/
def noGap (_pkt _next : Message) : Bool := false

/-- The idle-gap test of a trace in which every record is followed by an idle gap. -/
def allGap (_pkt _next : Message) : Bool := true

/-- Two monitored entities: `20` with two instances and skip limit 3, `30` with one instance
and skip limit 1, as `InitializeECU` makes them. -/
def twoEntities : List Message :=
  InitializeECU [("20", 1, 2, 3), ("30", 5, 1, 1)]

/-- A trace of six records: the unmonitored identifier `10` (7 bytes), then `20`, `30`,
`10`, `10`, and a last record. -/
def shortTrace : List Message :=
  [{ ID := "10", DLC := 7, txTime := 1 }, { ID := "20", DLC := 8, txTime := 2 },
   { ID := "30", DLC := 8, txTime := 3 }, { ID := "10", DLC := 7, txTime := 4 },
   { ID := "10", DLC := 7, txTime := 5 }, { ID := "99", DLC := 8, txTime := 6 }]

/-- The state of `twoEntities` after one run of the analyzer over `shortTrace`. -/
def afterRoundOne : List Message :=
  AnalyzeCANTraffic decimalId noGap shortTrace 6 twoEntities

/-- The state `afterRoundOne` once Strategy 2 of the entity `30` has put a skip at index 1
of the pattern of the entity `20` (the call `IfSkipPossible(cand[0].pattern, 2, 3, 1)`). -/
def beforeRoundTwo : List Message :=
  afterRoundOne.set 0
    { afterRoundOne.getD 0 default with
      pattern := (IfSkipPossible (afterRoundOne.getD 0 default).pattern 2 3 1).2 }

/-- The pairs (identifier, origin value) that an entity holds: those of its accumulator and
those of the conflict sets of its instances. -/
def conflictEntries (c : Message) : List (Int × Int) :=
  c.tAtkWin.zip c.tInsWin ++ c.instances.flatMap (fun ins => ins.atkWin.zip ins.insWin)

/-- A trace in which the identifier `20` comes three times before `30`. -/
def repeatTrace : List Message :=
  [{ ID := "20", DLC := 8, txTime := 1 }, { ID := "20", DLC := 8, txTime := 2 },
   { ID := "20", DLC := 8, txTime := 3 }, { ID := "30", DLC := 8, txTime := 4 }]

/-- The entity `laterEntity` after a skip of its instance 0: the pattern is `0 1`. -/
def skippedEntity : Message := { laterEntity with pattern := [0, 1] }

/-- The number of zero entries of the pattern at the indices `(readCount mod count)..count-1`:
the active skip count as the specification words it. -/
def zerosFromReadPosition (pattern : List Int) (readCount count : Nat) : Nat :=
  ((List.range count).filter
    (fun l => decide (readCount % count ≤ l ∧ pattern.getD l 1 = 0))).length

/-- A trace of two records whose last record carries the identifier `20`. -/
def lastSelfTrace : List Message :=
  [{ ID := "10", DLC := 7, txTime := 1 }, { ID := "20", DLC := 8, txTime := 2 }]

/-- One monitored entity, `20`, with two instances and skip limit 3. -/
def oneEntity : List Message := InitializeECU [("20", 1, 2, 3)]

/-- A trace of four records: `10` (8 bytes, 111 bit times), `20`, `20` and a last record. -/
def attackTrace : List Message :=
  [{ ID := "10", DLC := 8, txTime := 1 }, { ID := "20", DLC := 8, txTime := 2 },
   { ID := "20", DLC := 8, txTime := 3 }, { ID := "99", DLC := 8, txTime := 4 }]

/-- The state of `oneEntity` after one run over `attackTrace` and the skip that Strategy 1
then makes at the attackable instance 0 (the call `IfSkipPossible(pattern, 2, 3, 0)`). -/
def skipRoundTwo : List Message :=
  (AnalyzeCANTraffic decimalId noGap attackTrace 4 oneEntity).set 0
    { (AnalyzeCANTraffic decimalId noGap attackTrace 4 oneEntity).getD 0 default with
      pattern := (IfSkipPossible
        ((AnalyzeCANTraffic decimalId noGap attackTrace 4 oneEntity).getD 0 default).pattern
        2 3 0).2 }

/-- A trace of scenario A: eleven records, `20` (8 bytes) and `30` in turn. -/
def alternatingTrace : List Message :=
  (List.range 11).map (fun (j : Nat) =>
    if j % 2 = 0 then { ID := "20", DLC := 8, txTime := (j : Rat) }
    else { ID := "30", DLC := 8, txTime := (j : Rat) })

/-- Two instances of equal window length whose `index` fields are in decreasing order. -/
def tiedInstances : List Instance :=
  [{ index := 1, atkWinLen := 5 }, { index := 0, atkWinLen := 5 }]

/-- Three instances as `InitializeECU` numbers them, with window lengths 3, 7, 3. -/
def freshInstances : List Instance :=
  [{ index := 0, atkWinLen := 3 }, { index := 1, atkWinLen := 7 }, { index := 2, atkWinLen := 3 }]

/-- One monitored entity, `20`, with two instances and skip limit 2. -/
def reorderEntity : List Message := InitializeECU [("20", 1, 2, 2)]

/-- A trace of four records: `20`, `10` (8 bytes, 111 bit times), `20` and a last record. -/
def reorderTrace : List Message :=
  [{ ID := "20", DLC := 8, txTime := 1 }, { ID := "10", DLC := 8, txTime := 2 },
   { ID := "20", DLC := 8, txTime := 3 }, { ID := "99", DLC := 8, txTime := 4 }]

/-- The state of `reorderEntity` after the first round of `main` over `reorderTrace`. -/
def reorderRoundOne : List Message :=
  obfuscationRound decimalId noGap [2] reorderTrace 4 reorderEntity

/-- The window length and the `index` field of each instance of an entity, by position. -/
def instanceView (c : Message) : List (Int × Int) :=
  c.instances.map (fun ins => (ins.index, ins.atkWinLen))

/-- A trace of three records: `20` (8 bytes), `30` and a last record. -/
def upstreamTrace : List Message :=
  [{ ID := "20", DLC := 8, txTime := 1 }, { ID := "30", DLC := 8, txTime := 2 },
   { ID := "99", DLC := 8, txTime := 3 }]

/-- The state of `twoEntities` in the first round over `upstreamTrace`, as the strategies
find it: after the analyzer, the labels and the sort. -/
def upstreamSorted : List Message :=
  analyzeAndSort decimalId noGap upstreamTrace 3 twoEntities

/-- Three monitored entities in this order: `20` (skip limit 1) and `30` (skip limit 2) of
periodicity 5, and `25` (skip limit 1) of periodicity 10, one instance each. -/
def limitEntities : List Message :=
  InitializeECU [("20", 5, 1, 1), ("30", 5, 1, 2), ("25", 10, 1, 1)]

/-- The skip limits of `limitEntities`, as the table `ctrlSkipLimitArr` holds them. -/
def limitTable : List Int := [1, 2, 1]

/-- A trace of four records: `20` and `25` without data bytes (47 bit times each), `30` and a
last record. -/
def limitTrace : List Message :=
  [{ ID := "20", DLC := 0, txTime := 1 }, { ID := "25", DLC := 0, txTime := 2 },
   { ID := "30", DLC := 8, txTime := 3 }, { ID := "99", DLC := 8, txTime := 4 }]

/-- The state of `limitEntities` in the first round over `limitTrace`, as the strategies find
it. -/
def limitSorted : List Message :=
  analyzeAndSort decimalId noGap limitTrace 4 limitEntities

/-- The state `limitSorted` once the entities at positions 0 and 1 have been processed. -/
def limitSwapped : List Message :=
  obfuscateEntity decimalId limitTable (obfuscateEntity decimalId limitTable limitSorted 0) 1

/-- The state of `oneEntity` in the first round over `attackTrace`, as the strategies find
it: instance 0 holds the window length 111. -/
def selfSkipSorted : List Message :=
  analyzeAndSort decimalId noGap attackTrace 4 oneEntity

/-- Three monitored entities of periodicity 5, skip limit 1 and one instance each: `20`,
`30`, `40`. -/
def blockEntities : List Message :=
  InitializeECU [("20", 5, 1, 1), ("30", 5, 1, 1), ("40", 5, 1, 1)]

/-- A trace of three records: `30` (8 bytes), `40` and a last record. -/
def nearestTrace : List Message :=
  [{ ID := "30", DLC := 8, txTime := 1 }, { ID := "40", DLC := 8, txTime := 2 },
   { ID := "99", DLC := 8, txTime := 3 }]

/-- The state of `blockEntities` in the first round over `nearestTrace`, as the strategies
find it: the instance of `40` holds the conflict set `30`. -/
def nearestSorted : List Message :=
  analyzeAndSort decimalId noGap nearestTrace 3 blockEntities

/-- A trace of three records: `20` (8 bytes), `40` and a last record. -/
def blockTrace : List Message :=
  [{ ID := "20", DLC := 8, txTime := 1 }, { ID := "40", DLC := 8, txTime := 2 },
   { ID := "99", DLC := 8, txTime := 3 }]

/-- The state of `blockEntities` in the first round over `blockTrace`, as the strategies
find it: the instance of `40` holds the conflict set `20`. -/
def blockSorted : List Message :=
  analyzeAndSort decimalId noGap blockTrace 3 blockEntities

/-! # Lemmas and theorems -/

/-! ## Lemmas on the scan of `IfSkipPossible` -/

theorem scan_succ (p : List Int) (n : Nat) (S : Int) (rem i : Nat) (sum : Int) :
    IfSkipPossible.scan p n S (rem + 1) i sum =
      if (if ZeroPair p n i then sum + 1 else 0) ≥ S then false
      else IfSkipPossible.scan p n S rem (i + 1) (if ZeroPair p n i then sum + 1 else 0) := by
  simp only [IfSkipPossible.scan, ZeroPair]

/-- A scan that runs to its end also runs to its end from any later iteration, with a
non-negative counter. -/
theorem scan_true_later (p : List Int) (n : Nat) (S : Int) :
    ∀ (d rem i : Nat) (sum : Int), 0 ≤ sum →
      IfSkipPossible.scan p n S (rem + d) i sum = true →
      ∃ sum1 : Int, 0 ≤ sum1 ∧ IfSkipPossible.scan p n S rem (i + d) sum1 = true := by
  intro d
  induction d with
  | zero => intro rem i sum h0 h; exact ⟨sum, h0, h⟩
  | succ d ih =>
    intro rem i sum h0 h
    have e : rem + (d + 1) = (rem + d) + 1 := by omega
    rw [e, scan_succ] at h
    generalize hs : (if ZeroPair p n i then sum + 1 else 0) = s0 at h
    have h1 : (0 : Int) ≤ s0 := by rw [← hs]; split <;> omega
    by_cases hge : s0 ≥ S
    · rw [if_pos hge] at h; exact absurd h (by simp)
    · rw [if_neg hge] at h
      obtain ⟨s1, hs1, hscan⟩ := ih rem (i + 1) s0 h1 h
      refine ⟨s1, hs1, ?_⟩
      have e2 : i + (d + 1) = i + 1 + d := by omega
      rw [e2]; exact hscan

/-- While the scan runs through `t+1` consecutive zero pairs, the counter grows by one at
each of them and stays below the limit. -/
theorem scan_true_run (p : List Int) (n : Nat) (S : Int) :
    ∀ (t rem i : Nat) (sum : Int),
      IfSkipPossible.scan p n S rem i sum = true → t < rem →
      (∀ j, j ≤ t → ZeroPair p n (i + j)) → sum + (t + 1 : Nat) < S := by
  intro t
  induction t with
  | zero =>
    intro rem i sum h ht hz
    obtain ⟨r, rfl⟩ : ∃ r, rem = r + 1 := ⟨rem - 1, by omega⟩
    rw [scan_succ] at h
    have hz0 : ZeroPair p n i := by simpa using hz 0 (Nat.le_refl 0)
    simp only [hz0, if_true] at h
    split at h
    · exact absurd h (by simp)
    · push_cast; omega
  | succ t ih =>
    intro rem i sum h ht hz
    obtain ⟨r, rfl⟩ : ∃ r, rem = r + 1 := ⟨rem - 1, by omega⟩
    rw [scan_succ] at h
    have hz0 : ZeroPair p n i := by simpa using hz 0 (Nat.zero_le _)
    simp only [hz0, if_true] at h
    split at h
    · exact absurd h (by simp)
    · have := ih r (i + 1) (sum + 1) h (by omega) (fun j hj => by
        have := hz (j + 1) (by omega)
        have e : i + (j + 1) = i + 1 + j := by omega
        rw [e] at this; exact this)
      push_cast at this ⊢; omega

/-- With a positive limit, a scan that meets no zero pair runs to its end. -/
theorem scan_no_pair (p : List Int) (n : Nat) (S : Int) (hS : 0 < S) :
    ∀ (rem i : Nat) (sum : Int), (∀ j, j < rem → ¬ ZeroPair p n (i + j)) →
      IfSkipPossible.scan p n S rem i sum = true := by
  intro rem
  induction rem with
  | zero => intro i sum _; rfl
  | succ r ih =>
    intro i sum hz
    rw [scan_succ]
    have hz0 : ¬ ZeroPair p n i := by simpa using hz 0 (Nat.succ_pos r)
    simp only [hz0, if_false]
    rw [if_neg (by omega)]
    exact ih (i + 1) 0 (fun j hj => by
      have := hz (j + 1) (by omega)
      have e : i + (j + 1) = i + 1 + j := by omega
      rw [e] at this; exact this)

/-- A limit that is not positive stops the scan at its first iteration. -/
theorem scan_nonpos (p : List Int) (n : Nat) (S : Int) (hS : S ≤ 0) (rem i : Nat) :
    IfSkipPossible.scan p n S (rem + 1) i 0 = false := by
  rw [scan_succ]
  have h1 : (0 : Int) ≤ (if ZeroPair p n i then (0 : Int) + 1 else 0) := by
    split <;> omega
  rw [if_pos (by omega)]

theorem getD_set_eq (p : List Int) (c : Nat) (v d : Int) (hc : c < p.length) :
    (p.set c v).getD c d = v := by
  simp [List.getD_eq_getElem?_getD, List.getElem?_set, hc]

theorem getD_set_ne (p : List Int) (c i : Nat) (v d : Int) (hci : c ≠ i) :
    (p.set c v).getD i d = p.getD i d := by
  simp [List.getD_eq_getElem?_getD, List.getElem?_set, hci]

theorem set_getD_self (p : List Int) (c : Nat) (v d : Int) (hc : c < p.length)
    (h : p.getD c d = v) : p.set c v = p := by
  apply List.ext_getElem?
  intro i
  by_cases hci : c = i
  · subst hci
    simp [List.getD_eq_getElem?_getD, List.getElem?_eq_getElem hc] at h
    simp [List.getElem?_set, hc, List.getElem?_eq_getElem hc, h]
  · simp [List.getElem?_set, hci]

/-- The two outcomes of `IfSkipPossible`, by the result of the scan. -/
theorem IfSkipPossible_cases (p : List Int) (n : Nat) (S : Int) (c : Nat) :
    (IfSkipPossible.scan (p.set c 0) n S n 0 0 = true ∧
        IfSkipPossible p n S c = (1, p.set c 0)) ∨
    (IfSkipPossible.scan (p.set c 0) n S n 0 0 = false ∧
        IfSkipPossible p n S c = (0, p.set c 1)) := by
  unfold IfSkipPossible
  cases h : IfSkipPossible.scan (p.set c 0) n S n 0 0
  · right; simp [h, List.set_set]
  · left; simp [h]

/-- One zero pair inside the scanned range makes a scan with limit at most 1 leave early. -/
theorem scan_pair_false (p : List Int) (n : Nat) (S : Int) (hS : S ≤ 1) (i : Nat) (hi : i < n)
    (hz : ZeroPair p n i) : IfSkipPossible.scan p n S n 0 0 = false := by
  cases h : IfSkipPossible.scan p n S n 0 0
  · rfl
  · exfalso
    have e : (n - i) + i = n := by omega
    obtain ⟨s1, hs1, hscan⟩ := scan_true_later p n S i (n - i) 0 0 (le_refl 0)
      (by rw [e]; exact h)
    have := scan_true_run p n S 0 (n - i) (0 + i) s1 hscan (by omega)
      (fun j hj => by
        have : j = 0 := by omega
        subst this
        simpa using hz)
    push_cast at this; omega

/-! ## Claims on `IfSkipPossible` -/

/-- C1 (as stated, refuted): `IfSkipPossible` reports feasible and still leaves a circular run
of zeros whose length reaches `skipLimit`. With limit 1 a single skip is accepted (a run of
length 1); with limit 3 the call at index 3 of `0 0 1 1 0` is accepted and leaves the
circular run 3, 4, 0, 1 of length 4. -/
theorem C1_counterexample :
    (IsBinary [1, 1, 1] ∧ (IfSkipPossible [1, 1, 1] 3 1 0).1 = 1 ∧
      CircZeroRun (IfSkipPossible [1, 1, 1] 3 1 0).2 3 0 1 ∧ (1 : Int) ≤ ((1 : Nat) : Int)) ∧
    (IsBinary [0, 0, 1, 1, 0] ∧ (IfSkipPossible [0, 0, 1, 1, 0] 5 3 3).1 = 1 ∧
      CircZeroRun (IfSkipPossible [0, 0, 1, 1, 0] 5 3 3).2 5 3 4 ∧
      (3 : Int) ≤ ((4 : Nat) : Int)) := by
  decide

/-- C1 (amended): when `IfSkipPossible(pattern, n, skipLimit, c)` with `c < n` reports
feasible, every run of consecutive zeros of the resulting pattern that lies inside the
indices `0..n-1` has length at most `skipLimit`. -/
theorem C1_feasible_bounds_linear_runs (p : List Int) (n : Nat) (S : Int) (c : Nat)
    (hc : c < n) (hfeas : (IfSkipPossible p n S c).1 = 1) :
    ∀ s len, LinZeroRun (IfSkipPossible p n S c).2 n s len → (len : Int) ≤ S := by
  intro s len hrun
  rcases IfSkipPossible_cases p n S c with ⟨hscan, hres⟩ | ⟨_, hres⟩
  · rw [hres] at hrun
    simp only at hrun
    obtain ⟨hsl, hz⟩ := hrun
    have hSpos : 0 < S := by
      by_contra hneg
      obtain ⟨m, rfl⟩ : ∃ m, n = m + 1 := ⟨n - 1, by omega⟩
      rw [scan_nonpos _ _ _ (by omega)] at hscan
      exact absurd hscan (by simp)
    by_cases hlen : len ≤ 1
    · omega
    · have e : (n - s) + s = n := by omega
      obtain ⟨s1, hs1, hscan1⟩ := scan_true_later (p.set c 0) n S s (n - s) 0 0 (le_refl 0)
        (by rw [e]; exact hscan)
      have := scan_true_run (p.set c 0) n S (len - 2) (n - s) (0 + s) s1 hscan1 (by omega)
        (fun j hj => by
          have h1 := hz j (by omega)
          have h2 := hz (j + 1) (by omega)
          have e1 : (0 + s + j) % n = s + j := by
            rw [Nat.zero_add]; exact Nat.mod_eq_of_lt (by omega)
          have e2 : (0 + s + j + 1) % n = s + (j + 1) := by
            rw [Nat.zero_add]; exact Nat.mod_eq_of_lt (by omega)
          unfold ZeroPair
          rw [e1, e2, h1, h2]
          exact ⟨rfl, rfl⟩)
      push_cast at this
      omega
  · rw [hres] at hfeas
    simp at hfeas

/-- Witness of `C1_feasible_bounds_linear_runs`: at limit 2 the skip at index 2 of `1 0 1 1`
is accepted, and the run of zeros at indices 1, 2 of the result has length 2. -/
theorem C1_feasible_bounds_linear_runs_witness :
    (2 : Nat) < 4 ∧ (IfSkipPossible [1, 0, 1, 1] 4 2 2).1 = 1 ∧
      LinZeroRun (IfSkipPossible [1, 0, 1, 1] 4 2 2).2 4 1 2 ∧ ((2 : Nat) : Int) ≤ 2 :=
  ⟨by decide, by decide, by decide,
    C1_feasible_bounds_linear_runs [1, 0, 1, 1] 4 2 2 (by decide) (by decide) 1 2 (by decide)⟩

/-- C2 (as stated, refuted): a rejected call at an index that already held 0 leaves a 1
there, so the pattern after the call differs from the pattern before it. -/
theorem C2_counterexample :
    (0 : Nat) < 3 ∧ (IfSkipPossible [0, 0, 1] 3 1 0).1 = 0 ∧
      (IfSkipPossible [0, 0, 1] 3 1 0).2 = [1, 0, 1] ∧
      (IfSkipPossible [0, 0, 1] 3 1 0).2 ≠ [0, 0, 1] := by
  decide

/-- C2 (amended): when the entry at `c` holds 1 before the call (the skip is a new one) and
`IfSkipPossible(pattern, n, skipLimit, c)` reports infeasible, the pattern after the call is
the pattern before the call. -/
theorem C2_rejected_new_skip_restores (p : List Int) (n : Nat) (S : Int) (c : Nat)
    (hc : c < p.length) (hone : p.getD c 0 = 1)
    (hrej : (IfSkipPossible p n S c).1 = 0) : (IfSkipPossible p n S c).2 = p := by
  rcases IfSkipPossible_cases p n S c with ⟨_, hres⟩ | ⟨_, hres⟩
  · rw [hres] at hrej
    simp at hrej
  · rw [hres]
    exact set_getD_self p c 1 0 hc hone

/-- Witness of `C2_rejected_new_skip_restores`: the rejected skip at index 0 of `1 0 1` with
limit 1. -/
theorem C2_rejected_new_skip_restores_witness :
    (0 : Nat) < [(1 : Int), 0, 1].length ∧ [(1 : Int), 0, 1].getD 0 0 = 1 ∧
      (IfSkipPossible [1, 0, 1] 3 1 0).1 = 0 ∧ (IfSkipPossible [1, 0, 1] 3 1 0).2 = [1, 0, 1] :=
  ⟨by decide, by decide, by decide,
    C2_rejected_new_skip_restores [1, 0, 1] 3 1 0 (by decide) (by decide) (by decide)⟩

theorem succ_mod_of_lt (n c : Nat) (hc : c < n) :
    (c + 1) % n = if c + 1 = n then 0 else c + 1 := by
  split
  · next h => rw [h]; exact Nat.mod_self n
  · next h => exact Nat.mod_eq_of_lt (by omega)

theorem pred_mod_of_lt (n i : Nat) (hi : i < n) :
    (i + n - 1) % n = if i = 0 then n - 1 else i - 1 := by
  split
  · next h => subst h; rw [Nat.zero_add]; exact Nat.mod_eq_of_lt (by omega)
  · next h =>
    have e : i + n - 1 = (i - 1) + n := by omega
    rw [e, Nat.add_mod_right]
    exact Nat.mod_eq_of_lt (by omega)

/-- C3: with `skipLimit = 1` and a pattern of length `n >= 2`, `IfSkipPossible` at an index
`c` circularly adjacent to an index that already holds 0 returns 0; and when the pattern has
no two circularly adjacent zeros and both circular neighbours of `c` hold 1, the call returns
1 and leaves `pattern[c] = 0`. -/
theorem C3_skip_limit_one (p : List Int) (n c : Nat) (hlen : p.length = n) (hn : 2 ≤ n)
    (hc : c < n) :
    (∀ i, i < n → p.getD i 0 = 0 → (c = (i + 1) % n ∨ c = (i + n - 1) % n) →
        (IfSkipPossible p n 1 c).1 = 0) ∧
    ((∀ i, i < n → ¬ (p.getD i 0 = 0 ∧ p.getD ((i + 1) % n) 0 = 0)) →
      p.getD ((c + 1) % n) 0 = 1 → p.getD ((c + n - 1) % n) 0 = 1 →
        (IfSkipPossible p n 1 c).1 = 1 ∧ (IfSkipPossible p n 1 c).2.getD c 1 = 0) := by
  have hcl : c < p.length := by omega
  have hqc : (p.set c 0).getD c 0 = 0 := getD_set_eq p c 0 0 hcl
  have hq : ∀ i, p.getD i 0 = 0 → (p.set c 0).getD i 0 = 0 := by
    intro i hi
    by_cases hci : c = i
    · subst hci; exact hqc
    · rw [getD_set_ne p c i 0 0 hci]; exact hi
  constructor
  · intro i hi hzero hadj
    have hfalse : IfSkipPossible.scan (p.set c 0) n 1 n 0 0 = false := by
      rcases hadj with h | h
      · -- the pair (i, i+1) is a zero pair
        refine scan_pair_false (p.set c 0) n 1 (le_refl 1) i hi ?_
        unfold ZeroPair
        rw [Nat.mod_eq_of_lt hi, ← h, hq i hzero, hqc]
        exact ⟨rfl, rfl⟩
      · -- the pair (c, c+1) is a zero pair
        have hi2 : (c + 1) % n = i := by
          rw [h, pred_mod_of_lt n i hi]
          split
          · next h0 =>
            subst h0
            have : n - 1 + 1 = n := by omega
            rw [this, Nat.mod_self]
          · next h0 =>
            have : i - 1 + 1 = i := by omega
            rw [this]; exact Nat.mod_eq_of_lt hi
        refine scan_pair_false (p.set c 0) n 1 (le_refl 1) c hc ?_
        unfold ZeroPair
        rw [Nat.mod_eq_of_lt hc, hi2, hq i hzero, hqc]
        exact ⟨rfl, rfl⟩
    rcases IfSkipPossible_cases p n 1 c with ⟨hscan, _⟩ | ⟨_, hres⟩
    · rw [hfalse] at hscan; exact absurd hscan (by simp)
    · rw [hres]
  · intro hnoadj hnext hprev
    have htrue : IfSkipPossible.scan (p.set c 0) n 1 n 0 0 = true := by
      apply scan_no_pair (p.set c 0) n 1 (by decide)
      intro j hj hz
      rw [Nat.zero_add] at hz
      unfold ZeroPair at hz
      rw [Nat.mod_eq_of_lt hj] at hz
      obtain ⟨heq, hz0⟩ := hz
      have hz1 : (p.set c 0).getD ((j + 1) % n) 0 = 0 := by rw [← heq]; exact hz0
      by_cases hcj : c = j
      · subst hcj
        have hne : c ≠ (c + 1) % n := by
          rw [succ_mod_of_lt n c hc]; split <;> omega
        rw [getD_set_ne p c _ 0 0 hne, hnext] at hz1
        exact absurd hz1 (by decide)
      · rw [getD_set_ne p c j 0 0 hcj] at hz0
        by_cases hcj1 : c = (j + 1) % n
        · have hj2 : (c + n - 1) % n = j := by
            rw [pred_mod_of_lt n c hc]
            rw [succ_mod_of_lt n j hj] at hcj1
            split at hcj1 <;> split <;> omega
          rw [hj2, hz0] at hprev
          exact absurd hprev (by decide)
        · rw [getD_set_ne p c _ 0 0 hcj1] at hz1
          exact hnoadj j hj ⟨hz0, hz1⟩
    rcases IfSkipPossible_cases p n 1 c with ⟨_, hres⟩ | ⟨hscan, _⟩
    · rw [hres]
      exact ⟨rfl, getD_set_eq p c 0 1 hcl⟩
    · rw [htrue] at hscan; exact absurd hscan (by simp)

/-- Witness of `C3_skip_limit_one`: in `1 0 1 1` with limit 1, the skip at index 2 (next to
the zero at index 1) is rejected; in `1 0 1 1 1` with limit 1 the skip at index 3 is accepted.
The second conjunct is the theorem at a pattern that meets the hypotheses of its second
part. -/
theorem C3_skip_limit_one_witness :
    (IfSkipPossible [1, 0, 1, 1] 4 1 2).1 = 0 ∧
      ((IfSkipPossible [1, 0, 1, 1, 1] 5 1 3).1 = 1 ∧
        (IfSkipPossible [1, 0, 1, 1, 1] 5 1 3).2.getD 3 1 = 0) :=
  ⟨(C3_skip_limit_one [1, 0, 1, 1] 4 2 rfl (by decide) (by decide)).1 1 (by decide)
      (by decide) (Or.inl (by decide)),
    (C3_skip_limit_one [1, 0, 1, 1, 1] 5 3 rfl (by decide) (by decide)).2 (by decide)
      (by decide) (by decide)⟩

/-- C4: `IfSkipPossible` is idempotent: a second call with the same arguments on the pattern
left by the first call returns the same result and leaves that pattern as it is. -/
theorem C4_idempotent (p : List Int) (n : Nat) (S : Int) (c : Nat) :
    IfSkipPossible (IfSkipPossible p n S c).2 n S c = IfSkipPossible p n S c := by
  rcases IfSkipPossible_cases p n S c with ⟨hscan, hres⟩ | ⟨hscan, hres⟩
  · rw [hres]
    show IfSkipPossible (p.set c 0) n S c = (1, p.set c 0)
    rcases IfSkipPossible_cases (p.set c 0) n S c with ⟨_, h2⟩ | ⟨hscan2, _⟩
    · rw [h2, List.set_set]
    · rw [List.set_set, hscan] at hscan2; exact absurd hscan2 (by simp)
  · rw [hres]
    show IfSkipPossible (p.set c 1) n S c = (0, p.set c 1)
    rcases IfSkipPossible_cases (p.set c 1) n S c with ⟨hscan2, _⟩ | ⟨_, h2⟩
    · rw [List.set_set, hscan] at hscan2; exact absurd hscan2 (by simp)
    · rw [h2, List.set_set]

/-! ## Lemmas on `IntMerge` -/

theorem copyOut_mid (pre A post : List Int) (s n : Nat) (hs : pre.length = s)
    (hn : A.length = n) : IntMerge.copyOut (pre ++ A ++ post) s n = A := by
  subst hs; subst hn
  unfold IntMerge.copyOut
  apply List.ext_getElem
  · simp
  · intro i h1 h2
    simp only [List.getElem_map, List.getElem_range]
    rw [List.append_assoc, List.getD_append_right _ _ _ _ (by omega)]
    have e : pre.length + i - pre.length = i := by omega
    rw [e, List.getD_append _ _ _ _ h2, List.getD_eq_getElem _ _ h2]

theorem zip_drop_cons (L L1 : List Int) (i : Nat) (h : i < L.length)
    (h1 : L.length = L1.length) :
    (L.zip L1).drop i = (L.getD i 0, L1.getD i 0) :: (L.zip L1).drop (i + 1) := by
  have hz : i < (L.zip L1).length := by simp [List.length_zip]; omega
  rw [List.drop_eq_getElem_cons hz, List.getElem_zip, List.getD_eq_getElem _ _ h,
    List.getD_eq_getElem _ _ (by omega)]

theorem set_append_cons (pre : List Int) (v0 v : Int) (rest : List Int) (k : Nat)
    (hk : pre.length = k) : (pre ++ v0 :: rest).set k v = (pre ++ [v]) ++ rest := by
  subst hk
  simp [List.set_append]

theorem mergePairs_nil_right (l : List (Int × Int)) : mergePairs l [] = l := by
  cases l <;> simp [mergePairs]

theorem mergePairs_nil_left (r : List (Int × Int)) : mergePairs [] r = r := by
  simp [mergePairs]

theorem mergePairs_cons_le (a b : Int × Int) (l r : List (Int × Int)) (h : a.1 ≤ b.1) :
    mergePairs (a :: l) (b :: r) = a :: mergePairs l (b :: r) := by
  rw [mergePairs, if_pos h]

theorem mergePairs_cons_gt (a b : Int × Int) (l r : List (Int × Int)) (h : ¬ a.1 ≤ b.1) :
    mergePairs (a :: l) (b :: r) = b :: mergePairs (a :: l) r := by
  rw [mergePairs, if_neg h]

/-- The loop `while (i < n1)` writes what is left of `L`, `L1` behind the written part. -/
theorem restL_spec (L L1 : List Int) (n1 : Nat) (hL : L.length = n1) (hL1 : L1.length = n1) :
    ∀ (d : Nat) (st : MergeState) (pre rest pre1 rest1 : List Int),
      n1 - st.i = d → st.i ≤ n1 → st.arr = pre ++ rest → st.temp = pre1 ++ rest1 →
      pre.length = st.k → pre1.length = st.k → d ≤ rest.length → d ≤ rest1.length →
      IntMerge.restL L L1 n1 st =
        { arr := pre ++ ((L.zip L1).drop st.i).map Prod.fst ++ rest.drop d
          temp := pre1 ++ ((L.zip L1).drop st.i).map Prod.snd ++ rest1.drop d
          i := n1, j := st.j, k := st.k + d } := by
  intro d
  induction d with
  | zero =>
    intro st pre rest pre1 rest1 hd hi harr htemp hk hk1 _ _
    have hin : st.i = n1 := by omega
    rw [IntMerge.restL, if_neg (by omega)]
    have hdrop : (L.zip L1).drop st.i = [] := by
      apply List.drop_eq_nil_of_le
      simp [List.length_zip]; omega
    rw [hdrop]
    cases st
    simp_all
  | succ d ih =>
    intro st pre rest pre1 rest1 hd hi harr htemp hk hk1 hr hr1
    have hlt : st.i < n1 := by omega
    rw [IntMerge.restL, if_pos hlt]
    obtain ⟨v0, rest0, rfl⟩ : ∃ v0 rest0, rest = v0 :: rest0 := by
      cases rest with
      | nil => simp at hr
      | cons a t => exact ⟨a, t, rfl⟩
    obtain ⟨w0, rest10, rfl⟩ : ∃ w0 rest10, rest1 = w0 :: rest10 := by
      cases rest1 with
      | nil => simp at hr1
      | cons a t => exact ⟨a, t, rfl⟩
    rw [ih _ (pre ++ [L.getD st.i 0]) rest0 (pre1 ++ [L1.getD st.i 0]) rest10 (by simp; omega)
      (by simp; omega) (by simp only [harr]; exact set_append_cons pre v0 _ rest0 st.k hk)
      (by simp only [htemp]; exact set_append_cons pre1 w0 _ rest10 st.k hk1)
      (by simp; omega) (by simp; omega) (by simp at hr; omega) (by simp at hr1; omega)]
    rw [zip_drop_cons L L1 st.i (by omega) (by omega)]
    simp
    omega

/-- The loop `while (j < n2)` writes what is left of `R`, `R1` behind the written part. -/
theorem restR_spec (R R1 : List Int) (n2 : Nat) (hR : R.length = n2) (hR1 : R1.length = n2) :
    ∀ (d : Nat) (st : MergeState) (pre rest pre1 rest1 : List Int),
      n2 - st.j = d → st.j ≤ n2 → st.arr = pre ++ rest → st.temp = pre1 ++ rest1 →
      pre.length = st.k → pre1.length = st.k → d ≤ rest.length → d ≤ rest1.length →
      IntMerge.restR R R1 n2 st =
        { arr := pre ++ ((R.zip R1).drop st.j).map Prod.fst ++ rest.drop d
          temp := pre1 ++ ((R.zip R1).drop st.j).map Prod.snd ++ rest1.drop d
          i := st.i, j := n2, k := st.k + d } := by
  intro d
  induction d with
  | zero =>
    intro st pre rest pre1 rest1 hd hi harr htemp hk hk1 _ _
    have hin : st.j = n2 := by omega
    rw [IntMerge.restR, if_neg (by omega)]
    have hdrop : (R.zip R1).drop st.j = [] := by
      apply List.drop_eq_nil_of_le
      simp [List.length_zip]; omega
    rw [hdrop]
    cases st
    simp_all
  | succ d ih =>
    intro st pre rest pre1 rest1 hd hi harr htemp hk hk1 hr hr1
    have hlt : st.j < n2 := by omega
    rw [IntMerge.restR, if_pos hlt]
    obtain ⟨v0, rest0, rfl⟩ : ∃ v0 rest0, rest = v0 :: rest0 := by
      cases rest with
      | nil => simp at hr
      | cons a t => exact ⟨a, t, rfl⟩
    obtain ⟨w0, rest10, rfl⟩ : ∃ w0 rest10, rest1 = w0 :: rest10 := by
      cases rest1 with
      | nil => simp at hr1
      | cons a t => exact ⟨a, t, rfl⟩
    rw [ih _ (pre ++ [R.getD st.j 0]) rest0 (pre1 ++ [R1.getD st.j 0]) rest10 (by simp; omega)
      (by simp; omega) (by simp only [harr]; exact set_append_cons pre v0 _ rest0 st.k hk)
      (by simp only [htemp]; exact set_append_cons pre1 w0 _ rest10 st.k hk1)
      (by simp; omega) (by simp; omega) (by simp at hr; omega) (by simp at hr1; omega)]
    rw [zip_drop_cons R R1 st.j (by omega) (by omega)]
    simp
    omega

/-- The three loops of `IntMerge`, one after the other, write the stable merge of what is left
of the two halves behind the written part. -/
theorem mergeLoops_spec (L L1 R R1 : List Int) (n1 n2 : Nat) (hL : L.length = n1)
    (hL1 : L1.length = n1) (hR : R.length = n2) (hR1 : R1.length = n2) :
    ∀ (d : Nat) (st : MergeState) (pre rest pre1 rest1 : List Int),
      (n1 - st.i) + (n2 - st.j) = d → st.i ≤ n1 → st.j ≤ n2 →
      st.arr = pre ++ rest → st.temp = pre1 ++ rest1 →
      pre.length = st.k → pre1.length = st.k → d ≤ rest.length → d ≤ rest1.length →
      (IntMerge.restR R R1 n2 (IntMerge.restL L L1 n1
          (IntMerge.mergeLoop L L1 R R1 n1 n2 st))).arr =
        pre ++ (mergePairs ((L.zip L1).drop st.i) ((R.zip R1).drop st.j)).map Prod.fst
          ++ rest.drop d ∧
      (IntMerge.restR R R1 n2 (IntMerge.restL L L1 n1
          (IntMerge.mergeLoop L L1 R R1 n1 n2 st))).temp =
        pre1 ++ (mergePairs ((L.zip L1).drop st.i) ((R.zip R1).drop st.j)).map Prod.snd
          ++ rest1.drop d := by
  intro d
  induction d using Nat.strong_induction_on with
  | _ d ih =>
    intro st pre rest pre1 rest1 hd hi hj harr htemp hk hk1 hr hr1
    by_cases hboth : st.i < n1 ∧ st.j < n2
    · obtain ⟨hi1, hj1⟩ := hboth
      obtain ⟨v0, rest0, rfl⟩ : ∃ v0 rest0, rest = v0 :: rest0 := by
        cases rest with
        | nil => simp at hr; omega
        | cons a t => exact ⟨a, t, rfl⟩
      obtain ⟨w0, rest10, rfl⟩ : ∃ w0 rest10, rest1 = w0 :: rest10 := by
        cases rest1 with
        | nil => simp at hr1; omega
        | cons a t => exact ⟨a, t, rfl⟩
      have hdpos : d - 1 < d := by omega
      have hdrop : (v0 :: rest0).drop d = rest0.drop (d - 1) := by
        obtain ⟨e, rfl⟩ : ∃ e, d = e + 1 := ⟨d - 1, by omega⟩
        simp
      have hdrop1 : (w0 :: rest10).drop d = rest10.drop (d - 1) := by
        obtain ⟨e, rfl⟩ : ∃ e, d = e + 1 := ⟨d - 1, by omega⟩
        simp
      have hLd := zip_drop_cons L L1 st.i (by omega) (by omega)
      have hRd := zip_drop_cons R R1 st.j (by omega) (by omega)
      rw [IntMerge.mergeLoop, if_pos ⟨hi1, hj1⟩, hdrop, hdrop1]
      by_cases hle : L.getD st.i 0 ≤ R.getD st.j 0
      · rw [if_pos hle]
        have := ih (d - 1) hdpos
          { arr := st.arr.set st.k (L.getD st.i 0), temp := st.temp.set st.k (L1.getD st.i 0),
            i := st.i + 1, j := st.j, k := st.k + 1 }
          (pre ++ [L.getD st.i 0]) rest0 (pre1 ++ [L1.getD st.i 0]) rest10
          (by simp only; omega) (by simp only; omega) (by simp only; omega)
          (by simp only [harr]; exact set_append_cons pre v0 _ rest0 st.k hk)
          (by simp only [htemp]; exact set_append_cons pre1 w0 _ rest10 st.k hk1)
          (by simp; omega) (by simp; omega) (by simp at hr; omega) (by simp at hr1; omega)
        simp only at this
        rw [this.1, this.2, hLd, hRd, mergePairs_cons_le _ _ _ _ hle]
        simp
      · rw [if_neg hle]
        have := ih (d - 1) hdpos
          { arr := st.arr.set st.k (R.getD st.j 0), temp := st.temp.set st.k (R1.getD st.j 0),
            i := st.i, j := st.j + 1, k := st.k + 1 }
          (pre ++ [R.getD st.j 0]) rest0 (pre1 ++ [R1.getD st.j 0]) rest10
          (by simp only; omega) (by simp only; omega) (by simp only; omega)
          (by simp only [harr]; exact set_append_cons pre v0 _ rest0 st.k hk)
          (by simp only [htemp]; exact set_append_cons pre1 w0 _ rest10 st.k hk1)
          (by simp; omega) (by simp; omega) (by simp at hr; omega) (by simp at hr1; omega)
        simp only at this
        rw [this.1, this.2, hRd, hLd, mergePairs_cons_gt _ _ _ _ hle]
        simp
    · rw [IntMerge.mergeLoop, if_neg hboth]
      have hor : st.i = n1 ∨ st.j = n2 := by omega
      rw [restL_spec L L1 n1 hL hL1 (n1 - st.i) st pre rest pre1 rest1 rfl hi harr htemp hk hk1
        (by omega) (by omega)]
      rw [restR_spec R R1 n2 hR hR1 (n2 - st.j)
        { arr := pre ++ ((L.zip L1).drop st.i).map Prod.fst ++ rest.drop (n1 - st.i)
          temp := pre1 ++ ((L.zip L1).drop st.i).map Prod.snd ++ rest1.drop (n1 - st.i)
          i := n1, j := st.j, k := st.k + (n1 - st.i) }
        (pre ++ ((L.zip L1).drop st.i).map Prod.fst) (rest.drop (n1 - st.i))
        (pre1 ++ ((L.zip L1).drop st.i).map Prod.snd) (rest1.drop (n1 - st.i)) rfl hj rfl rfl
        (by simp [List.length_zip, hL, hL1]; omega) (by simp [List.length_zip, hL, hL1]; omega)
        (by simp; omega) (by simp; omega)]
      have hM : mergePairs ((L.zip L1).drop st.i) ((R.zip R1).drop st.j) =
          (L.zip L1).drop st.i ++ (R.zip R1).drop st.j := by
        rcases hor with h | h
        · have : (L.zip L1).drop st.i = [] := by
            apply List.drop_eq_nil_of_le; simp [List.length_zip]; omega
          rw [this, mergePairs_nil_left]; simp
        · have : (R.zip R1).drop st.j = [] := by
            apply List.drop_eq_nil_of_le; simp [List.length_zip]; omega
          rw [this, mergePairs_nil_right]; simp
      have hdd : n1 - st.i + (n2 - st.j) = d := hd
      simp only [hM, List.map_append, List.drop_drop, List.append_assoc, hdd, and_self]

/-- The function `IntMerge` on an array cut as `pre ++ A ++ B ++ post`, with `A` the part
`l..m` and `B` the part `m+1..r`: the part `l..r` receives the stable merge, the rest stays. -/
theorem IntMerge_spec (pre A B post pre1 A1 B1 post1 : List Int) (l m r : Int)
    (hl : 0 ≤ l) (hpre : pre.length = l.toNat) (hpre1 : pre1.length = l.toNat)
    (hA : (A.length : Int) = m - l + 1) (hA1 : A1.length = A.length)
    (hB : (B.length : Int) = r - m) (hB1 : B1.length = B.length) :
    IntMerge (pre ++ A ++ B ++ post) (pre1 ++ A1 ++ B1 ++ post1) l m r =
      (pre ++ (mergePairs (A.zip A1) (B.zip B1)).map Prod.fst ++ post,
       pre1 ++ (mergePairs (A.zip A1) (B.zip B1)).map Prod.snd ++ post1) := by
  have hn1 : (m - l + 1).toNat = A.length := by omega
  have hn2 : (r - m).toNat = B.length := by omega
  have hm1 : (m + 1).toNat = pre.length + A.length := by omega
  have hLA : IntMerge.copyOut (pre ++ A ++ B ++ post) l.toNat A.length = A := by
    rw [List.append_assoc (pre ++ A)]
    exact copyOut_mid pre A (B ++ post) _ _ hpre rfl
  have hLA1 : IntMerge.copyOut (pre1 ++ A1 ++ B1 ++ post1) l.toNat A.length = A1 := by
    rw [List.append_assoc (pre1 ++ A1)]
    exact copyOut_mid pre1 A1 (B1 ++ post1) _ _ hpre1 hA1
  have hRB : IntMerge.copyOut (pre ++ A ++ B ++ post) (pre.length + A.length) B.length = B :=
    copyOut_mid (pre ++ A) B post _ _ (by simp) rfl
  have hRB1 : IntMerge.copyOut (pre1 ++ A1 ++ B1 ++ post1) (pre.length + A.length)
      B.length = B1 :=
    copyOut_mid (pre1 ++ A1) B1 post1 _ _ (by simp; omega) hB1
  unfold IntMerge
  simp only [hn1, hn2, hm1, hLA, hLA1, hRB, hRB1]
  have := mergeLoops_spec A A1 B B1 A.length B.length rfl hA1 rfl hB1 (A.length + B.length)
    { arr := pre ++ A ++ B ++ post, temp := pre1 ++ A1 ++ B1 ++ post1, i := 0, j := 0,
      k := l.toNat }
    pre (A ++ B ++ post) pre1 (A1 ++ B1 ++ post1)
    (by simp) (by simp) (by simp) (by simp) (by simp) hpre hpre1
    (by simp) (by simp; omega)
  simp only [List.drop_zero] at this
  rw [this.1, this.2]
  have e1 : (A ++ B ++ post).drop (A.length + B.length) = post := by
    have := List.drop_left (A ++ B) post
    rw [List.length_append] at this
    exact this
  have e2 : (A1 ++ B1 ++ post1).drop (A.length + B.length) = post1 := by
    have := List.drop_left (A1 ++ B1) post1
    rw [List.length_append, hA1, hB1] at this
    exact this
  rw [e1, e2]

/-! ## Properties of the stable merge -/

theorem mergePairs_perm : ∀ (l r : List (Int × Int)), (mergePairs l r).Perm (l ++ r) := by
  intro l
  induction l with
  | nil => intro r; rw [mergePairs_nil_left]; exact List.Perm.refl _
  | cons a l ihl =>
    intro r
    induction r with
    | nil => rw [mergePairs_nil_right, List.append_nil]
    | cons b r ihr =>
      by_cases h : a.1 ≤ b.1
      · rw [mergePairs_cons_le _ _ _ _ h]
        exact (ihl (b :: r)).cons a
      · rw [mergePairs_cons_gt _ _ _ _ h]
        exact (ihr.cons b).trans (List.perm_middle.symm)

theorem mergePairs_sorted : ∀ (l r : List (Int × Int)), KeysSorted l → KeysSorted r →
    KeysSorted (mergePairs l r) := by
  intro l
  induction l with
  | nil => intro r _ hr; rw [mergePairs_nil_left]; exact hr
  | cons a l ihl =>
    intro r
    induction r with
    | nil => intro hl _; rw [mergePairs_nil_right]; exact hl
    | cons b r ihr =>
      intro hl hr
      unfold KeysSorted at hl hr ⊢
      rw [List.pairwise_cons] at hl hr
      by_cases h : a.1 ≤ b.1
      · rw [mergePairs_cons_le _ _ _ _ h, List.pairwise_cons]
        refine ⟨?_, ihl (b :: r) hl.2 (List.pairwise_cons.mpr hr)⟩
        intro q hq
        have hq1 : q ∈ l ++ b :: r := (mergePairs_perm l (b :: r)).subset hq
        rcases List.mem_append.mp hq1 with hq2 | hq2
        · exact hl.1 q hq2
        · rcases List.mem_cons.mp hq2 with hq3 | hq3
          · rw [hq3]; exact h
          · exact le_trans h (hr.1 q hq3)
      · rw [mergePairs_cons_gt _ _ _ _ h, List.pairwise_cons]
        refine ⟨?_, ihr (List.pairwise_cons.mpr hl) hr.2⟩
        intro q hq
        have hq1 : q ∈ (a :: l) ++ r := (mergePairs_perm (a :: l) r).subset hq
        rcases List.mem_append.mp hq1 with hq2 | hq2
        · rcases List.mem_cons.mp hq2 with hq3 | hq3
          · rw [hq3]; omega
          · have := hl.1 q hq3; omega
        · exact hr.1 q hq2

theorem withKey_cons (k : Int) (a : Int × Int) (l : List (Int × Int)) :
    withKey k (a :: l) = if a.1 = k then a :: withKey k l else withKey k l := by
  unfold withKey
  rw [List.filter_cons]
  simp

theorem withKey_append (k : Int) (l r : List (Int × Int)) :
    withKey k (l ++ r) = withKey k l ++ withKey k r := by
  unfold withKey
  exact List.filter_append l r

theorem withKey_eq_nil (k : Int) (l : List (Int × Int)) (h : ∀ q ∈ l, q.1 ≠ k) :
    withKey k l = [] := by
  unfold withKey
  rw [List.filter_eq_nil_iff]
  intro q hq
  simpa using h q hq

/-- The merge is stable: for every key, the pairs of the left list come first, in their
order, then those of the right list, in their order. -/
theorem mergePairs_withKey (k : Int) : ∀ (l r : List (Int × Int)), KeysSorted l →
    withKey k (mergePairs l r) = withKey k l ++ withKey k r := by
  intro l
  induction l with
  | nil => intro r _; rw [mergePairs_nil_left]; simp [withKey]
  | cons a l ihl =>
    intro r
    induction r with
    | nil => intro _; rw [mergePairs_nil_right]; simp [withKey]
    | cons b r ihr =>
      intro hl
      have hl2 := hl
      unfold KeysSorted at hl2
      rw [List.pairwise_cons] at hl2
      by_cases h : a.1 ≤ b.1
      · rw [mergePairs_cons_le _ _ _ _ h, withKey_cons, ihl (b :: r) hl2.2, withKey_cons k a l]
        split <;> simp
      · rw [mergePairs_cons_gt _ _ _ _ h, withKey_cons, ihr hl, withKey_cons k b r]
        split
        · next hb =>
          have hnil : withKey k (a :: l) = [] := by
            apply withKey_eq_nil
            intro q hq
            rcases List.mem_cons.mp hq with hq3 | hq3
            · rw [hq3]; omega
            · have := hl2.1 q hq3; omega
          rw [hnil]; simp
        · rfl

/-- Merging two lists whose concatenation is already sorted gives the concatenation. -/
theorem mergePairs_of_sorted_append : ∀ (l r : List (Int × Int)), KeysSorted (l ++ r) →
    mergePairs l r = l ++ r := by
  intro l
  induction l with
  | nil => intro r _; rw [mergePairs_nil_left]; rfl
  | cons a l ihl =>
    intro r hs
    cases r with
    | nil => rw [mergePairs_nil_right, List.append_nil]
    | cons b r =>
      unfold KeysSorted at hs
      rw [List.cons_append, List.pairwise_cons] at hs
      have h : a.1 ≤ b.1 := hs.1 b (by simp)
      rw [mergePairs_cons_le _ _ _ _ h, ihl (b :: r) hs.2]
      rfl

/-! ## Lemmas on `IntSort` -/

theorem zip_fst_snd (S : List (Int × Int)) : (S.map Prod.fst).zip (S.map Prod.snd) = S := by
  induction S with
  | nil => rfl
  | cons a S ih => simp [ih]

theorem keysSorted_of_length_le_one (S : List (Int × Int)) (h : S.length ≤ 1) :
    KeysSorted S := by
  unfold KeysSorted
  match S, h with
  | [], _ => exact List.Pairwise.nil
  | [a], _ => exact List.pairwise_singleton _ a
  | _ :: _ :: _, h => simp at h

theorem isStableSortOf_self (S : List (Int × Int)) (h : KeysSorted S) : IsStableSortOf S S :=
  ⟨List.Perm.refl S, h, fun _ => rfl⟩

theorem isStableSortOf_merge (inA inB S1 S2 : List (Int × Int))
    (h1 : IsStableSortOf inA S1) (h2 : IsStableSortOf inB S2) :
    IsStableSortOf (inA ++ inB) (mergePairs S1 S2) := by
  refine ⟨?_, mergePairs_sorted S1 S2 h1.2.1 h2.2.1, ?_⟩
  · exact (mergePairs_perm S1 S2).trans (List.Perm.append h1.1 h2.1)
  · intro k
    rw [mergePairs_withKey k S1 S2 h1.2.1, withKey_append, h1.2.2 k, h2.2.2 k]

/-- The function `IntSort` on an array cut as `pre ++ mid ++ post`, with `mid` the part
`l..r`: that part receives the stable sort of its pairs, the rest stays; a part that is
already sorted stays as it is. -/
theorem IntSort_spec : ∀ (n : Nat) (l r : Int) (pre mid post pre1 mid1 post1 : List Int),
    (r - l).toNat = n → 0 ≤ l → pre.length = l.toNat → pre1.length = l.toNat →
    (mid.length : Int) = r - l + 1 → mid1.length = mid.length →
    ∃ S : List (Int × Int),
      IntSort (pre ++ mid ++ post) (pre1 ++ mid1 ++ post1) l r =
        (pre ++ S.map Prod.fst ++ post, pre1 ++ S.map Prod.snd ++ post1) ∧
      IsStableSortOf (mid.zip mid1) S ∧
      (KeysSorted (mid.zip mid1) → S = mid.zip mid1) := by
  intro n
  induction n using Nat.strong_induction_on with
  | _ n ih =>
    intro l r pre mid post pre1 mid1 post1 hn hl hpre hpre1 hmid hmid1
    by_cases hlr : l < r
    · rw [IntSort, if_pos hlr]
      have hm : Int.tdiv (r - l) 2 = (r - l) / 2 := Int.tdiv_eq_ediv (by omega) (by decide)
      rw [hm]
      generalize hmdef : l + (r - l) / 2 = m
      have hm1 : l ≤ m := by omega
      have hm2 : m < r := by omega
      -- the two halves of the part `l..r`
      have hAlen : ((mid.take (m - l + 1).toNat).length : Int) = m - l + 1 := by
        rw [List.length_take]; omega
      have hA1len : (mid1.take (m - l + 1).toNat).length = (mid.take (m - l + 1).toNat).length := by
        rw [List.length_take, List.length_take, hmid1]
      have hBlen : ((mid.drop (m - l + 1).toNat).length : Int) = r - (m + 1) + 1 := by
        rw [List.length_drop]; omega
      have hB1len : (mid1.drop (m - l + 1).toNat).length = (mid.drop (m - l + 1).toNat).length := by
        rw [List.length_drop, List.length_drop, hmid1]
      have hsplit : mid = mid.take (m - l + 1).toNat ++ mid.drop (m - l + 1).toNat :=
        (List.take_append_drop _ _).symm
      have hsplit1 : mid1 = mid1.take (m - l + 1).toNat ++ mid1.drop (m - l + 1).toNat :=
        (List.take_append_drop _ _).symm
      generalize mid.take (m - l + 1).toNat = A at hAlen hA1len hsplit
      generalize mid.drop (m - l + 1).toNat = B at hBlen hB1len hsplit
      generalize mid1.take (m - l + 1).toNat = A1 at hA1len hsplit1
      generalize mid1.drop (m - l + 1).toNat = B1 at hB1len hsplit1
      subst hsplit; subst hsplit1
      -- first half
      obtain ⟨S1, hS1, hst1, hid1⟩ := ih (m - l).toNat (by omega) l m pre A (B ++ post)
        pre1 A1 (B1 ++ post1) rfl hl hpre hpre1 hAlen hA1len
      have hS1len : S1.length = A.length := by
        rw [hst1.1.length_eq, List.length_zip, hA1len, Nat.min_self]
      -- second half
      obtain ⟨S2, hS2, hst2, hid2⟩ := ih (r - (m + 1)).toNat (by omega) (m + 1) r
        (pre ++ S1.map Prod.fst) B post (pre1 ++ S1.map Prod.snd) B1 post1 rfl (by omega)
        (by simp; omega) (by simp; omega) hBlen hB1len
      have hS2len : S2.length = B.length := by
        rw [hst2.1.length_eq, List.length_zip, hB1len, Nat.min_self]
      have e1 : pre ++ (A ++ B) ++ post = pre ++ A ++ (B ++ post) := by simp
      have e2 : pre1 ++ (A1 ++ B1) ++ post1 = pre1 ++ A1 ++ (B1 ++ post1) := by simp
      have hmerge := IntMerge_spec pre (S1.map Prod.fst) (S2.map Prod.fst) post
        pre1 (S1.map Prod.snd) (S2.map Prod.snd) post1 l m r hl hpre hpre1
        (by simp; omega) (by simp) (by simp; omega) (by simp)
      rw [zip_fst_snd, zip_fst_snd] at hmerge
      refine ⟨mergePairs S1 S2, ?_, ?_, ?_⟩
      · have e3 : pre ++ S1.map Prod.fst ++ (B ++ post) = pre ++ S1.map Prod.fst ++ B ++ post := by
          simp
        have e4 : pre1 ++ S1.map Prod.snd ++ (B1 ++ post1) =
            pre1 ++ S1.map Prod.snd ++ B1 ++ post1 := by simp
        simp only [e1, e2, hS1]
        rw [e3, e4, hS2]
        exact hmerge
      · rw [List.zip_append hA1len.symm]
        exact isStableSortOf_merge _ _ _ _ hst1 hst2
      · intro hsorted
        rw [List.zip_append hA1len.symm] at hsorted ⊢
        have hsA : KeysSorted (A.zip A1) := (List.pairwise_append.mp hsorted).1
        have hsB : KeysSorted (B.zip B1) := (List.pairwise_append.mp hsorted).2.1
        rw [hid1 hsA, hid2 hsB]
        exact mergePairs_of_sorted_append _ _ hsorted
    · rw [IntSort, if_neg hlr]
      have hlen : (mid.zip mid1).length ≤ 1 := by
        rw [List.length_zip, hmid1, Nat.min_self]; omega
      refine ⟨mid.zip mid1, ?_, isStableSortOf_self _ (keysSorted_of_length_le_one _ hlen),
        fun _ => rfl⟩
      rw [List.map_fst_zip _ _ (by omega), List.map_snd_zip _ _ (by omega)]

theorem cut_eq (a : List Int) (s n : Nat) :
    a = a.take s ++ (a.drop s).take n ++ (a.drop s).drop n := by
  rw [List.append_assoc, List.take_append_drop, List.take_append_drop]

theorem segPairs_cut (pre mid post pre1 mid1 post1 : List Int) (l r : Int)
    (hpre : pre.length = l.toNat) (hpre1 : pre1.length = l.toNat)
    (hmid : (mid.length : Int) = r - l + 1) (hmid1 : mid1.length = mid.length) :
    segPairs (pre ++ mid ++ post) (pre1 ++ mid1 ++ post1) l r = mid.zip mid1 := by
  unfold segPairs
  rw [List.append_assoc, List.append_assoc, List.zip_append (hpre.trans hpre1.symm),
    List.drop_left' (by rw [List.length_zip, hpre, hpre1, Nat.min_self]),
    List.zip_append hmid1.symm,
    List.take_left' (by rw [List.length_zip, hmid1, Nat.min_self]; omega)]

/-- The value of `IntSort` on a range `l..r` of two arrays of equal length: outside the range
nothing moves, inside it stands the stable sort of the pairs. -/
theorem IntSort_range (keys values : List Int) (l r : Int)
    (hlen : values.length = keys.length) (hl : 0 ≤ l) (hlr : l ≤ r + 1)
    (hr : r < (keys.length : Int)) :
    ∃ S : List (Int × Int),
      IntSort keys values l r =
        (keys.take l.toNat ++ S.map Prod.fst ++ keys.drop (r + 1).toNat,
         values.take l.toNat ++ S.map Prod.snd ++ values.drop (r + 1).toNat) ∧
      IsStableSortOf (segPairs keys values l r) S ∧
      (KeysSorted (segPairs keys values l r) → S = segPairs keys values l r) ∧
      S.length = (r - l + 1).toNat := by
  have hk := cut_eq keys l.toNat (r - l + 1).toNat
  have hv := cut_eq values l.toNat (r - l + 1).toNat
  have hpre : (keys.take l.toNat).length = l.toNat := by rw [List.length_take]; omega
  have hpre1 : (values.take l.toNat).length = l.toNat := by rw [List.length_take]; omega
  have hmid : (((keys.drop l.toNat).take (r - l + 1).toNat).length : Int) = r - l + 1 := by
    rw [List.length_take, List.length_drop]; omega
  have hmid1 : ((values.drop l.toNat).take (r - l + 1).toNat).length =
      ((keys.drop l.toNat).take (r - l + 1).toNat).length := by
    rw [List.length_take, List.length_take, List.length_drop, List.length_drop, hlen]
  have hpost : (keys.drop l.toNat).drop (r - l + 1).toNat = keys.drop (r + 1).toNat := by
    rw [List.drop_drop]; congr 1; omega
  have hpost1 : (values.drop l.toNat).drop (r - l + 1).toNat = values.drop (r + 1).toNat := by
    rw [List.drop_drop]; congr 1; omega
  obtain ⟨S, hS, hst, hid⟩ := IntSort_spec (r - l).toNat l r (keys.take l.toNat)
    ((keys.drop l.toNat).take (r - l + 1).toNat) ((keys.drop l.toNat).drop (r - l + 1).toNat)
    (values.take l.toNat) ((values.drop l.toNat).take (r - l + 1).toNat)
    ((values.drop l.toNat).drop (r - l + 1).toNat) rfl hl hpre hpre1 hmid hmid1
  have hseg : segPairs keys values l r =
      ((keys.drop l.toNat).take (r - l + 1).toNat).zip
        ((values.drop l.toNat).take (r - l + 1).toNat) := by
    conv_lhs => rw [hk, hv]
    exact segPairs_cut _ _ _ _ _ _ l r hpre hpre1 hmid hmid1
  rw [← hk, ← hv, hpost, hpost1] at hS
  rw [← hseg] at hst hid
  refine ⟨S, hS, hst, hid, ?_⟩
  rw [hst.1.length_eq, hseg, List.length_zip, hmid1, Nat.min_self]
  omega

theorem segPairs_length (keys values : List Int) (l r : Int)
    (hlen : values.length = keys.length) (hl : 0 ≤ l)
    (hr : r < (keys.length : Int)) : (segPairs keys values l r).length = (r - l + 1).toNat := by
  unfold segPairs
  rw [List.length_take, List.length_drop, List.length_zip, hlen, Nat.min_self]
  omega

theorem segPairs_getElem_fst (keys values : List Int) (l r : Int) (i : Nat)
    (h : i < (segPairs keys values l r).length) :
    ((segPairs keys values l r)[i]).1 = keys.getD (l.toNat + i) 0 := by
  have h2 : l.toNat + i < keys.length := by
    unfold segPairs at h
    rw [List.length_take, List.length_drop, List.length_zip] at h
    omega
  unfold segPairs
  rw [List.getElem_take, List.getElem_drop, List.getElem_zip, List.getD_eq_getElem _ _ h2]

/-- Order of the array on `l..r`, stated on indices, is order of the keys of its pairs. -/
theorem sortedOn_iff_keysSorted (keys values : List Int) (l r : Int)
    (hlen : values.length = keys.length) (hl : 0 ≤ l) (hlr : l ≤ r + 1)
    (hr : r < (keys.length : Int)) :
    SortedOn keys l r ↔ KeysSorted (segPairs keys values l r) := by
  have hL := segPairs_length keys values l r hlen hl hr
  unfold KeysSorted
  rw [List.pairwise_iff_getElem]
  constructor
  · intro hs i j hi hj hij
    rw [segPairs_getElem_fst _ _ _ _ i hi, segPairs_getElem_fst _ _ _ _ j hj]
    exact hs (l.toNat + i) (by omega) (l.toNat + j) (by omega) (by omega) (by omega) (by omega)
  · intro hp i hi j hj hli hij hjr
    by_cases hne : i = j
    · subst hne; exact le_refl _
    · have h1 := hp (i - l.toNat) (j - l.toNat) (by omega) (by omega) (by omega)
      rw [segPairs_getElem_fst, segPairs_getElem_fst] at h1
      have e1 : l.toNat + (i - l.toNat) = i := by omega
      have e2 : l.toNat + (j - l.toNat) = j := by omega
      rw [e1, e2] at h1
      exact h1

theorem getElem?_outside (pre mid mid2 post : List Int) (hlen : mid2.length = mid.length)
    (i : Nat) (h : i < pre.length ∨ pre.length + mid.length ≤ i) :
    (pre ++ mid2 ++ post)[i]? = (pre ++ mid ++ post)[i]? := by
  rcases h with h | h
  · rw [List.append_assoc, List.append_assoc, List.getElem?_append_left h,
      List.getElem?_append_left h]
  · rw [List.getElem?_append_right (by simp; omega),
      List.getElem?_append_right (by simp; omega)]
    simp [hlen]

/-! ## Claims on `IntSort` -/

/-- C7: on two parallel arrays of equal length and a range `0 <= l <= r < length`, the pairs
`(keys[i], values[i])`, `i` in `l..r`, after `IntSort(keys, values, l, r)` are the stable
ascending sort by key of the pairs before it (a permutation of them, keys non-decreasing,
pairs of equal key in their original order); the arrays keep their length and every entry
outside `l..r` is unchanged. -/
theorem C7_IntSort_stable_sort (keys values : List Int) (l r : Int)
    (hlen : values.length = keys.length) (hl : 0 ≤ l) (hlr : l ≤ r)
    (hr : r < (keys.length : Int)) :
    IsStableSortOf (segPairs keys values l r)
        (segPairs (IntSort keys values l r).1 (IntSort keys values l r).2 l r) ∧
      (IntSort keys values l r).1.length = keys.length ∧
      (IntSort keys values l r).2.length = values.length ∧
      ∀ i : Nat, ((i : Int) < l ∨ r < (i : Int)) →
        (IntSort keys values l r).1[i]? = keys[i]? ∧
        (IntSort keys values l r).2[i]? = values[i]? := by
  obtain ⟨S, hS, hst, _, hSlen⟩ := IntSort_range keys values l r hlen hl (by omega) hr
  have hpre : (keys.take l.toNat).length = l.toNat := by rw [List.length_take]; omega
  have hpre1 : (values.take l.toNat).length = l.toNat := by rw [List.length_take]; omega
  have hk := cut_eq keys l.toNat (r - l + 1).toNat
  have hv := cut_eq values l.toNat (r - l + 1).toNat
  have hpost : (keys.drop l.toNat).drop (r - l + 1).toNat = keys.drop (r + 1).toNat := by
    rw [List.drop_drop]; congr 1; omega
  have hpost1 : (values.drop l.toNat).drop (r - l + 1).toNat = values.drop (r + 1).toNat := by
    rw [List.drop_drop]; congr 1; omega
  rw [hpost] at hk
  rw [hpost1] at hv
  have hmid : ((keys.drop l.toNat).take (r - l + 1).toNat).length = (r - l + 1).toNat := by
    rw [List.length_take, List.length_drop]; omega
  have hmid1 : ((values.drop l.toNat).take (r - l + 1).toNat).length = (r - l + 1).toNat := by
    rw [List.length_take, List.length_drop]; omega
  rw [hS]
  refine ⟨?_, ?_, ?_, ?_⟩
  · rw [segPairs_cut _ _ _ _ _ _ l r hpre hpre1 (by simp; omega) (by simp), zip_fst_snd]
    exact hst
  · conv_rhs => rw [hk]
    simp only [List.length_append, List.length_map, hSlen, hmid]
  · conv_rhs => rw [hv]
    simp only [List.length_append, List.length_map, hSlen, hmid1]
  · intro i hi
    have hi2 : i < (keys.take l.toNat).length ∨
        (keys.take l.toNat).length + ((keys.drop l.toNat).take (r - l + 1).toNat).length ≤ i := by
      rw [hpre, hmid]; omega
    have hi3 : i < (values.take l.toNat).length ∨
        (values.take l.toNat).length + ((values.drop l.toNat).take (r - l + 1).toNat).length ≤ i := by
      rw [hpre1, hmid1]; omega
    constructor
    · conv_rhs => rw [hk]
      exact getElem?_outside _ _ _ _ (by simp [hSlen, hmid]) i hi2
    · conv_rhs => rw [hv]
      exact getElem?_outside _ _ _ _ (by simp [hSlen, hmid1]) i hi3

/-- Witness of `C7_IntSort_stable_sort`: the range 1..3 of the keys `9 3 1 3 0` with the
values `0 1 2 3 4`. -/
theorem C7_IntSort_stable_sort_witness :
    IsStableSortOf (segPairs [9, 3, 1, 3, 0] [0, 1, 2, 3, 4] 1 3)
        (segPairs (IntSort [9, 3, 1, 3, 0] [0, 1, 2, 3, 4] 1 3).1
          (IntSort [9, 3, 1, 3, 0] [0, 1, 2, 3, 4] 1 3).2 1 3) ∧
      (IntSort [9, 3, 1, 3, 0] [0, 1, 2, 3, 4] 1 3).1.length = [(9 : Int), 3, 1, 3, 0].length ∧
      (IntSort [9, 3, 1, 3, 0] [0, 1, 2, 3, 4] 1 3).2.length = [(0 : Int), 1, 2, 3, 4].length ∧
      ∀ i : Nat, ((i : Int) < 1 ∨ 3 < (i : Int)) →
        (IntSort [9, 3, 1, 3, 0] [0, 1, 2, 3, 4] 1 3).1[i]? = [(9 : Int), 3, 1, 3, 0][i]? ∧
        (IntSort [9, 3, 1, 3, 0] [0, 1, 2, 3, 4] 1 3).2[i]? = [(0 : Int), 1, 2, 3, 4][i]? :=
  C7_IntSort_stable_sort [9, 3, 1, 3, 0] [0, 1, 2, 3, 4] 1 3 rfl (by decide) (by decide)
    (by decide)

/-- C8: sorting an already sorted range is a no-op: when `keys` is in non-decreasing order on
`l..r` (a range inside the arrays), `IntSort(keys, values, l, r)` leaves both arrays exactly as
they were. -/
theorem C8_IntSort_sorted_noop (keys values : List Int) (l r : Int)
    (hlen : values.length = keys.length) (hl : 0 ≤ l) (hr : r < (keys.length : Int))
    (hsorted : SortedOn keys l r) : IntSort keys values l r = (keys, values) := by
  by_cases hlr : l < r
  · obtain ⟨S, hS, _, hid, _⟩ := IntSort_range keys values l r hlen hl (by omega) hr
    have hS2 := hid ((sortedOn_iff_keysSorted keys values l r hlen hl (by omega) hr).mp hsorted)
    have hk := cut_eq keys l.toNat (r - l + 1).toNat
    have hv := cut_eq values l.toNat (r - l + 1).toNat
    have hpost : (keys.drop l.toNat).drop (r - l + 1).toNat = keys.drop (r + 1).toNat := by
      rw [List.drop_drop]; congr 1; omega
    have hpost1 : (values.drop l.toNat).drop (r - l + 1).toNat = values.drop (r + 1).toNat := by
      rw [List.drop_drop]; congr 1; omega
    have hfst : S.map Prod.fst = (keys.drop l.toNat).take (r - l + 1).toNat := by
      rw [hS2]; unfold segPairs
      rw [List.map_take, List.map_drop, List.map_fst_zip _ _ (by omega)]
    have hsnd : S.map Prod.snd = (values.drop l.toNat).take (r - l + 1).toNat := by
      rw [hS2]; unfold segPairs
      rw [List.map_take, List.map_drop, List.map_snd_zip _ _ (by omega)]
    rw [hS, hfst, hsnd, ← hpost, ← hpost1, ← hk, ← hv]
  · rw [IntSort, if_neg hlr]

/-- Witness of `C8_IntSort_sorted_noop`: the keys `5 1 2 2 0` are in order on 1..3. -/
theorem C8_IntSort_sorted_noop_witness :
    SortedOn [5, 1, 2, 2, 0] 1 3 ∧
      IntSort [5, 1, 2, 2, 0] [10, 11, 12, 13, 14] 1 3 =
        ([5, 1, 2, 2, 0], [10, 11, 12, 13, 14]) :=
  ⟨by decide,
    C8_IntSort_sorted_noop [5, 1, 2, 2, 0] [10, 11, 12, 13, 14] 1 3 rfl (by decide) (by decide)
      (by decide)⟩

/-! ## `BinarySearch` -/

theorem sortedOn_mono (arr : List Int) (l r l2 r2 : Int) (h : SortedOn arr l r)
    (hl : l ≤ l2) (hr : r2 ≤ r) : SortedOn arr l2 r2 :=
  fun i hi j hj hli hij hjr => h i hi j hj (by omega) hij (by omega)

/-- The search either answers `-1`, and then no entry of `l..r` is `x`, or answers an index
of `l..r` that holds `x`. -/
theorem BinarySearch_spec (arr : List Int) (x : Int) : ∀ (n : Nat) (l r : Int),
    (r - l + 1).toNat = n →
    (r < l ∨ (0 ≤ l ∧ r < (arr.length : Int) ∧ SortedOn arr l r)) →
    (BinarySearch arr l r x = -1 ∧ ∀ i : Nat, l ≤ (i : Int) → (i : Int) ≤ r → arr.getD i 0 ≠ x) ∨
    (∃ m : Nat, BinarySearch arr l r x = (m : Int) ∧ l ≤ (m : Int) ∧ (m : Int) ≤ r ∧
      arr.getD m 0 = x) := by
  intro n
  induction n using Nat.strong_induction_on with
  | _ n ih =>
    intro l r hn h
    by_cases hlr : l ≤ r
    · obtain ⟨hl0, hrlen, hs⟩ : 0 ≤ l ∧ r < (arr.length : Int) ∧ SortedOn arr l r := by
        rcases h with h | h
        · omega
        · exact h
      rw [BinarySearch, if_pos hlr]
      have hm : Int.tdiv (r - l) 2 = (r - l) / 2 := Int.tdiv_eq_ediv (by omega) (by decide)
      rw [hm]
      generalize hmdef : l + (r - l) / 2 = m
      have hm1 : l ≤ m := by omega
      have hm2 : m ≤ r := by omega
      simp only
      by_cases heq : arr.getD m.toNat 0 = x
      · rw [if_pos heq]
        right
        exact ⟨m.toNat, by omega, by omega, by omega, heq⟩
      · rw [if_neg heq]
        by_cases hlt : arr.getD m.toNat 0 < x
        · rw [if_pos hlt]
          rcases ih (r - (m + 1) + 1).toNat (by omega) (m + 1) r rfl
            (Or.inr ⟨by omega, hrlen, sortedOn_mono arr l r (m + 1) r hs (by omega) (le_refl r)⟩)
            with ⟨hres, hall⟩ | ⟨k, hres, hk1, hk2, hk3⟩
          · left
            refine ⟨hres, fun i hli hir => ?_⟩
            by_cases him : (i : Int) ≤ m
            · have := hs i (by omega) m.toNat (by omega) hli (by omega) (by omega)
              omega
            · exact hall i (by omega) hir
          · right
            exact ⟨k, hres, by omega, hk2, hk3⟩
        · rw [if_neg hlt]
          rcases ih (m - 1 - l + 1).toNat (by omega) l (m - 1) rfl
            (Or.inr ⟨hl0, by omega, sortedOn_mono arr l r l (m - 1) hs (le_refl l) (by omega)⟩)
            with ⟨hres, hall⟩ | ⟨k, hres, hk1, hk2, hk3⟩
          · left
            refine ⟨hres, fun i hli hir => ?_⟩
            by_cases him : (i : Int) < m
            · exact hall i hli (by omega)
            · have := hs m.toNat (by omega) i (by omega) (by omega) (by omega) hir
              by_cases hi2 : (i : Int) = m
              · have e : i = m.toNat := by omega
                rw [e]; exact heq
              · omega
          · right
            exact ⟨k, hres, hk1, by omega, hk3⟩
    · rw [BinarySearch, if_neg hlr]
      left
      exact ⟨rfl, fun i hli hir => by omega⟩

/-- C9: on an array sorted ascending on `l..r` (a range inside the array), `BinarySearch`
returns `-1` exactly when `x` does not occur in `arr[l..r]`; any other result is an index `m`
with `l <= m <= r` and `arr[m] = x`; on an empty range, `r < l`, it returns `-1`. The function
is total, so the loop ends on every input. -/
theorem C9_BinarySearch_correct (arr : List Int) (l r x : Int)
    (h : r < l ∨ (0 ≤ l ∧ r < (arr.length : Int) ∧ SortedOn arr l r)) :
    (BinarySearch arr l r x = -1 ↔
        ∀ i : Nat, l ≤ (i : Int) → (i : Int) ≤ r → arr.getD i 0 ≠ x) ∧
      (BinarySearch arr l r x ≠ -1 →
        l ≤ BinarySearch arr l r x ∧ BinarySearch arr l r x ≤ r ∧
          arr.getD (BinarySearch arr l r x).toNat 0 = x) ∧
      (r < l → BinarySearch arr l r x = -1) := by
  rcases BinarySearch_spec arr x _ l r rfl h with ⟨hres, hall⟩ | ⟨m, hres, hm1, hm2, hm3⟩
  · refine ⟨⟨fun _ => hall, fun _ => hres⟩, fun hne => absurd hres hne, fun _ => hres⟩
  · have hl0 : 0 ≤ l := by
      rcases h with h | h
      · omega
      · exact h.1
    refine ⟨⟨fun h1 => ?_, fun h2 => absurd hm3 (h2 m hm1 hm2)⟩, fun _ => ?_, fun h3 => by omega⟩
    · rw [hres] at h1; omega
    · rw [hres]
      exact ⟨hm1, hm2, by simpa using hm3⟩

/-- Witness of `C9_BinarySearch_correct`: the array `1 3 5 7` on the range 0..3, searched for
5. -/
theorem C9_BinarySearch_correct_witness :
    ((3 : Int) < 0 ∨ ((0 : Int) ≤ 0 ∧ (3 : Int) < ([(1 : Int), 3, 5, 7].length : Int) ∧
        SortedOn [1, 3, 5, 7] 0 3)) ∧
      ((BinarySearch [1, 3, 5, 7] 0 3 5 = -1 ↔
          ∀ i : Nat, (0 : Int) ≤ (i : Int) → (i : Int) ≤ 3 → [(1 : Int), 3, 5, 7].getD i 0 ≠ 5) ∧
        (BinarySearch [1, 3, 5, 7] 0 3 5 ≠ -1 →
          0 ≤ BinarySearch [1, 3, 5, 7] 0 3 5 ∧ BinarySearch [1, 3, 5, 7] 0 3 5 ≤ 3 ∧
            [(1 : Int), 3, 5, 7].getD (BinarySearch [1, 3, 5, 7] 0 3 5).toNat 0 = 5) ∧
        ((3 : Int) < 0 → BinarySearch [1, 3, 5, 7] 0 3 5 = -1)) :=
  ⟨Or.inr ⟨by decide, by decide, by decide⟩,
    C9_BinarySearch_correct [1, 3, 5, 7] 0 3 5 (Or.inr ⟨by decide, by decide, by decide⟩)⟩

/-! ## Lemmas on `CommonMessages` -/

theorem sortedOn_of_keysSorted (S : List (Int × Int)) (r : Int) (h : KeysSorted S) :
    SortedOn (S.map Prod.fst) 0 r := by
  intro i hi j hj _ hij _
  by_cases hne : i = j
  · subst hne; exact le_refl _
  · rw [List.getD_eq_getElem _ _ hi, List.getD_eq_getElem _ _ hj, List.getElem_map,
      List.getElem_map]
    unfold KeysSorted at h
    rw [List.pairwise_iff_getElem] at h
    exact h i j (by simpa using hi) (by simpa using hj) (by omega)

/-- Sorting a whole array of `n` pairs: the result is a sorted permutation of the pairs. -/
theorem IntSort_full (a x : List Int) (n : Nat) (ha : a.length = n) (hx : x.length = n) :
    ∃ S : List (Int × Int),
      IntSort a x 0 ((n : Int) - 1) = (S.map Prod.fst, S.map Prod.snd) ∧
      S.Perm (a.zip x) ∧ KeysSorted S ∧ S.length = n := by
  obtain ⟨S, hS, hst, _, hlen⟩ := IntSort_range a x 0 ((n : Int) - 1) (by omega) (le_refl 0)
    (by omega) (by omega)
  have hseg : segPairs a x 0 ((n : Int) - 1) = a.zip x := by
    unfold segPairs
    rw [Int.toNat_zero, List.drop_zero]
    exact List.take_of_length_le (by rw [List.length_zip]; omega)
  have e1 : a.drop ((n : Int) - 1 + 1).toNat = [] := List.drop_eq_nil_of_le (by omega)
  have e2 : x.drop ((n : Int) - 1 + 1).toNat = [] := List.drop_eq_nil_of_le (by omega)
  rw [e1, e2] at hS
  simp only [Int.toNat_zero, List.take_zero, List.nil_append, List.append_nil] at hS
  rw [hseg] at hst
  exact ⟨S, hS, hst.1, hst.2.1, by rw [hlen]; omega⟩

/-- On a sorted array of `n` entries the test `BinarySearch(...) >= 0` is membership. -/
theorem BinarySearch_hit_iff (small : List Int) (n : Nat) (v : Int) (hlen : small.length = n)
    (hs : SortedOn small 0 ((n : Int) - 1)) :
    BinarySearch small 0 ((n : Int) - 1) v ≥ 0 ↔ v ∈ small := by
  have hyp : ((n : Int) - 1 < 0 ∨ ((0 : Int) ≤ 0 ∧ (n : Int) - 1 < (small.length : Int) ∧
      SortedOn small 0 ((n : Int) - 1))) := Or.inr ⟨le_refl 0, by omega, hs⟩
  rcases BinarySearch_spec small v _ 0 ((n : Int) - 1) rfl hyp with
    ⟨hres, hall⟩ | ⟨m, hres, _, hm2, hm3⟩
  · rw [hres]
    constructor
    · intro h; omega
    · intro hv
      obtain ⟨i, hi, hiv⟩ := List.mem_iff_getElem.mp hv
      have := hall i (by omega) (by omega)
      rw [List.getD_eq_getElem _ _ hi] at this
      exact absurd hiv this
  · rw [hres]
    constructor
    · intro _
      have hm : m < small.length := by omega
      rw [List.getD_eq_getElem _ _ hm] at hm3
      rw [← hm3]
      exact List.getElem_mem hm
    · intro _; omega

/-- The `for` loop of `CommonMessages`, once the hit test is known to be membership in
`other`: the collected pairs are the pairs of the larger input whose key is in `other`. -/
theorem collect_spec (small : List Int) (nSmall : Nat) (other big bigOrig : List Int)
    (nBig : Nat) (hhit : ∀ v, BinarySearch small 0 ((nSmall : Int) - 1) v ≥ 0 ↔ v ∈ other)
    (hb : big.length = nBig) (hy : bigOrig.length = nBig) :
    CommonMessages.collect small nSmall big bigOrig nBig =
      { intersection := (restrictTo other (big.zip bigOrig)).map Prod.fst
        intersection1 := (restrictTo other (big.zip bigOrig)).map Prod.snd
        atkWinCount := (restrictTo other (big.zip bigOrig)).length } := by
  have key : ∀ n, n ≤ nBig →
      (List.range n).foldl
        (fun (acc : Collected) i =>
          if BinarySearch small 0 ((nSmall : Int) - 1) (big.getD i 0) ≥ 0 then
            { intersection := acc.intersection ++ [big.getD i 0]
              intersection1 := acc.intersection1 ++ [bigOrig.getD i 0]
              atkWinCount := acc.atkWinCount + 1 }
          else acc)
        { intersection := [], intersection1 := [], atkWinCount := 0 } =
      { intersection := (restrictTo other ((big.zip bigOrig).take n)).map Prod.fst
        intersection1 := (restrictTo other ((big.zip bigOrig).take n)).map Prod.snd
        atkWinCount := (restrictTo other ((big.zip bigOrig).take n)).length } := by
    intro n
    induction n with
    | zero => intro _; simp [restrictTo]
    | succ n ih =>
      intro hn
      have hz : n < (big.zip bigOrig).length := by rw [List.length_zip]; omega
      rw [List.range_succ, List.foldl_append, ih (by omega), List.foldl_cons, List.foldl_nil,
        List.take_succ, List.getElem?_eq_getElem hz, List.getElem_zip,
        List.getD_eq_getElem _ _ (by omega : n < big.length),
        List.getD_eq_getElem _ _ (by omega : n < bigOrig.length)]
      unfold restrictTo
      rw [List.filter_append]
      by_cases hv : big[n] ∈ other
      · rw [if_pos ((hhit _).mpr hv)]
        simp [hv]
      · rw [if_neg (fun h => hv ((hhit _).mp h))]
        simp [hv]
  unfold CommonMessages.collect
  rw [key nBig (le_refl _), List.take_of_length_le (by rw [List.length_zip]; omega)]

theorem range_map_getD (l : List Int) : (List.range l.length).map (fun i => l.getD i 0) = l := by
  apply List.ext_getElem
  · simp
  · intro i h1 h2
    simp only [List.getElem_map, List.getElem_range]
    exact List.getD_eq_getElem _ _ h2

/-- What `CommonMessages.store` leaves in the instance when the collected arrays are the two
columns of a list of pairs and the counter is its length. -/
theorem store_spec (ins : Instance) (P : List (Int × Int)) :
    CommonMessages.store ins
        { intersection := P.map Prod.fst, intersection1 := P.map Prod.snd,
          atkWinCount := P.length } =
      { ins with atkWinCount := P.length, atkWin := P.map Prod.fst, insWin := P.map Prod.snd } := by
  unfold CommonMessages.store
  by_cases h : P.length > 0
  · rw [if_pos h]
    have e1 := range_map_getD (P.map Prod.fst)
    have e2 := range_map_getD (P.map Prod.snd)
    rw [List.length_map] at e1 e2
    simp only [e1, e2]
  · rw [if_neg h]
    have : P = [] := List.eq_nil_of_length_eq_zero (by omega)
    subst this
    rfl

/-- The instance that `CommonMessages` leaves: its conflict set is the list of pairs of the
larger input (`B` when `n_a <= n_b`, `A` otherwise) whose key occurs in the other input. -/
theorem CommonMessages_ins (a x b y : List Int) (n_a n_b : Nat) (ins : Instance)
    (ha : a.length = n_a) (hx : x.length = n_a) (hb : b.length = n_b) (hy : y.length = n_b) :
    (CommonMessages a x n_a b y n_b ins).ins =
      if n_a ≤ n_b then
        { ins with
          atkWinCount := (restrictTo a (b.zip y)).length
          atkWin := (restrictTo a (b.zip y)).map Prod.fst
          insWin := (restrictTo a (b.zip y)).map Prod.snd }
      else
        { ins with
          atkWinCount := (restrictTo b (a.zip x)).length
          atkWin := (restrictTo b (a.zip x)).map Prod.fst
          insWin := (restrictTo b (a.zip x)).map Prod.snd } := by
  unfold CommonMessages
  by_cases h : n_a ≤ n_b
  · rw [if_pos h, if_pos h]
    obtain ⟨S, hS, hperm, hsorted, hlen⟩ := IntSort_full a x n_a ha hx
    simp only [hS]
    have hmem : ∀ v, v ∈ S.map Prod.fst ↔ v ∈ a := by
      intro v
      rw [(hperm.map Prod.fst).mem_iff, List.map_fst_zip _ _ (by omega)]
    have hhit : ∀ v, BinarySearch (S.map Prod.fst) 0 ((n_a : Int) - 1) v ≥ 0 ↔ v ∈ a :=
      fun v => (BinarySearch_hit_iff _ n_a v (by simp [hlen])
        (sortedOn_of_keysSorted S _ hsorted)).trans (hmem v)
    rw [collect_spec _ n_a a b y n_b hhit hb hy, store_spec]
  · rw [if_neg h, if_neg h]
    obtain ⟨S, hS, hperm, hsorted, hlen⟩ := IntSort_full b y n_b hb hy
    simp only [hS]
    have hmem : ∀ v, v ∈ S.map Prod.fst ↔ v ∈ b := by
      intro v
      rw [(hperm.map Prod.fst).mem_iff, List.map_fst_zip _ _ (by omega)]
    have hhit : ∀ v, BinarySearch (S.map Prod.fst) 0 ((n_b : Int) - 1) v ≥ 0 ↔ v ∈ b :=
      fun v => (BinarySearch_hit_iff _ n_b v (by simp [hlen])
        (sortedOn_of_keysSorted S _ hsorted)).trans (hmem v)
    rw [collect_spec _ n_b b a x n_a hhit ha hx, store_spec]

/-! ## Claims on `CommonMessages` -/

/-- C5: `CommonMessages` stores in the instance exactly the (key, origin) pairs of the larger
input (`B` when `n_a <= n_b`, otherwise `A`), in that input's order, restricted to the pairs
whose key occurs in the other input; the stored keys are exactly the keys present in both
inputs, and `atkWinCount` is the number of stored pairs. The other fields of the instance are
untouched. -/
theorem C5_CommonMessages_intersection (a x b y : List Int) (n_a n_b : Nat) (ins : Instance)
    (ha : a.length = n_a) (hx : x.length = n_a) (hb : b.length = n_b) (hy : y.length = n_b) :
    ((CommonMessages a x n_a b y n_b ins).ins.atkWin.zip
        (CommonMessages a x n_a b y n_b ins).ins.insWin =
      if n_a ≤ n_b then restrictTo a (b.zip y) else restrictTo b (a.zip x)) ∧
    (CommonMessages a x n_a b y n_b ins).ins.atkWin.length =
      (CommonMessages a x n_a b y n_b ins).ins.atkWinCount ∧
    (CommonMessages a x n_a b y n_b ins).ins.insWin.length =
      (CommonMessages a x n_a b y n_b ins).ins.atkWinCount ∧
    (∀ k, k ∈ (CommonMessages a x n_a b y n_b ins).ins.atkWin ↔ k ∈ a ∧ k ∈ b) ∧
    (CommonMessages a x n_a b y n_b ins).ins.index = ins.index ∧
    (CommonMessages a x n_a b y n_b ins).ins.atkWinLen = ins.atkWinLen ∧
    (CommonMessages a x n_a b y n_b ins).ins.attackable = ins.attackable := by
  rw [CommonMessages_ins a x b y n_a n_b ins ha hx hb hy]
  have hkeys : ∀ (other big bigOrig : List Int), big.length = bigOrig.length →
      ∀ k, k ∈ (restrictTo other (big.zip bigOrig)).map Prod.fst ↔ k ∈ big ∧ k ∈ other := by
    intro other big bigOrig hl k
    unfold restrictTo
    constructor
    · intro hk
      obtain ⟨q, hq, rfl⟩ := List.mem_map.mp hk
      obtain ⟨hq1, hq2⟩ := List.mem_filter.mp hq
      exact ⟨(List.of_mem_zip (a := q.1) (b := q.2) hq1).1, by simpa using hq2⟩
    · rintro ⟨hk1, hk2⟩
      obtain ⟨i, hi, rfl⟩ := List.mem_iff_getElem.mp hk1
      have hz : i < (big.zip bigOrig).length := by rw [List.length_zip]; omega
      refine List.mem_map.mpr ⟨(big.zip bigOrig)[i], List.mem_filter.mpr ⟨List.getElem_mem hz, ?_⟩, ?_⟩
      · rw [List.getElem_zip]; simpa using hk2
      · rw [List.getElem_zip]
  by_cases h : n_a ≤ n_b
  · simp only [if_pos h, zip_fst_snd, List.length_map, true_and]
    refine ⟨fun k => ?_, trivial⟩
    rw [hkeys a b y (by omega) k]
    exact And.comm
  · simp only [if_neg h, zip_fst_snd, List.length_map, true_and]
    exact ⟨fun k => hkeys b a x (by omega) k, trivial⟩

/-- Witness of `C5_CommonMessages_intersection`: `A` has the keys `7 3` and `B` the keys
`3 9 7 3`; the stored pairs are the pairs of `B` with key 3 or 7, in the order of `B`. -/
theorem C5_CommonMessages_intersection_witness :
    (CommonMessages [7, 3] [0, 1] 2 [3, 9, 7, 3] [10, 11, 12, 13] 4 default).ins.atkWin.zip
        (CommonMessages [7, 3] [0, 1] 2 [3, 9, 7, 3] [10, 11, 12, 13] 4 default).ins.insWin =
      [(3, 10), (7, 12), (3, 13)] :=
  (C5_CommonMessages_intersection [7, 3] [0, 1] [3, 9, 7, 3] [10, 11, 12, 13] 2 4 default
    rfl rfl rfl rfl).1.trans (by decide)

theorem restrictTo_length_le (other big bigOrig : List Int) (hl : bigOrig.length = big.length) :
    (restrictTo other (big.zip bigOrig)).length ≤ big.length := by
  unfold restrictTo
  refine le_trans (List.length_filter_le _ _) ?_
  rw [List.length_zip, hl, Nat.min_self]

theorem restrictTo_length_le_other (other big bigOrig : List Int)
    (hl : bigOrig.length = big.length) (hnd : big.Nodup) :
    (restrictTo other (big.zip bigOrig)).length ≤ other.length := by
  have hsub : ((restrictTo other (big.zip bigOrig)).map Prod.fst).Sublist big := by
    have h1 : ((restrictTo other (big.zip bigOrig)).map Prod.fst).Sublist
        ((big.zip bigOrig).map Prod.fst) := (List.filter_sublist _).map Prod.fst
    rw [List.map_fst_zip _ _ (by omega)] at h1
    exact h1
  have hnd2 : ((restrictTo other (big.zip bigOrig)).map Prod.fst).Nodup := hnd.sublist hsub
  have hss : (restrictTo other (big.zip bigOrig)).map Prod.fst ⊆ other := by
    intro k hk
    obtain ⟨q, hq, rfl⟩ := List.mem_map.mp hk
    unfold restrictTo at hq
    simpa using (List.mem_filter.mp hq).2
  have := (List.subperm_of_subset hnd2 hss).length_le
  rw [List.length_map] at this
  exact this

/-- C6 (as stated, refuted): with `A` holding the key 5 once and `B` holding it twice, the
conflict set has 2 entries, more than `min(n_a, n_b) = 1`. -/
theorem C6_counterexample :
    (CommonMessages [5] [0] 1 [5, 5] [0, 1] 2 default).ins.atkWinCount = 2 ∧
      ¬ (CommonMessages [5] [0] 1 [5, 5] [0, 1] 2 default).ins.atkWinCount ≤ min 1 2 := by
  rw [CommonMessages_ins [5] [0] [5, 5] [0, 1] 1 2 default rfl rfl rfl rfl]
  decide

/-- C6 (amended): the size of the conflict set that `CommonMessages` leaves is at most the
size of the larger input, `max(n_a, n_b)`; and it is at most `min(n_a, n_b)` when no key
occurs twice in the larger input (`B` when `n_a <= n_b`, otherwise `A`). -/
theorem C6_conflict_set_size (a x b y : List Int) (n_a n_b : Nat) (ins : Instance)
    (ha : a.length = n_a) (hx : x.length = n_a) (hb : b.length = n_b) (hy : y.length = n_b) :
    (CommonMessages a x n_a b y n_b ins).ins.atkWinCount ≤ max n_a n_b ∧
    ((if n_a ≤ n_b then b else a).Nodup →
      (CommonMessages a x n_a b y n_b ins).ins.atkWinCount ≤ min n_a n_b) := by
  rw [CommonMessages_ins a x b y n_a n_b ins ha hx hb hy]
  by_cases h : n_a ≤ n_b
  · simp only [if_pos h]
    have h1 := restrictTo_length_le a b y (by omega)
    refine ⟨by omega, fun hnd => ?_⟩
    have h2 := restrictTo_length_le_other a b y (by omega) hnd
    omega
  · simp only [if_neg h]
    have h1 := restrictTo_length_le b a x (by omega)
    refine ⟨by omega, fun hnd => ?_⟩
    have h2 := restrictTo_length_le_other b a x (by omega) hnd
    omega

/-- Witness of `C6_conflict_set_size`: `A` has the keys `7 3`, `B` the distinct keys
`3 9 7 4`. -/
theorem C6_conflict_set_size_witness :
    [(3 : Int), 9, 7, 4].Nodup ∧
      (CommonMessages [7, 3] [0, 1] 2 [3, 9, 7, 4] [10, 11, 12, 13] 4 default).ins.atkWinCount
        ≤ min 2 4 :=
  ⟨by decide,
    (C6_conflict_set_size [7, 3] [0, 1] [3, 9, 7, 4] [10, 11, 12, 13] 2 4 default
      rfl rfl rfl rfl).2 (by decide)⟩

/-! ## Lemmas on the analyzer step -/

theorem clearAccumulator_instances (c : Message) :
    (clearAccumulator c).instances = c.instances := by
  unfold clearAccumulator
  split <;> rfl

theorem getD_set_self_inst (l : List Instance) (t : Nat) (v : Instance) (ht : t < l.length) :
    (l.set t v).getD t default = v := by
  simp [List.getD_eq_getElem?_getD, List.getElem?_set, ht]

/-- A record whose identifier equals the entity's takes the commit branch of the loop body. -/
theorem analyzeEntity_self (id_to_long : String → Int) (idle : Bool) (pkt : Message)
    (cands : List Message) (c : Message) (hself : id_to_long pkt.ID = id_to_long c.ID) :
    analyzeEntity id_to_long idle pkt cands c =
      { clearAccumulator
          (if c.readCount ≥ c.count then
            commitLater c ((c.readCount + skippedSoFar c.pattern c.readCount c.count) % c.count)
          else
            commitFirst c ((c.readCount + skippedSoFar c.pattern c.readCount c.count) % c.count))
        with readCount := c.readCount + skippedSoFar c.pattern c.readCount c.count + 1 } := by
  unfold analyzeEntity
  simp only [hself]
  rw [if_neg (by simp), if_neg (by simp)]

/-! ## Claims on the commit of `AnalyzeCANTraffic` -/

/-- C10: when the loop body of `AnalyzeCANTraffic` processes a self-match record for an entity
with `readCount >= count`, the window length of the target instance becomes the minimum of
its old length and the accumulated length; when that minimum is 0 the conflict set becomes
empty (`atkWinCount = 0`); otherwise the instance is the one `CommonMessages` leaves for the
old conflict set and the accumulated one, and (for arrays as long as their counts) its
conflict set is the intersection computed from the larger of the two. -/
theorem C10_later_hyperperiod_commit (id_to_long : String → Int) (idle : Bool) (pkt : Message)
    (cands : List Message) (c : Message) (t : Nat)
    (hself : id_to_long pkt.ID = id_to_long c.ID) (hlater : c.count ≤ c.readCount)
    (htdef : t = (c.readCount + skippedSoFar c.pattern c.readCount c.count) % c.count)
    (ht : t < c.instances.length) :
    ((analyzeEntity id_to_long idle pkt cands c).instances.getD t default).atkWinLen =
        min (c.instances.getD t default).atkWinLen c.tAtkWinLen ∧
    (min (c.instances.getD t default).atkWinLen c.tAtkWinLen = 0 →
      ((analyzeEntity id_to_long idle pkt cands c).instances.getD t default).atkWinCount = 0 ∧
      ((analyzeEntity id_to_long idle pkt cands c).instances.getD t default).atkWin = [] ∧
      ((analyzeEntity id_to_long idle pkt cands c).instances.getD t default).insWin = []) ∧
    (min (c.instances.getD t default).atkWinLen c.tAtkWinLen ≠ 0 →
      (analyzeEntity id_to_long idle pkt cands c).instances.getD t default =
        (CommonMessages (c.instances.getD t default).atkWin (c.instances.getD t default).insWin
          (c.instances.getD t default).atkWinCount c.tAtkWin c.tInsWin c.tAtkWinCount
          { c.instances.getD t default with
            atkWinLen := min (c.instances.getD t default).atkWinLen c.tAtkWinLen }).ins ∧
      ((c.instances.getD t default).atkWin.length = (c.instances.getD t default).atkWinCount →
        (c.instances.getD t default).insWin.length = (c.instances.getD t default).atkWinCount →
        c.tAtkWin.length = c.tAtkWinCount → c.tInsWin.length = c.tAtkWinCount →
        ((analyzeEntity id_to_long idle pkt cands c).instances.getD t default).atkWin.zip
            ((analyzeEntity id_to_long idle pkt cands c).instances.getD t default).insWin =
          if (c.instances.getD t default).atkWinCount ≤ c.tAtkWinCount then
            restrictTo (c.instances.getD t default).atkWin (c.tAtkWin.zip c.tInsWin)
          else
            restrictTo c.tAtkWin
              ((c.instances.getD t default).atkWin.zip (c.instances.getD t default).insWin))) := by
  have hres : (analyzeEntity id_to_long idle pkt cands c).instances =
      (commitLater c t).instances := by
    rw [analyzeEntity_self id_to_long idle pkt cands c hself, if_pos hlater, ← htdef]
    exact clearAccumulator_instances _
  rw [hres]
  unfold commitLater
  simp only
  by_cases hz : min (c.instances.getD t default).atkWinLen c.tAtkWinLen = 0
  · rw [if_pos hz, getD_set_self_inst _ _ _ ht]
    exact ⟨rfl, fun _ => ⟨rfl, rfl, rfl⟩, fun h => absurd hz h⟩
  · rw [if_neg hz, getD_set_self_inst _ _ _ ht]
    refine ⟨?_, fun h => absurd h hz, fun _ => ⟨rfl, ?_⟩⟩
    · by_cases hle : (c.instances.getD t default).atkWinCount ≤ c.tAtkWinCount
      · simp only [CommonMessages, if_pos hle, CommonMessages.store]
        split <;> rfl
      · simp only [CommonMessages, if_neg hle, CommonMessages.store]
        split <;> rfl
    · intro h1 h2 h3 h4
      rw [CommonMessages_ins _ _ _ _ _ _ _ h1 h2 h3 h4]
      split <;> simp [zip_fst_snd]

/-- Witness of `C10_later_hyperperiod_commit`: `laterEntity` commits on its instance 0; the
window length becomes `min 200 111`. -/
theorem C10_later_hyperperiod_commit_witness :
    decimalId selfRecord.ID = decimalId laterEntity.ID ∧
      laterEntity.count ≤ laterEntity.readCount ∧
      0 = (laterEntity.readCount +
        skippedSoFar laterEntity.pattern laterEntity.readCount laterEntity.count)
          % laterEntity.count ∧
      0 < laterEntity.instances.length ∧
      ((analyzeEntity decimalId false selfRecord [laterEntity] laterEntity).instances.getD 0
          default).atkWinLen =
        min (laterEntity.instances.getD 0 default).atkWinLen laterEntity.tAtkWinLen :=
  ⟨by decide, by decide, by decide, by decide,
    (C10_later_hyperperiod_commit decimalId false selfRecord [laterEntity] laterEntity 0
      (by decide) (by decide) (by decide) (by decide)).1⟩

/-! ## The loop over the candidates and the loop over the trace -/

/-- The loop over the candidates, run for its first `m` iterations: the list keeps its
length, each of the first `m` candidates has been put through the loop body (with the list
as it stood then), the others are untouched. -/
theorem analyzePacket_prefix (id_to_long : String → Int) (idle : Bool) (pkt : Message)
    (cands : List Message) : ∀ m, m ≤ cands.length →
    ((List.range m).foldl
        (fun cs i => cs.set i (analyzeEntity id_to_long idle pkt cs (cs.getD i default)))
        cands).length = cands.length ∧
    (∀ i, i < m → ∃ cs : List Message,
      ((List.range m).foldl
        (fun cs i => cs.set i (analyzeEntity id_to_long idle pkt cs (cs.getD i default)))
        cands).getD i default = analyzeEntity id_to_long idle pkt cs (cands.getD i default)) ∧
    (∀ i, m ≤ i →
      ((List.range m).foldl
        (fun cs i => cs.set i (analyzeEntity id_to_long idle pkt cs (cs.getD i default)))
        cands).getD i default = cands.getD i default) := by
  intro m
  induction m with
  | zero =>
    intro _
    exact ⟨rfl, fun i hi => absurd hi (Nat.not_lt_zero i), fun _ _ => rfl⟩
  | succ m ih =>
    intro hm
    obtain ⟨hlen, hdone, hrest⟩ := ih (by omega)
    rw [List.range_succ, List.foldl_append, List.foldl_cons, List.foldl_nil]
    generalize hcs : (List.range m).foldl
        (fun cs i => cs.set i (analyzeEntity id_to_long idle pkt cs (cs.getD i default)))
        cands = cs at hlen hdone hrest
    refine ⟨by rw [List.length_set]; exact hlen, ?_, ?_⟩
    · intro i hi
      by_cases him : i = m
      · subst him
        refine ⟨cs, ?_⟩
        rw [List.getD_eq_getElem?_getD, List.getElem?_set_self (by omega), hrest i (le_refl i)]
        rfl
      · obtain ⟨cs0, h0⟩ := hdone i (by omega)
        refine ⟨cs0, ?_⟩
        rw [← h0, List.getD_eq_getElem?_getD, List.getElem?_set_ne (by omega),
          ← List.getD_eq_getElem?_getD]
    · intro i hi
      rw [List.getD_eq_getElem?_getD, List.getElem?_set_ne (by omega),
        ← List.getD_eq_getElem?_getD]
      exact hrest i (by omega)

/-- After the loop over the candidates, each candidate is the result of the loop body on
what it was before, and the list keeps its length. -/
theorem analyzePacket_entity (id_to_long : String → Int) (idleGap : Message → Message → Bool)
    (pkt next : Message) (cands : List Message) :
    (analyzePacket id_to_long idleGap pkt next cands).length = cands.length ∧
    ∀ i, i < cands.length → ∃ cs : List Message,
      (analyzePacket id_to_long idleGap pkt next cands).getD i default =
        analyzeEntity id_to_long (idleGap pkt next) pkt cs (cands.getD i default) := by
  obtain ⟨h1, h2, _⟩ := analyzePacket_prefix id_to_long (idleGap pkt next) pkt cands
    cands.length (le_refl _)
  exact ⟨h1, h2⟩

/-- One more record: the run over `n + 2` records is the run over `n + 1` records followed
by the loop over the candidates for record `n`, whose successor is record `n + 1`. -/
theorem AnalyzeCANTraffic_succ (id_to_long : String → Int)
    (idleGap : Message → Message → Bool) (T : List Message) (n : Nat) (cands : List Message) :
    AnalyzeCANTraffic id_to_long idleGap T (n + 2) cands =
      analyzePacket id_to_long idleGap (T.getD n default) (T.getD (n + 1) default)
        (AnalyzeCANTraffic id_to_long idleGap T (n + 1) cands) := by
  unfold AnalyzeCANTraffic
  have e1 : n + 2 - 1 = n + 1 := by omega
  have e2 : n + 1 - 1 = n := by omega
  rw [e1, e2, List.range_succ, List.foldl_append, List.foldl_cons, List.foldl_nil]

theorem AnalyzeCANTraffic_le_one (id_to_long : String → Int)
    (idleGap : Message → Message → Bool) (T : List Message) (n : Nat) (hn : n ≤ 1)
    (cands : List Message) : AnalyzeCANTraffic id_to_long idleGap T n cands = cands := by
  unfold AnalyzeCANTraffic
  have e : n - 1 = 0 := by omega
  rw [e]; rfl

/-! ## The three branches of the loop body -/

/-- A record of lower priority, or one followed by an idle gap and carrying another
identifier, takes the reset branch. -/
theorem analyzeEntity_reset (id_to_long : String → Int) (idle : Bool) (pkt : Message)
    (cands : List Message) (c : Message)
    (h : id_to_long pkt.ID > id_to_long c.ID ∨
      (idle = true ∧ id_to_long pkt.ID ≠ id_to_long c.ID)) :
    analyzeEntity id_to_long idle pkt cands c = clearAccumulator c := by
  unfold analyzeEntity
  simp only
  rw [if_pos h]

/-- A record of higher priority that is not followed by an idle gap takes the accumulate
branch. -/
theorem analyzeEntity_accumulate (id_to_long : String → Int) (pkt : Message)
    (cands : List Message) (c : Message) (h : id_to_long pkt.ID < id_to_long c.ID) :
    analyzeEntity id_to_long false pkt cands c =
      { c with
        tAtkWinCount := c.tAtkWinCount + 1
        tAtkWinLen := c.tAtkWinLen + pkt.DLC * 8 + 47
        tAtkWin := (if c.tAtkWinCount + 1 = 1 then [] else c.tAtkWin) ++ [id_to_long pkt.ID]
        tInsWin := (if c.tAtkWinCount + 1 = 1 then [] else c.tInsWin) ++
          [GetCurrentInstance cands pkt.ID] } := by
  unfold analyzeEntity
  simp only
  rw [if_neg (by simp; omega), if_pos h]

/-- The three branches: whatever the record, the loop body is one of the reset, the
accumulate and the commit. -/
theorem analyzeEntity_cases (id_to_long : String → Int) (idle : Bool) (pkt : Message)
    (cands : List Message) (c : Message) :
    analyzeEntity id_to_long idle pkt cands c = clearAccumulator c ∨
    (id_to_long pkt.ID < id_to_long c.ID ∧ idle = false ∧
      analyzeEntity id_to_long idle pkt cands c =
        { c with
          tAtkWinCount := c.tAtkWinCount + 1
          tAtkWinLen := c.tAtkWinLen + pkt.DLC * 8 + 47
          tAtkWin := (if c.tAtkWinCount + 1 = 1 then [] else c.tAtkWin) ++ [id_to_long pkt.ID]
          tInsWin := (if c.tAtkWinCount + 1 = 1 then [] else c.tInsWin) ++
            [GetCurrentInstance cands pkt.ID] }) ∨
    (id_to_long pkt.ID = id_to_long c.ID ∧
      analyzeEntity id_to_long idle pkt cands c =
        { clearAccumulator
            (if c.readCount ≥ c.count then
              commitLater c ((c.readCount + skippedSoFar c.pattern c.readCount c.count) % c.count)
            else
              commitFirst c
                ((c.readCount + skippedSoFar c.pattern c.readCount c.count) % c.count))
          with readCount := c.readCount + skippedSoFar c.pattern c.readCount c.count + 1 }) := by
  by_cases h1 : id_to_long pkt.ID > id_to_long c.ID ∨
      (idle = true ∧ id_to_long pkt.ID ≠ id_to_long c.ID)
  · exact Or.inl (analyzeEntity_reset id_to_long idle pkt cands c h1)
  · by_cases h2 : id_to_long pkt.ID < id_to_long c.ID
    · right; left
      have hidle : idle = false := by
        cases idle with
        | false => rfl
        | true => exact absurd (Or.inr ⟨rfl, by omega⟩) h1
      subst hidle
      exact ⟨h2, rfl, analyzeEntity_accumulate id_to_long pkt cands c h2⟩
    · right; right
      have heq : id_to_long pkt.ID = id_to_long c.ID := by
        have : ¬ id_to_long pkt.ID > id_to_long c.ID := fun h => h1 (Or.inl h)
        omega
      exact ⟨heq, analyzeEntity_self id_to_long idle pkt cands c heq⟩

/-! ## Well-formed states are kept by the analyzer -/

theorem CommonMessages_by_length (a x b y : List Int) (n_a n_b : Nat) (ins : Instance)
    (hb : b.length = n_b) (hy : y.length = n_b) :
    (CommonMessages a x n_a b y n_b ins).b.length = n_b ∧
    (CommonMessages a x n_a b y n_b ins).y.length = n_b := by
  unfold CommonMessages
  by_cases h : n_a ≤ n_b
  · rw [if_pos h]; exact ⟨hb, hy⟩
  · rw [if_neg h]
    obtain ⟨S, hS, _, _, hlen⟩ := IntSort_full b y n_b hb hy
    simp only [hS, List.length_map, hlen, and_self]

theorem clearAccumulator_wf (c : Message) (h : EntityWF c) : EntityWF (clearAccumulator c) := by
  unfold clearAccumulator
  split
  · exact ⟨le_refl 0, fun _ => rfl, rfl, rfl, h.2.2.2.2⟩
  · exact h

theorem mem_set_wf (l : List Instance) (t : Nat) (v : Instance) (hv : InstanceWF v)
    (hl : ∀ ins ∈ l, InstanceWF ins) : ∀ ins ∈ l.set t v, InstanceWF ins := by
  intro ins hins
  rcases List.mem_or_eq_of_mem_set hins with h | h
  · exact hl ins h
  · rw [h]; exact hv

theorem getD_wf (l : List Instance) (t : Nat) (hl : ∀ ins ∈ l, InstanceWF ins) :
    InstanceWF (l.getD t default) := by
  by_cases ht : t < l.length
  · rw [List.getD_eq_getElem _ _ ht]
    exact hl _ (List.getElem_mem ht)
  · rw [List.getD_eq_getElem?_getD, List.getElem?_eq_none (by omega)]
    exact ⟨le_refl 0, rfl, rfl⟩

theorem commitFirst_wf (c : Message) (t : Nat) (h : EntityWF c) : EntityWF (commitFirst c t) := by
  obtain ⟨h1, h2, h3, h4, h5⟩ := h
  unfold commitFirst
  refine ⟨h1, h2, h3, h4, ?_⟩
  apply mem_set_wf _ _ _ _ h5
  exact ⟨h1, by simp, by simp⟩

theorem commitLater_wf (c : Message) (t : Nat) (h : EntityWF c) : EntityWF (commitLater c t) := by
  obtain ⟨h1, h2, h3, h4, h5⟩ := h
  have hold := getD_wf c.instances t h5
  unfold commitLater
  simp only
  split
  · refine ⟨h1, h2, h3, h4, ?_⟩
    apply mem_set_wf _ _ _ _ h5
    exact ⟨by simp only; exact le_min hold.1 h1, rfl, rfl⟩
  · have hby := CommonMessages_by_length (c.instances.getD t default).atkWin
      (c.instances.getD t default).insWin c.tAtkWin c.tInsWin
      (c.instances.getD t default).atkWinCount c.tAtkWinCount
      { c.instances.getD t default with
        atkWinLen := min (c.instances.getD t default).atkWinLen c.tAtkWinLen } h3 h4
    refine ⟨h1, h2, hby.1, hby.2, ?_⟩
    apply mem_set_wf _ _ _ _ h5
    rw [CommonMessages_ins _ _ _ _ _ _ _ hold.2.1 hold.2.2 h3 h4]
    split
    · exact ⟨by simp only; exact le_min hold.1 h1, by simp, by simp⟩
    · exact ⟨by simp only; exact le_min hold.1 h1, by simp, by simp⟩

/-- The loop body keeps a well-formed state well formed, for a record of non-negative
size. -/
theorem analyzeEntity_wf (id_to_long : String → Int) (idle : Bool) (pkt : Message)
    (cands : List Message) (c : Message) (hd : 0 ≤ pkt.DLC) (h : EntityWF c) :
    EntityWF (analyzeEntity id_to_long idle pkt cands c) := by
  rcases analyzeEntity_cases id_to_long idle pkt cands c with hr | ⟨_, _, hr⟩ | ⟨_, hr⟩
  · rw [hr]; exact clearAccumulator_wf c h
  · rw [hr]
    obtain ⟨h1, h2, h3, h4, h5⟩ := h
    refine ⟨by simp only; omega, fun h0 => by simp only at h0; omega, ?_, ?_, h5⟩
    · simp only
      split
      · next hc => simp; omega
      · simp [h3]
    · simp only
      split
      · next hc => simp; omega
      · simp [h4]
  · rw [hr]
    have hc1 : EntityWF (clearAccumulator
        (if c.readCount ≥ c.count then
          commitLater c ((c.readCount + skippedSoFar c.pattern c.readCount c.count) % c.count)
        else
          commitFirst c
            ((c.readCount + skippedSoFar c.pattern c.readCount c.count) % c.count))) := by
      apply clearAccumulator_wf
      split
      · exact commitLater_wf c _ h
      · exact commitFirst_wf c _ h
    exact hc1

theorem initEntity_wf (ID : String) (periodicity : Rat) (count : Nat) (skipLimit : Int) :
    EntityWF (initEntity ID periodicity count skipLimit) := by
  refine ⟨le_refl 0, fun _ => rfl, rfl, rfl, ?_⟩
  intro ins hins
  unfold initEntity at hins
  obtain ⟨j, _, rfl⟩ := List.mem_map.mp hins
  exact ⟨le_refl 0, rfl, rfl⟩

/-- The loop over the candidates keeps all states well formed. -/
theorem analyzePacket_wf (id_to_long : String → Int) (idleGap : Message → Message → Bool)
    (pkt next : Message) (cands : List Message) (hd : 0 ≤ pkt.DLC)
    (h : ∀ i, i < cands.length → EntityWF (cands.getD i default)) :
    ∀ i, i < (analyzePacket id_to_long idleGap pkt next cands).length →
      EntityWF ((analyzePacket id_to_long idleGap pkt next cands).getD i default) := by
  obtain ⟨hlen, hent⟩ := analyzePacket_entity id_to_long idleGap pkt next cands
  intro i hi
  rw [hlen] at hi
  obtain ⟨cs, hcs⟩ := hent i hi
  rw [hcs]
  exact analyzeEntity_wf id_to_long _ pkt cs _ hd (h i hi)

/-- A run of the analyzer over a trace of non-negative sizes keeps all states well
formed. -/
theorem wf_AnalyzeCANTraffic (id_to_long : String → Int) (idleGap : Message → Message → Bool)
    (T : List Message) (hT : ∀ j, 0 ≤ (T.getD j default).DLC) :
    ∀ (n : Nat) (cands : List Message),
      (∀ i, i < cands.length → EntityWF (cands.getD i default)) →
      (AnalyzeCANTraffic id_to_long idleGap T n cands).length = cands.length ∧
      ∀ i, i < cands.length →
        EntityWF ((AnalyzeCANTraffic id_to_long idleGap T n cands).getD i default) := by
  intro n
  induction n with
  | zero =>
    intro cands h
    rw [AnalyzeCANTraffic_le_one _ _ _ 0 (by omega)]
    exact ⟨rfl, h⟩
  | succ n ih =>
    intro cands h
    cases n with
    | zero =>
      rw [AnalyzeCANTraffic_le_one _ _ _ 1 (by omega)]
      exact ⟨rfl, h⟩
    | succ n =>
      obtain ⟨hlen, hwf⟩ := ih cands h
      rw [AnalyzeCANTraffic_succ]
      have hlen2 := (analyzePacket_entity id_to_long idleGap (T.getD n default)
        (T.getD (n + 1) default) (AnalyzeCANTraffic id_to_long idleGap T (n + 1) cands)).1
      refine ⟨hlen2.trans hlen, fun i hi => ?_⟩
      apply analyzePacket_wf id_to_long idleGap _ _ _ (hT n)
      · intro i2 hi2; rw [hlen] at hi2; exact hwf i2 hi2
      · rw [hlen2, hlen]; exact hi

/-! ## Claims on the zero fold and on the minimum -/

/-- The instances after a commit are those of `commitLater` or `commitFirst`. -/
theorem analyzeEntity_self_instances (id_to_long : String → Int) (idle : Bool) (pkt : Message)
    (cands : List Message) (c : Message) (hself : id_to_long pkt.ID = id_to_long c.ID) :
    (analyzeEntity id_to_long idle pkt cands c).instances =
      (if c.readCount ≥ c.count then
        commitLater c ((c.readCount + skippedSoFar c.pattern c.readCount c.count) % c.count)
      else
        commitFirst c
          ((c.readCount + skippedSoFar c.pattern c.readCount c.count) % c.count)).instances := by
  rw [analyzeEntity_self id_to_long idle pkt cands c hself]
  exact clearAccumulator_instances _

/-- C11: zero fold. When a self-match is committed for an entity in a well-formed state whose
accumulated window length is 0, the target instance gets window length 0 and an empty
conflict set (`atkWinCount = 0`), whatever its window length and conflict set were and
whether the commit is in the first or in a later hyper-period. -/
theorem C11_zero_fold (id_to_long : String → Int) (idle : Bool) (pkt : Message)
    (cands : List Message) (c : Message) (t : Nat)
    (hself : id_to_long pkt.ID = id_to_long c.ID) (hwf : EntityWF c)
    (hzero : c.tAtkWinLen = 0)
    (htdef : t = (c.readCount + skippedSoFar c.pattern c.readCount c.count) % c.count)
    (ht : t < c.instances.length) :
    ((analyzeEntity id_to_long idle pkt cands c).instances.getD t default).atkWinLen = 0 ∧
    ((analyzeEntity id_to_long idle pkt cands c).instances.getD t default).atkWinCount = 0 ∧
    ((analyzeEntity id_to_long idle pkt cands c).instances.getD t default).atkWin = [] ∧
    ((analyzeEntity id_to_long idle pkt cands c).instances.getD t default).insWin = [] := by
  obtain ⟨_, h2, _, _, h5⟩ := hwf
  have hcnt : c.tAtkWinCount = 0 := h2 hzero
  have hold := (getD_wf c.instances t h5).1
  rw [analyzeEntity_self_instances id_to_long idle pkt cands c hself, ← htdef]
  by_cases hlater : c.readCount ≥ c.count
  · rw [if_pos hlater]
    unfold commitLater
    simp only
    have hmin : min (c.instances.getD t default).atkWinLen c.tAtkWinLen = 0 := by
      rw [hzero]; exact min_eq_right hold
    rw [if_pos hmin, getD_set_self_inst _ _ _ ht]
    exact ⟨hmin, rfl, rfl, rfl⟩
  · rw [if_neg hlater]
    unfold commitFirst
    simp only
    rw [getD_set_self_inst _ _ _ ht, hcnt]
    exact ⟨hzero, rfl, rfl, rfl⟩

/-- Witness of `C11_zero_fold`: `laterEntityIdle`, in its second hyper-period, commits with
an empty accumulator on instance 0, which held the window length 200 and two conflicts. -/
theorem C11_zero_fold_witness :
    EntityWF laterEntityIdle ∧ laterEntityIdle.count ≤ laterEntityIdle.readCount ∧
      (laterEntityIdle.instances.getD 0 default).atkWinLen = 200 ∧
      ((analyzeEntity decimalId false selfRecord [laterEntityIdle]
          laterEntityIdle).instances.getD 0 default).atkWinLen = 0 ∧
      ((analyzeEntity decimalId false selfRecord [laterEntityIdle]
          laterEntityIdle).instances.getD 0 default).atkWinCount = 0 :=
  have hwf : EntityWF laterEntityIdle :=
    ⟨by decide, fun _ => rfl, rfl, rfl, by
      intro ins hins
      simp only [laterEntityIdle, laterEntity, List.mem_cons, List.mem_singleton,
        List.not_mem_nil, or_false] at hins
      rcases hins with h | h <;> subst h <;> exact ⟨by decide, rfl, rfl⟩⟩
  have h := C11_zero_fold decimalId false selfRecord [laterEntityIdle] laterEntityIdle 0
    (by decide) hwf rfl (by decide) (by decide)
  ⟨hwf, by decide, by decide, h.1, h.2.1⟩

theorem CommonMessages_atkWinLen (a x b y : List Int) (n_a n_b : Nat) (ins : Instance) :
    (CommonMessages a x n_a b y n_b ins).ins.atkWinLen = ins.atkWinLen := by
  by_cases hle : n_a ≤ n_b
  · simp only [CommonMessages, if_pos hle, CommonMessages.store]
    split <;> rfl
  · simp only [CommonMessages, if_neg hle, CommonMessages.store]
    split <;> rfl

theorem getD_set_other_inst (l : List Instance) (t p : Nat) (v : Instance) (h : p ≠ t) :
    (l.set t v).getD p default = l.getD p default := by
  simp [List.getD_eq_getElem?_getD, List.getElem?_set, Ne.symm h]

theorem clearAccumulator_count (c : Message) : (clearAccumulator c).count = c.count := by
  unfold clearAccumulator
  split <;> rfl

theorem clearAccumulator_readCount (c : Message) :
    (clearAccumulator c).readCount = c.readCount := by
  unfold clearAccumulator
  split <;> rfl

theorem clearAccumulator_pattern (c : Message) : (clearAccumulator c).pattern = c.pattern := by
  unfold clearAccumulator
  split <;> rfl

/-- The window length that `commitLater` leaves at each position: the minimum at the target,
the old one elsewhere. -/
theorem commitLater_atkWinLen (c : Message) (t p : Nat) :
    (((commitLater c t).instances.getD p default).atkWinLen =
        if p = t ∧ t < c.instances.length then
          min (c.instances.getD t default).atkWinLen c.tAtkWinLen
        else (c.instances.getD p default).atkWinLen) ∧
    (commitLater c t).count = c.count ∧ (commitLater c t).readCount = c.readCount := by
  unfold commitLater
  simp only
  by_cases hpt : p = t ∧ t < c.instances.length
  · rw [if_pos hpt]
    obtain ⟨hp, ht⟩ := hpt
    subst hp
    split
    · rw [getD_set_self_inst _ _ _ ht]; exact ⟨rfl, rfl, rfl⟩
    · rw [getD_set_self_inst _ _ _ ht]
      exact ⟨CommonMessages_atkWinLen _ _ _ _ _ _ _, rfl, rfl⟩
  · rw [if_neg hpt]
    have hsame : ∀ v : Instance, (c.instances.set t v).getD p default =
        c.instances.getD p default := by
      intro v
      by_cases h : p = t
      · subst h
        have ht : ¬ p < c.instances.length := fun h2 => hpt ⟨rfl, h2⟩
        rw [List.set_eq_of_length_le (by omega)]
      · exact getD_set_other_inst _ _ _ _ h
    split
    · rw [hsame]; exact ⟨rfl, rfl, rfl⟩
    · rw [hsame]; exact ⟨rfl, rfl, rfl⟩

/-- From the second hyper-period on, the loop body never raises a window length, and the
entity stays in its second or later hyper-period. -/
theorem analyzeEntity_later_mono (id_to_long : String → Int) (idle : Bool) (pkt : Message)
    (cands : List Message) (c : Message) (hlater : c.count ≤ c.readCount) :
    (analyzeEntity id_to_long idle pkt cands c).count = c.count ∧
    c.readCount ≤ (analyzeEntity id_to_long idle pkt cands c).readCount ∧
    ∀ p, ((analyzeEntity id_to_long idle pkt cands c).instances.getD p default).atkWinLen ≤
      (c.instances.getD p default).atkWinLen := by
  rcases analyzeEntity_cases id_to_long idle pkt cands c with hr | ⟨_, _, hr⟩ | ⟨_, hr⟩
  · rw [hr, clearAccumulator_count, clearAccumulator_readCount, clearAccumulator_instances]
    exact ⟨rfl, le_refl _, fun _ => le_refl _⟩
  · rw [hr]
    exact ⟨rfl, le_refl _, fun _ => le_refl _⟩
  · rw [hr, if_pos hlater]
    simp only [clearAccumulator_count, clearAccumulator_instances]
    obtain ⟨_, hcount, _⟩ := commitLater_atkWinLen c
      ((c.readCount + skippedSoFar c.pattern c.readCount c.count) % c.count) 0
    refine ⟨hcount, by omega, fun p => ?_⟩
    rw [(commitLater_atkWinLen c _ p).1]
    split
    · next h => rw [h.1]; exact min_le_left _ _
    · exact le_refl _

/-- A run of the analyzer that starts with every entity in its second or later hyper-period
never raises a window length. -/
theorem AnalyzeCANTraffic_later_mono (id_to_long : String → Int)
    (idleGap : Message → Message → Bool) (T : List Message) :
    ∀ (n : Nat) (cands : List Message),
      (∀ i, i < cands.length → (cands.getD i default).count ≤ (cands.getD i default).readCount) →
      (AnalyzeCANTraffic id_to_long idleGap T n cands).length = cands.length ∧
      ∀ i, i < cands.length →
        ((AnalyzeCANTraffic id_to_long idleGap T n cands).getD i default).count =
          (cands.getD i default).count ∧
        (cands.getD i default).readCount ≤
          ((AnalyzeCANTraffic id_to_long idleGap T n cands).getD i default).readCount ∧
        ∀ p,
          (((AnalyzeCANTraffic id_to_long idleGap T n cands).getD i default).instances.getD p
              default).atkWinLen ≤
            ((cands.getD i default).instances.getD p default).atkWinLen := by
  intro n
  induction n with
  | zero =>
    intro cands _
    rw [AnalyzeCANTraffic_le_one _ _ _ 0 (by omega)]
    exact ⟨rfl, fun i _ => ⟨rfl, le_refl _, fun _ => le_refl _⟩⟩
  | succ n ih =>
    intro cands h
    cases n with
    | zero =>
      rw [AnalyzeCANTraffic_le_one _ _ _ 1 (by omega)]
      exact ⟨rfl, fun i _ => ⟨rfl, le_refl _, fun _ => le_refl _⟩⟩
    | succ n =>
      obtain ⟨hlen, hprev⟩ := ih cands h
      rw [AnalyzeCANTraffic_succ]
      obtain ⟨hlen2, hent⟩ := analyzePacket_entity id_to_long idleGap (T.getD n default)
        (T.getD (n + 1) default) (AnalyzeCANTraffic id_to_long idleGap T (n + 1) cands)
      refine ⟨hlen2.trans hlen, fun i hi => ?_⟩
      obtain ⟨cs, hcs⟩ := hent i (by rw [hlen]; exact hi)
      obtain ⟨hc1, hc2, hc3⟩ := hprev i hi
      obtain ⟨hs1, hs2, hs3⟩ := analyzeEntity_later_mono id_to_long
        (idleGap (T.getD n default) (T.getD (n + 1) default)) (T.getD n default) cs
        ((AnalyzeCANTraffic id_to_long idleGap T (n + 1) cands).getD i default)
        (by rw [hc1]; exact le_trans (h i hi) hc2)
      rw [hcs]
      exact ⟨hs1.trans hc1, le_trans hc2 hs2, fun p => le_trans (hs3 p) (hc3 p)⟩

/-! ## Claim C12 -/

/-- C12 (as stated, refuted): the entity `20` (two instances) receives a commit on its
instance 0 in the first run over `shortTrace` (window length 103, `readCount` 1) and has no
attackable instance, so Strategy 1 makes no call for it. The entity `30` is attackable but
cannot skip (its own skip is rejected) and holds `20` at position 1 of its conflict set,
so Strategy 2 puts a skip at index 1 of the pattern of `20`, which passes the gate. In the
second run the first record of `20` is committed with `readCount = 1 < count = 2` on instance
0 again: its window length is overwritten with the accumulated 309, not folded to
`min 103 309`, and has grown from one commit to the next. -/
theorem C12_counterexample :
    (afterRoundOne.getD 0 default).readCount = 1 ∧
    ((afterRoundOne.getD 0 default).instances.getD 0 default).atkWinLen = 103 ∧
    (∀ ins ∈ (afterRoundOne.getD 0 default).instances, ¬ ins.atkWinLen ≥ minAtkWinLen) ∧
    ((afterRoundOne.getD 1 default).instances.getD 0 default).atkWinLen ≥ minAtkWinLen ∧
    IfSkipPossible (afterRoundOne.getD 1 default).pattern 1 1 0 = (0, [1]) ∧
    CheckMembership ((afterRoundOne.getD 1 default).instances.getD 0 default).atkWin
      ((afterRoundOne.getD 1 default).instances.getD 0 default).atkWinCount
      (decimalId (afterRoundOne.getD 0 default).ID) = 1 ∧
    IfSkipPossible (afterRoundOne.getD 0 default).pattern 2 3 1 = (1, [1, 0]) ∧
    ((AnalyzeCANTraffic decimalId noGap shortTrace 2 beforeRoundTwo).getD 0 default).readCount
      = 1 ∧
    ((AnalyzeCANTraffic decimalId noGap shortTrace 2 beforeRoundTwo).getD 0 default).tAtkWinLen
      = 309 ∧
    (((AnalyzeCANTraffic decimalId noGap shortTrace 3 beforeRoundTwo).getD 0
      default).instances.getD 0 default).atkWinLen = 309 ∧
    (((AnalyzeCANTraffic decimalId noGap shortTrace 6 beforeRoundTwo).getD 0
      default).instances.getD 0 default).atkWinLen = 309 ∧
    (309 : Int) ≠ min 103 309 ∧ (103 : Int) < 309 := by
  decide

/-- C12 (amended): a commit made with `readCount >= count` sets the window length of its
target to the minimum of the old and the accumulated length, so a run of the analyzer that
starts with every entity in its second or later hyper-period never raises the window length
of any instance; a commit made with `readCount < count` sets the window length of its target
to the accumulated length. -/
theorem C12_window_length_fold (id_to_long : String → Int)
    (idleGap : Message → Message → Bool) :
    (∀ (idle : Bool) (pkt : Message) (cands : List Message) (c : Message) (t : Nat),
      id_to_long pkt.ID = id_to_long c.ID →
      t = (c.readCount + skippedSoFar c.pattern c.readCount c.count) % c.count →
      t < c.instances.length →
      (c.count ≤ c.readCount →
        ((analyzeEntity id_to_long idle pkt cands c).instances.getD t default).atkWinLen =
          min (c.instances.getD t default).atkWinLen c.tAtkWinLen) ∧
      (c.readCount < c.count →
        ((analyzeEntity id_to_long idle pkt cands c).instances.getD t default).atkWinLen =
          c.tAtkWinLen)) ∧
    (∀ (T : List Message) (n : Nat) (cands : List Message),
      (∀ i, i < cands.length → (cands.getD i default).count ≤ (cands.getD i default).readCount) →
      ∀ i, i < cands.length → ∀ p,
        (((AnalyzeCANTraffic id_to_long idleGap T n cands).getD i default).instances.getD p
            default).atkWinLen ≤
          ((cands.getD i default).instances.getD p default).atkWinLen) := by
  constructor
  · intro idle pkt cands c t hself htdef ht
    rw [analyzeEntity_self_instances id_to_long idle pkt cands c hself, ← htdef]
    constructor
    · intro hlater
      rw [if_pos hlater, (commitLater_atkWinLen c t t).1, if_pos ⟨rfl, ht⟩]
    · intro hfirst
      rw [if_neg (by omega)]
      unfold commitFirst
      simp only
      rw [getD_set_self_inst _ _ _ ht]
  · intro T n cands h i hi p
    exact ((AnalyzeCANTraffic_later_mono id_to_long idleGap T n cands h).2 i hi).2.2 p

/-- Witness of `C12_window_length_fold`: `laterEntity` starts in its second hyper-period;
after a run over `shortTrace` its instance 0 has a window length of at most the 200 it had. -/
theorem C12_window_length_fold_witness :
    laterEntity.count ≤ laterEntity.readCount ∧
      (((AnalyzeCANTraffic decimalId noGap shortTrace 6 [laterEntity]).getD 0
          default).instances.getD 0 default).atkWinLen ≤
        (([laterEntity].getD 0 default).instances.getD 0 default).atkWinLen :=
  ⟨by decide,
    (C12_window_length_fold decimalId noGap).2 shortTrace 6 [laterEntity]
      (fun i hi => by
        have h0 : i = 0 := by simpa using hi
        subst h0
        decide)
      0 (by decide) 0⟩

/-! ## Claim C13 -/

theorem GetCurrentInstance_none (cands : List Message) (id : String)
    (h : ∀ c ∈ cands, c.ID ≠ id) : GetCurrentInstance cands id = -1 := by
  induction cands with
  | nil => rfl
  | cons c cs ih =>
    rw [GetCurrentInstance, if_neg (h c (List.mem_cons_self c cs))]
    exact ih (fun d hd => h d (List.mem_cons_of_mem c hd))

theorem GetCurrentInstance_first (pre post : List Message) (c0 : Message) (id : String)
    (hpre : ∀ c ∈ pre, c.ID ≠ id) (h0 : c0.ID = id) :
    GetCurrentInstance (pre ++ c0 :: post) id = (c0.readCount : Int) := by
  induction pre with
  | nil => rw [List.nil_append, GetCurrentInstance, if_pos h0]
  | cons c cs ih =>
    rw [List.cons_append, GetCurrentInstance, if_neg (hpre c (List.mem_cons_self c cs))]
    exact ih (fun d hd => hpre d (List.mem_cons_of_mem c hd))

theorem CommonMessages_by_mem (a x b y : List Int) (n_a n_b : Nat) (ins : Instance)
    (hb : b.length = n_b) (hy : y.length = n_b) :
    ∀ q, q ∈ (CommonMessages a x n_a b y n_b ins).b.zip (CommonMessages a x n_a b y n_b ins).y →
      q ∈ b.zip y := by
  intro q hq
  unfold CommonMessages at hq
  by_cases h : n_a ≤ n_b
  · rw [if_pos h] at hq; exact hq
  · rw [if_neg h] at hq
    obtain ⟨S, hS, hperm, _, _⟩ := IntSort_full b y n_b hb hy
    simp only [hS, zip_fst_snd] at hq
    exact hperm.subset hq

theorem mem_flatMap_set (l : List Instance) (t : Nat) (v : Instance) (q : Int × Int)
    (h : q ∈ (l.set t v).flatMap (fun ins => ins.atkWin.zip ins.insWin)) :
    (t < l.length ∧ q ∈ v.atkWin.zip v.insWin) ∨
      q ∈ l.flatMap (fun ins => ins.atkWin.zip ins.insWin) := by
  obtain ⟨ins, hins, hq⟩ := List.mem_flatMap.mp h
  by_cases ht : t < l.length
  · rcases List.mem_or_eq_of_mem_set hins with h1 | h1
    · exact Or.inr (List.mem_flatMap.mpr ⟨ins, h1, hq⟩)
    · rw [h1] at hq; exact Or.inl ⟨ht, hq⟩
  · rw [List.set_eq_of_length_le (by omega)] at hins
    exact Or.inr (List.mem_flatMap.mpr ⟨ins, hins, hq⟩)

theorem mem_conflictEntries_of_instance (c : Message) (t : Nat) (ht : t < c.instances.length)
    (q : Int × Int)
    (hq : q ∈ (c.instances.getD t default).atkWin.zip (c.instances.getD t default).insWin) :
    q ∈ conflictEntries c := by
  unfold conflictEntries
  refine List.mem_append.mpr (Or.inr (List.mem_flatMap.mpr ⟨c.instances.getD t default, ?_, hq⟩))
  rw [List.getD_eq_getElem _ _ ht]
  exact List.getElem_mem ht

theorem conflictEntries_clear (c : Message) (q : Int × Int)
    (h : q ∈ conflictEntries (clearAccumulator c)) : q ∈ conflictEntries c := by
  unfold clearAccumulator at h
  split at h
  · unfold conflictEntries at h ⊢
    simp only [List.zip_nil_left, List.nil_append] at h
    exact List.mem_append.mpr (Or.inr h)
  · exact h

theorem restrictTo_subset (other : List Int) (ps : List (Int × Int)) (q : Int × Int)
    (h : q ∈ restrictTo other ps) : q ∈ ps :=
  (List.mem_filter.mp h).1

theorem conflictEntries_commitFirst (c : Message) (t : Nat) (hwf : EntityWF c) (q : Int × Int)
    (h : q ∈ conflictEntries (commitFirst c t)) : q ∈ conflictEntries c := by
  obtain ⟨_, _, h3, h4, _⟩ := hwf
  unfold conflictEntries commitFirst at h
  simp only at h
  rcases List.mem_append.mp h with h1 | h1
  · exact List.mem_append.mpr (Or.inl h1)
  · rcases mem_flatMap_set _ _ _ _ h1 with ⟨_, h2⟩ | h2
    · simp only at h2
      have e1 := range_map_getD c.tAtkWin
      have e2 := range_map_getD c.tInsWin
      rw [h3] at e1
      rw [h4] at e2
      rw [e1, e2] at h2
      exact List.mem_append.mpr (Or.inl h2)
    · exact List.mem_append.mpr (Or.inr h2)

theorem conflictEntries_commitLater (c : Message) (t : Nat) (hwf : EntityWF c) (q : Int × Int)
    (h : q ∈ conflictEntries (commitLater c t)) : q ∈ conflictEntries c := by
  obtain ⟨_, _, h3, h4, h5⟩ := hwf
  have hold := getD_wf c.instances t h5
  unfold commitLater at h
  simp only at h
  split at h
  · unfold conflictEntries at h
    simp only at h
    rcases List.mem_append.mp h with h1 | h1
    · exact List.mem_append.mpr (Or.inl h1)
    · rcases mem_flatMap_set _ _ _ _ h1 with ⟨_, h2⟩ | h2
      · simp at h2
      · exact List.mem_append.mpr (Or.inr h2)
  · unfold conflictEntries at h
    simp only at h
    rcases List.mem_append.mp h with h1 | h1
    · exact List.mem_append.mpr (Or.inl (CommonMessages_by_mem _ _ _ _ _ _ _ h3 h4 q h1))
    · rcases mem_flatMap_set _ _ _ _ h1 with ⟨ht, h2⟩ | h2
      · rw [CommonMessages_ins _ _ _ _ _ _ _ hold.2.1 hold.2.2 h3 h4] at h2
        split at h2
        · simp only [zip_fst_snd] at h2
          exact List.mem_append.mpr (Or.inl (restrictTo_subset _ _ q h2))
        · simp only [zip_fst_snd] at h2
          exact mem_conflictEntries_of_instance c t ht q (restrictTo_subset _ _ q h2)
      · exact List.mem_append.mpr (Or.inr h2)

/-- Every pair that an entity holds after the loop body was held before, or is the pair that
the accumulate branch has just appended. -/
theorem conflictEntries_step (id_to_long : String → Int) (idle : Bool) (pkt : Message)
    (cands : List Message) (c : Message) (hwf : EntityWF c) (q : Int × Int)
    (h : q ∈ conflictEntries (analyzeEntity id_to_long idle pkt cands c)) :
    q ∈ conflictEntries c ∨
      (id_to_long pkt.ID < id_to_long c.ID ∧
        q = (id_to_long pkt.ID, GetCurrentInstance cands pkt.ID)) := by
  rcases analyzeEntity_cases id_to_long idle pkt cands c with hr | ⟨hlt, _, hr⟩ | ⟨_, hr⟩
  · rw [hr] at h
    exact Or.inl (conflictEntries_clear c q h)
  · rw [hr] at h
    obtain ⟨_, _, h3, h4, _⟩ := hwf
    unfold conflictEntries at h ⊢
    simp only at h
    rcases List.mem_append.mp h with h1 | h1
    · have hlen : (if c.tAtkWinCount + 1 = 1 then [] else c.tAtkWin).length =
          (if c.tAtkWinCount + 1 = 1 then [] else c.tInsWin).length := by
        split
        · rfl
        · rw [h3, h4]
      rw [List.zip_append hlen] at h1
      rcases List.mem_append.mp h1 with h2 | h2
      · left
        split at h2
        · simp at h2
        · exact List.mem_append.mpr (Or.inl h2)
      · right
        simp only [List.zip_cons_cons, List.zip_nil_right, List.mem_singleton] at h2
        exact ⟨hlt, h2⟩
    · exact Or.inl (List.mem_append.mpr (Or.inr h1))
  · rw [hr] at h
    have h1 : q ∈ conflictEntries (clearAccumulator
        (if c.readCount ≥ c.count then
          commitLater c ((c.readCount + skippedSoFar c.pattern c.readCount c.count) % c.count)
        else
          commitFirst c
            ((c.readCount + skippedSoFar c.pattern c.readCount c.count) % c.count))) := h
    have h2 := conflictEntries_clear _ q h1
    left
    split at h2
    · exact conflictEntries_commitLater c _ hwf q h2
    · exact conflictEntries_commitFirst c _ hwf q h2

/-- C13 (as stated, refuted): after a run over `repeatTrace` from the initial state, the
accumulator of the entity `30` pairs the identifier 20 with the origin values 1, 2, 3, while
the entity `20` has the 2 instances 0 and 1; and after a run over `shortTrace` the conflict
set of instance 0 of the entity `30` pairs the identifier 10, which no monitored entity
carries, with the origin value -1. -/
theorem C13_counterexample :
    ((AnalyzeCANTraffic decimalId noGap repeatTrace 4 twoEntities).getD 1 default).tAtkWin =
        [20, 20, 20] ∧
    ((AnalyzeCANTraffic decimalId noGap repeatTrace 4 twoEntities).getD 1 default).tInsWin =
        [1, 2, 3] ∧
    (twoEntities.getD 0 default).ID = "20" ∧ (twoEntities.getD 0 default).count = 2 ∧
    ¬ ((3 : Int) ≤ ((twoEntities.getD 0 default).count : Int) - 1) ∧
    ((afterRoundOne.getD 1 default).instances.getD 0 default).atkWin = [10, 20] ∧
    ((afterRoundOne.getD 1 default).instances.getD 0 default).insWin = [-1, 1] ∧
    (∀ c ∈ twoEntities, decimalId c.ID ≠ 10) := by
  decide

/-- C13 (amended): every pair that an entity holds after the loop body, in its accumulator or
in the conflict set of an instance, was held before or is the pair just appended by the
accumulate branch: the identifier of the record with the value of `GetCurrentInstance` for
it, which is `-1` when no monitored entity carries the identifier string of the record and
otherwise the current `readCount`, not reduced modulo `count`, of the first monitored entity
that carries it. -/
theorem C13_origin_is_read_count (id_to_long : String → Int) :
    (∀ (idle : Bool) (pkt : Message) (cands : List Message) (c : Message), EntityWF c →
      ∀ q, q ∈ conflictEntries (analyzeEntity id_to_long idle pkt cands c) →
        q ∈ conflictEntries c ∨
          (id_to_long pkt.ID < id_to_long c.ID ∧
            q = (id_to_long pkt.ID, GetCurrentInstance cands pkt.ID))) ∧
    (∀ (cands : List Message) (id : String), (∀ c ∈ cands, c.ID ≠ id) →
      GetCurrentInstance cands id = -1) ∧
    (∀ (pre post : List Message) (c0 : Message) (id : String), (∀ c ∈ pre, c.ID ≠ id) →
      c0.ID = id → GetCurrentInstance (pre ++ c0 :: post) id = (c0.readCount : Int)) :=
  ⟨fun idle pkt cands c hwf q hq => conflictEntries_step id_to_long idle pkt cands c hwf q hq,
    GetCurrentInstance_none, GetCurrentInstance_first⟩

/-- Witness of `C13_origin_is_read_count`: the origin value recorded for a record of `20`
while `laterEntity` (2 instances) is at `readCount = 2` is 2. -/
theorem C13_origin_is_read_count_witness :
    laterEntity.ID = "20" ∧ laterEntity.count = 2 ∧
      GetCurrentInstance ([] ++ laterEntity :: [firstEntity]) "20" = 2 :=
  ⟨rfl, rfl,
    (C13_origin_is_read_count decimalId).2.2 [] [firstEntity] laterEntity "20"
      (fun c hc => absurd hc (List.not_mem_nil c)) rfl⟩

/-! ## Claim C15: a trace with an idle gap after every record -/

theorem clearAccumulator_idle (c : Message) (h : IdleState c) : clearAccumulator c = c := by
  unfold clearAccumulator
  rw [if_neg (by rw [h.1]; decide)]

theorem getD_idle (l : List Instance) (t : Nat)
    (hl : ∀ ins ∈ l, ins.atkWinLen = 0 ∧ ins.atkWinCount = 0 ∧ ins.atkWin = [] ∧ ins.insWin = []) :
    (l.getD t default).atkWinLen = 0 := by
  by_cases ht : t < l.length
  · rw [List.getD_eq_getElem _ _ ht]
    exact (hl _ (List.getElem_mem ht)).1
  · rw [List.getD_eq_getElem?_getD, List.getElem?_eq_none (by omega)]
    rfl

theorem mem_set_idle (l : List Instance) (t : Nat) (v : Instance)
    (hv : v.atkWinLen = 0 ∧ v.atkWinCount = 0 ∧ v.atkWin = [] ∧ v.insWin = [])
    (hl : ∀ ins ∈ l, ins.atkWinLen = 0 ∧ ins.atkWinCount = 0 ∧ ins.atkWin = [] ∧ ins.insWin = []) :
    ∀ ins ∈ l.set t v,
      ins.atkWinLen = 0 ∧ ins.atkWinCount = 0 ∧ ins.atkWin = [] ∧ ins.insWin = [] := by
  intro ins hins
  rcases List.mem_or_eq_of_mem_set hins with h | h
  · exact hl ins h
  · rw [h]; exact hv

theorem commitFirst_idle (c : Message) (t : Nat) (h : IdleState c) :
    IdleState (commitFirst c t) := by
  obtain ⟨h1, h2, h3, h4, h5⟩ := h
  unfold commitFirst
  refine ⟨h1, h2, h3, h4, ?_⟩
  apply mem_set_idle _ _ _ _ h5
  simp only [h1, h2, List.range_zero, List.map_nil, and_self]

theorem commitLater_idle (c : Message) (t : Nat) (h : IdleState c) :
    IdleState (commitLater c t) := by
  obtain ⟨h1, h2, h3, h4, h5⟩ := h
  have hold := getD_idle c.instances t h5
  unfold commitLater
  simp only
  rw [if_pos (by rw [hold, h1]; rfl)]
  refine ⟨h1, h2, h3, h4, ?_⟩
  apply mem_set_idle _ _ _ _ h5
  exact ⟨by simp only [hold, h1]; rfl, rfl, rfl, rfl⟩

/-- The loop body on a record that is followed by an idle gap keeps an idle state idle, and
it keeps the number of instances and `count`. -/
theorem analyzeEntity_idle (id_to_long : String → Int) (pkt : Message) (cands : List Message)
    (c : Message) (h : IdleState c) :
    IdleState (analyzeEntity id_to_long true pkt cands c) := by
  rcases analyzeEntity_cases id_to_long true pkt cands c with hr | ⟨_, hf, _⟩ | ⟨_, hr⟩
  · rw [hr, clearAccumulator_idle c h]; exact h
  · exact absurd hf (by decide)
  · rw [hr]
    have hc : IdleState (if c.readCount ≥ c.count then
        commitLater c ((c.readCount + skippedSoFar c.pattern c.readCount c.count) % c.count)
      else
        commitFirst c
          ((c.readCount + skippedSoFar c.pattern c.readCount c.count) % c.count)) := by
      split
      · exact commitLater_idle c _ h
      · exact commitFirst_idle c _ h
    rw [clearAccumulator_idle _ hc]
    exact hc

theorem commitLater_instances_length (c : Message) (t : Nat) :
    (commitLater c t).instances.length = c.instances.length := by
  unfold commitLater
  simp only
  split <;> simp

theorem commitFirst_instances_length (c : Message) (t : Nat) :
    (commitFirst c t).instances.length = c.instances.length := by
  unfold commitFirst
  simp

/-- The loop body keeps the number of instances of the entity. -/
theorem analyzeEntity_instances_length (id_to_long : String → Int) (idle : Bool)
    (pkt : Message) (cands : List Message) (c : Message) :
    (analyzeEntity id_to_long idle pkt cands c).instances.length = c.instances.length := by
  rcases analyzeEntity_cases id_to_long idle pkt cands c with hr | ⟨_, _, hr⟩ | ⟨_, hr⟩
  · rw [hr, clearAccumulator_instances]
  · rw [hr]
  · rw [hr]
    show (clearAccumulator _).instances.length = _
    rw [clearAccumulator_instances]
    split
    · exact commitLater_instances_length c _
    · exact commitFirst_instances_length c _

theorem initEntity_idle (ID : String) (periodicity : Rat) (count : Nat) (skipLimit : Int) :
    IdleState (initEntity ID periodicity count skipLimit) := by
  refine ⟨rfl, rfl, rfl, rfl, ?_⟩
  intro ins hins
  unfold initEntity at hins
  obtain ⟨j, _, rfl⟩ := List.mem_map.mp hins
  exact ⟨rfl, rfl, rfl, rfl⟩

/-- A run over a trace in which every processed record is followed by an idle gap keeps
every idle entity idle, with the same number of instances. -/
theorem AnalyzeCANTraffic_idle (id_to_long : String → Int)
    (idleGap : Message → Message → Bool) (T : List Message) :
    ∀ (n : Nat) (cands : List Message),
      (∀ j, j + 1 < n → idleGap (T.getD j default) (T.getD (j + 1) default) = true) →
      (∀ i, i < cands.length → IdleState (cands.getD i default)) →
      (AnalyzeCANTraffic id_to_long idleGap T n cands).length = cands.length ∧
      ∀ i, i < cands.length →
        IdleState ((AnalyzeCANTraffic id_to_long idleGap T n cands).getD i default) ∧
        ((AnalyzeCANTraffic id_to_long idleGap T n cands).getD i default).instances.length =
          (cands.getD i default).instances.length := by
  intro n
  induction n with
  | zero =>
    intro cands _ h
    rw [AnalyzeCANTraffic_le_one _ _ _ 0 (by omega)]
    exact ⟨rfl, fun i hi => ⟨h i hi, rfl⟩⟩
  | succ n ih =>
    intro cands hgap h
    cases n with
    | zero =>
      rw [AnalyzeCANTraffic_le_one _ _ _ 1 (by omega)]
      exact ⟨rfl, fun i hi => ⟨h i hi, rfl⟩⟩
    | succ n =>
      obtain ⟨hlen, hprev⟩ := ih cands (fun j hj => hgap j (by omega)) h
      rw [AnalyzeCANTraffic_succ]
      obtain ⟨hlen2, hent⟩ := analyzePacket_entity id_to_long idleGap (T.getD n default)
        (T.getD (n + 1) default) (AnalyzeCANTraffic id_to_long idleGap T (n + 1) cands)
      refine ⟨hlen2.trans hlen, fun i hi => ?_⟩
      obtain ⟨cs, hcs⟩ := hent i (by rw [hlen]; exact hi)
      rw [hcs, hgap n (by omega)]
      exact ⟨analyzeEntity_idle id_to_long _ cs _ (hprev i hi).1,
        (analyzeEntity_instances_length id_to_long true _ cs _).trans (hprev i hi).2⟩

theorem InitializeECU_getD (table : List (String × Rat × Nat × Int)) (i : Nat)
    (hi : i < table.length) :
    (InitializeECU table).getD i default =
      initEntity (table[i]).1 (table[i]).2.1 (table[i]).2.2.1 (table[i]).2.2.2 := by
  unfold InitializeECU
  rw [List.getD_eq_getElem _ _ (by rw [List.length_map]; exact hi), List.getElem_map]

/-- C15: scenario B. For every trace in which each processed record is followed by an idle gap
exceeding `maxIdle`, the run of `AnalyzeCANTraffic` from the initial state of any table of
monitored entities leaves every entity with its `count` instances, each with window length 0
and an empty conflict set (`atkWinCount = 0`, no entries). -/
theorem C15_idle_trace_leaves_no_window (id_to_long : String → Int)
    (idleGap : Message → Message → Bool) (table : List (String × Rat × Nat × Int))
    (T : List Message) (n : Nat)
    (hgap : ∀ j, j + 1 < n → idleGap (T.getD j default) (T.getD (j + 1) default) = true) :
    (AnalyzeCANTraffic id_to_long idleGap T n (InitializeECU table)).length = table.length ∧
    ∀ i (hi : i < table.length),
      ((AnalyzeCANTraffic id_to_long idleGap T n (InitializeECU table)).getD i
          default).instances.length = (table[i]).2.2.1 ∧
      ∀ ins ∈ ((AnalyzeCANTraffic id_to_long idleGap T n (InitializeECU table)).getD i
          default).instances,
        ins.atkWinLen = 0 ∧ ins.atkWinCount = 0 ∧ ins.atkWin = [] ∧ ins.insWin = [] := by
  have hlen0 : (InitializeECU table).length = table.length := by
    unfold InitializeECU; rw [List.length_map]
  obtain ⟨hlen, hall⟩ := AnalyzeCANTraffic_idle id_to_long idleGap T n (InitializeECU table) hgap
    (fun i hi => by
      rw [InitializeECU_getD table i (by rw [← hlen0]; exact hi)]
      exact initEntity_idle _ _ _ _)
  refine ⟨hlen.trans hlen0, fun i hi => ?_⟩
  obtain ⟨hidle, hcount⟩ := hall i (by rw [hlen0]; exact hi)
  refine ⟨?_, hidle.2.2.2.2⟩
  rw [hcount, InitializeECU_getD table i hi]
  unfold initEntity
  simp only [List.length_map, List.length_range]

/-- Witness of `C15_idle_trace_leaves_no_window`: the table of `twoEntities` and
`shortTrace`, with an idle gap after every record. -/
theorem C15_idle_trace_leaves_no_window_witness :
    (∀ j, j + 1 < 6 → allGap (shortTrace.getD j default) (shortTrace.getD (j + 1) default)
        = true) ∧
      (AnalyzeCANTraffic decimalId allGap shortTrace 6
        (InitializeECU [("20", 1, 2, 3), ("30", 5, 1, 1)])).length = 2 :=
  ⟨fun _ _ => rfl,
    (C15_idle_trace_leaves_no_window decimalId allGap [("20", 1, 2, 3), ("30", 5, 1, 1)]
      shortTrace 6 (fun _ _ => rfl)).1⟩

/-! ## Claim C16: the swap of Strategy 3 -/

theorem swapCandidates_perm (cand : List Message) (k i : Nat) (hk : k < cand.length)
    (hi : i < cand.length) : (swapCandidates cand k i).Perm cand := by
  unfold swapCandidates
  simp only
  rw [List.getD_eq_getElem _ _ hi, List.getD_eq_getElem _ _ hk]
  by_cases hki : k = i
  · subst hki
    rw [List.set_set]
    have : cand.set k cand[k] = cand := by
      apply List.ext_getElem (by simp)
      intro n h1 h2
      by_cases hn : k = n
      · subst hn; simp
      · rw [List.getElem_set_ne hn]
    rw [this]
  · rw [List.perm_iff_count]
    intro x
    have hi2 : i < (cand.set k cand[i]).length := by rw [List.length_set]; exact hi
    rw [List.count_set _ _ _ _ hi2, List.count_set _ _ _ _ hk]
    have e : (cand.set k cand[i])[i] = cand[i] := by
      rw [List.getElem_set_ne hki]
    rw [e]
    have h1 : (if cand[k] == x then 1 else 0) ≤ cand.count x := by
      split
      · next h =>
        have : cand[k] = x := by simpa using h
        rw [← this]
        exact List.count_pos_iff.mpr (List.getElem_mem hk)
      · exact Nat.zero_le _
    generalize (if cand[k] == x then 1 else 0) = A at h1 ⊢
    generalize (if cand[i] == x then 1 else 0) = B
    omega

theorem swapCandidates_getD (cand : List Message) (k i : Nat) (hk : k < cand.length)
    (hi : i < cand.length) :
    (swapCandidates cand k i).getD k default = cand.getD i default ∧
    (swapCandidates cand k i).getD i default = cand.getD k default ∧
    ∀ j, j ≠ k → j ≠ i → (swapCandidates cand k i).getD j default = cand.getD j default := by
  unfold swapCandidates
  simp only [List.getD_eq_getElem?_getD, List.getElem?_set, List.length_set]
  refine ⟨?_, ?_, ?_⟩
  · by_cases hki : i = k
    · subst hki; simp [hi]
    · simp [hki, hk]
  · simp [hi]
  · intro j hjk hji
    simp [Ne.symm hjk, Ne.symm hji]

/-- C16: a Strategy-3 reordering is a full state swap. One swap puts each of the two entities,
with every field as it was, at the position of the other and leaves the other positions
alone; after any number of swaps the collection is a permutation of the original entities,
each with its identifier, periodicity, count, skip limit, read count, pattern and instance
array unchanged. -/
theorem C16_swaps_permute_entities (swaps : List (Nat × Nat)) (cand : List Message)
    (hin : ∀ s ∈ swaps, s.1 < cand.length ∧ s.2 < cand.length) :
    (applySwaps swaps cand).Perm cand ∧
    (∀ k i, k < cand.length → i < cand.length →
      (swapCandidates cand k i).getD k default = cand.getD i default ∧
      (swapCandidates cand k i).getD i default = cand.getD k default ∧
      ∀ j, j ≠ k → j ≠ i → (swapCandidates cand k i).getD j default = cand.getD j default) := by
  refine ⟨?_, fun k i hk hi => swapCandidates_getD cand k i hk hi⟩
  induction swaps generalizing cand with
  | nil => exact List.Perm.refl cand
  | cons s rest ih =>
    obtain ⟨k, i⟩ := s
    have hs := hin (k, i) (List.mem_cons_self _ _)
    have hp := swapCandidates_perm cand k i hs.1 hs.2
    have := ih (swapCandidates cand k i) (fun s hmem => by
      rw [hp.length_eq]
      exact hin s (List.mem_cons_of_mem _ hmem))
    exact this.trans hp

/-- Witness of `C16_swaps_permute_entities`: two swaps on a collection of three entities. -/
theorem C16_swaps_permute_entities_witness :
    (∀ s ∈ [((0 : Nat), (2 : Nat)), (1, 2)],
        s.1 < [laterEntity, firstEntity, skippedEntity].length ∧
        s.2 < [laterEntity, firstEntity, skippedEntity].length) ∧
      (applySwaps [(0, 2), (1, 2)] [laterEntity, firstEntity, skippedEntity]).Perm
        [laterEntity, firstEntity, skippedEntity] :=
  ⟨by decide,
    (C16_swaps_permute_entities [(0, 2), (1, 2)] [laterEntity, firstEntity, skippedEntity]
      (by decide)).1⟩

/-! ## Claim C17: which records are processed -/

/-- The run does not look at the last record, except through the idle-gap test of the record
before it. -/
theorem AnalyzeCANTraffic_last_unused (id_to_long : String → Int)
    (idleGap : Message → Message → Bool) (T T2 : List Message) :
    ∀ (n : Nat) (cands : List Message),
      (∀ j, j + 1 < n → T.getD j default = T2.getD j default ∧
        idleGap (T.getD j default) (T.getD (j + 1) default) =
          idleGap (T2.getD j default) (T2.getD (j + 1) default)) →
      AnalyzeCANTraffic id_to_long idleGap T n cands =
        AnalyzeCANTraffic id_to_long idleGap T2 n cands := by
  intro n
  induction n with
  | zero =>
    intro cands _
    rw [AnalyzeCANTraffic_le_one _ _ _ 0 (by omega), AnalyzeCANTraffic_le_one _ _ _ 0 (by omega)]
  | succ n ih =>
    intro cands h
    cases n with
    | zero =>
      rw [AnalyzeCANTraffic_le_one _ _ _ 1 (by omega),
        AnalyzeCANTraffic_le_one _ _ _ 1 (by omega)]
    | succ n =>
      rw [AnalyzeCANTraffic_succ, AnalyzeCANTraffic_succ, ih cands (fun j hj => h j (by omega))]
      obtain ⟨h1, h2⟩ := h n (by omega)
      unfold analyzePacket
      rw [h2, h1]

/-- C17 (as stated, refuted): on `lastSelfTrace`, whose last record carries the identifier
of the entity `20`, the run is the loop over the candidates for record 0 alone; the entity
`20` is left at `readCount = 0`, while the loop body on the last record would commit and
leave `readCount = 1`. On a trace of one record nothing is processed. -/
theorem C17_counterexample :
    AnalyzeCANTraffic decimalId noGap lastSelfTrace 2 twoEntities =
      analyzePacket decimalId noGap (lastSelfTrace.getD 0 default)
        (lastSelfTrace.getD 1 default) twoEntities ∧
    ((AnalyzeCANTraffic decimalId noGap lastSelfTrace 2 twoEntities).getD 0
      default).readCount = 0 ∧
    (analyzeEntity decimalId false (lastSelfTrace.getD 1 default)
      (AnalyzeCANTraffic decimalId noGap lastSelfTrace 2 twoEntities)
      ((AnalyzeCANTraffic decimalId noGap lastSelfTrace 2 twoEntities).getD 0
        default)).readCount = 1 ∧
    AnalyzeCANTraffic decimalId noGap [selfRecord] 1 twoEntities = twoEntities :=
  ⟨AnalyzeCANTraffic_succ decimalId noGap lastSelfTrace 0 twoEntities, by decide, by decide,
    AnalyzeCANTraffic_le_one decimalId noGap [selfRecord] 1 (le_refl 1) twoEntities⟩

/-- C17 (amended): `AnalyzeCANTraffic` re-evaluates the state machine for the records
`0..CANCount-2` in emission order, each of them against every monitored entity; the last
record is not classified: a trace of at most one record changes nothing, and two traces that
agree on all records but the last, and on the idle-gap tests, give the same result. -/
theorem C17_all_but_last_record (id_to_long : String → Int)
    (idleGap : Message → Message → Bool) :
    (∀ (T : List Message) (n : Nat) (cands : List Message),
      AnalyzeCANTraffic id_to_long idleGap T (n + 2) cands =
        analyzePacket id_to_long idleGap (T.getD n default) (T.getD (n + 1) default)
          (AnalyzeCANTraffic id_to_long idleGap T (n + 1) cands)) ∧
    (∀ (T : List Message) (n : Nat) (cands : List Message), n ≤ 1 →
      AnalyzeCANTraffic id_to_long idleGap T n cands = cands) ∧
    (∀ (pkt next : Message) (cands : List Message),
      (analyzePacket id_to_long idleGap pkt next cands).length = cands.length ∧
      ∀ i, i < cands.length → ∃ cs : List Message,
        (analyzePacket id_to_long idleGap pkt next cands).getD i default =
          analyzeEntity id_to_long (idleGap pkt next) pkt cs (cands.getD i default)) ∧
    (∀ (T T2 : List Message) (n : Nat) (cands : List Message),
      (∀ j, j + 1 < n → T.getD j default = T2.getD j default ∧
        idleGap (T.getD j default) (T.getD (j + 1) default) =
          idleGap (T2.getD j default) (T2.getD (j + 1) default)) →
      AnalyzeCANTraffic id_to_long idleGap T n cands =
        AnalyzeCANTraffic id_to_long idleGap T2 n cands) :=
  ⟨AnalyzeCANTraffic_succ id_to_long idleGap,
    fun T n cands hn => AnalyzeCANTraffic_le_one id_to_long idleGap T n hn cands,
    analyzePacket_entity id_to_long idleGap,
    AnalyzeCANTraffic_last_unused id_to_long idleGap⟩

/-- Witness of `C17_all_but_last_record`: `shortTrace` and the same trace with another last
record give the same result. -/
theorem C17_all_but_last_record_witness :
    AnalyzeCANTraffic decimalId noGap shortTrace 6 twoEntities =
      AnalyzeCANTraffic decimalId noGap (shortTrace.take 5 ++ [selfRecord]) 6 twoEntities :=
  (C17_all_but_last_record decimalId noGap).2.2.2 shortTrace
    (shortTrace.take 5 ++ [selfRecord]) 6 twoEntities
    (fun j hj => by
      have hj5 : j < 5 := by omega
      refine ⟨?_, rfl⟩
      interval_cases j <;> rfl)

/-! ## Claim C18: the accumulate branch -/

/-- C18: for a record whose identifier is numerically lower than the entity's and which is not
followed by an idle gap, the loop body of `AnalyzeCANTraffic` adds `size*8+47` to the
accumulated window length, raises the count by one, appends the pair (record identifier,
value of `GetCurrentInstance`) at the end of the in-progress conflict set, the value being
the current `readCount` of the first monitored entity that carries the identifier of the
record, and leaves the instances, `readCount` and the skip pattern unchanged. -/
theorem C18_accumulate (id_to_long : String → Int) (pkt : Message) (cands : List Message)
    (c : Message) (hlt : id_to_long pkt.ID < id_to_long c.ID)
    (hk : c.tAtkWin.length = c.tAtkWinCount) (hi : c.tInsWin.length = c.tAtkWinCount) :
    (analyzeEntity id_to_long false pkt cands c).tAtkWinLen =
        c.tAtkWinLen + (pkt.DLC * 8 + 47) ∧
    (analyzeEntity id_to_long false pkt cands c).tAtkWinCount = c.tAtkWinCount + 1 ∧
    (analyzeEntity id_to_long false pkt cands c).tAtkWin = c.tAtkWin ++ [id_to_long pkt.ID] ∧
    (analyzeEntity id_to_long false pkt cands c).tInsWin =
        c.tInsWin ++ [GetCurrentInstance cands pkt.ID] ∧
    (∀ (pre post : List Message) (c0 : Message), cands = pre ++ c0 :: post →
      (∀ d ∈ pre, d.ID ≠ pkt.ID) → c0.ID = pkt.ID →
      GetCurrentInstance cands pkt.ID = (c0.readCount : Int)) ∧
    (analyzeEntity id_to_long false pkt cands c).instances = c.instances ∧
    (analyzeEntity id_to_long false pkt cands c).readCount = c.readCount ∧
    (analyzeEntity id_to_long false pkt cands c).pattern = c.pattern := by
  rw [analyzeEntity_accumulate id_to_long pkt cands c hlt]
  have e1 : (if c.tAtkWinCount + 1 = 1 then [] else c.tAtkWin) = c.tAtkWin := by
    split
    · next h => exact (List.eq_nil_of_length_eq_zero (by omega)).symm
    · rfl
  have e2 : (if c.tAtkWinCount + 1 = 1 then [] else c.tInsWin) = c.tInsWin := by
    split
    · next h => exact (List.eq_nil_of_length_eq_zero (by omega)).symm
    · rfl
  rw [e1, e2]
  refine ⟨by show c.tAtkWinLen + pkt.DLC * 8 + 47 = _; omega, rfl, rfl, rfl, ?_, rfl, rfl, rfl⟩
  intro pre post c0 hc hpre h0
  rw [hc]
  exact GetCurrentInstance_first pre post c0 pkt.ID hpre h0

/-- Witness of `C18_accumulate`: the entity `30` of `twoEntities` meets a record of `20`
while `laterEntity` (at `readCount = 2`) is the monitored entity that carries `20`. -/
theorem C18_accumulate_witness :
    decimalId selfRecord.ID < decimalId (twoEntities.getD 1 default).ID ∧
      (analyzeEntity decimalId false selfRecord [laterEntity, twoEntities.getD 1 default]
        (twoEntities.getD 1 default)).tAtkWin = [] ++ [20] ∧
      (analyzeEntity decimalId false selfRecord [laterEntity, twoEntities.getD 1 default]
        (twoEntities.getD 1 default)).tInsWin =
          [] ++ [GetCurrentInstance [laterEntity, twoEntities.getD 1 default] "20"] :=
  have h := C18_accumulate decimalId selfRecord [laterEntity, twoEntities.getD 1 default]
    (twoEntities.getD 1 default) (by decide) rfl rfl
  ⟨by decide, h.2.2.1, h.2.2.2.1⟩

/-- After the commit of a self-match on a well-formed state the accumulator is empty and
`readCount` has advanced by `k + 1`. -/
theorem analyzeEntity_self_accumulator (id_to_long : String → Int) (idle : Bool)
    (pkt : Message) (cands : List Message) (c : Message)
    (hself : id_to_long pkt.ID = id_to_long c.ID) (hwf : EntityWF c) :
    (analyzeEntity id_to_long idle pkt cands c).tAtkWinLen = 0 ∧
    (analyzeEntity id_to_long idle pkt cands c).tAtkWinCount = 0 ∧
    (analyzeEntity id_to_long idle pkt cands c).tAtkWin = [] ∧
    (analyzeEntity id_to_long idle pkt cands c).tInsWin = [] ∧
    (analyzeEntity id_to_long idle pkt cands c).readCount =
      c.readCount + skippedSoFar c.pattern c.readCount c.count + 1 := by
  rw [analyzeEntity_self id_to_long idle pkt cands c hself]
  generalize hc1 : (if c.readCount ≥ c.count then
      commitLater c ((c.readCount + skippedSoFar c.pattern c.readCount c.count) % c.count)
    else
      commitFirst c ((c.readCount + skippedSoFar c.pattern c.readCount c.count) % c.count))
    = c1
  have hwf1 : EntityWF c1 := by
    rw [← hc1]
    split
    · exact commitLater_wf c _ hwf
    · exact commitFirst_wf c _ hwf
  obtain ⟨w1, w2, w3, w4, _⟩ := hwf1
  unfold clearAccumulator
  by_cases hpos : c1.tAtkWinLen > 0
  · rw [if_pos hpos]
    exact ⟨rfl, rfl, rfl, rfl, rfl⟩
  · rw [if_neg hpos]
    have hz : c1.tAtkWinLen = 0 := by omega
    have hcnt := w2 hz
    refine ⟨hz, hcnt, ?_, ?_, rfl⟩
    · exact List.eq_nil_of_length_eq_zero (by rw [w3, hcnt])
    · exact List.eq_nil_of_length_eq_zero (by rw [w4, hcnt])

/-! ## Claims C19 and C20: the target of a commit and the active skip count -/

/-- C19 (the code at a failing input): the entity `20` receives the window length 111 on its
instance 0 in a first run over `attackTrace` and is then at `readCount = 2 = count`;
Strategy 1 skips the attackable instance 0 and the pattern is `0 1`. In the second run the
first record of `20` is committed with `k = 0` on the target `(2 + 0) mod 2 = 0`, whose skip
bit is 0. On `skippedEntity`, the same kind of state, the commit lowers the window length of
the skipped instance 0 from 200 to 111. The rest of the claim holds on every well-formed
state: after a commit the accumulator is empty and `readCount` has advanced by `k + 1`. -/
theorem C19_commit_reaches_skipped_instance :
    (((AnalyzeCANTraffic decimalId noGap attackTrace 4 oneEntity).getD 0
      default).instances.getD 0 default).atkWinLen = 111 ∧
    (111 : Int) ≥ minAtkWinLen ∧
    IfSkipPossible
      ((AnalyzeCANTraffic decimalId noGap attackTrace 4 oneEntity).getD 0 default).pattern
      2 3 0 = (1, [0, 1]) ∧
    ((AnalyzeCANTraffic decimalId noGap attackTrace 2 skipRoundTwo).getD 0 default).readCount
      = 2 ∧
    ((AnalyzeCANTraffic decimalId noGap attackTrace 2 skipRoundTwo).getD 0 default).pattern
      = [0, 1] ∧
    (2 + skippedSoFar [0, 1] 2 2) % 2 = 0 ∧
    ([0, 1] : List Int).getD 0 1 = 0 ∧
    ((AnalyzeCANTraffic decimalId noGap attackTrace 3 skipRoundTwo).getD 0 default).readCount
      = 3 ∧
    (skippedEntity.readCount +
      skippedSoFar skippedEntity.pattern skippedEntity.readCount skippedEntity.count)
        % skippedEntity.count = 0 ∧
    skippedEntity.pattern.getD 0 1 = 0 ∧
    (skippedEntity.instances.getD 0 default).atkWinLen = 200 ∧
    ((analyzeEntity decimalId false selfRecord [skippedEntity] skippedEntity).instances.getD 0
      default).atkWinLen = 111 ∧
    (∀ (id_to_long : String → Int) (idle : Bool) (pkt : Message) (cands : List Message)
      (c : Message), id_to_long pkt.ID = id_to_long c.ID → EntityWF c →
      (analyzeEntity id_to_long idle pkt cands c).tAtkWinLen = 0 ∧
      (analyzeEntity id_to_long idle pkt cands c).tAtkWinCount = 0 ∧
      (analyzeEntity id_to_long idle pkt cands c).tAtkWin = [] ∧
      (analyzeEntity id_to_long idle pkt cands c).tInsWin = [] ∧
      (analyzeEntity id_to_long idle pkt cands c).readCount =
        c.readCount + skippedSoFar c.pattern c.readCount c.count + 1) := by
  refine ⟨by decide, by decide, by decide, by decide, by decide, by decide, by decide,
    by decide, by decide, by decide, by decide, ?_, analyzeEntity_self_accumulator⟩
  rw [analyzeEntity_self_instances decimalId false selfRecord [skippedEntity] skippedEntity
    (by decide), if_pos (by decide)]
  have ht : (skippedEntity.readCount +
      skippedSoFar skippedEntity.pattern skippedEntity.readCount skippedEntity.count)
        % skippedEntity.count = 0 := by decide
  rw [ht, (commitLater_atkWinLen skippedEntity 0 0).1, if_pos (by decide)]
  decide

theorem skippedSoFar_later (pattern : List Int) (readCount count : Nat)
    (h : count ≤ readCount) : skippedSoFar pattern readCount count = 0 := by
  unfold skippedSoFar
  have e : count - readCount = 0 := by omega
  rw [e]
  rfl

theorem skippedSoFar_first (pattern : List Int) (readCount count : Nat)
    (h : readCount < count) :
    skippedSoFar pattern readCount count = zerosFromReadPosition pattern readCount count := by
  unfold skippedSoFar zerosFromReadPosition
  have hsplit : List.range count =
      List.range' 0 readCount ++ List.range' readCount (count - readCount) := by
    rw [List.range_eq_range']
    have := List.range'_append 0 readCount (count - readCount) 1
    simp only [Nat.zero_add, Nat.one_mul] at this
    rw [this]
    congr 1
    omega
  rw [hsplit, List.filter_append, Nat.mod_eq_of_lt h]
  have h1 : (List.range' 0 readCount).filter
      (fun l => decide (readCount ≤ l ∧ pattern.getD l 1 = 0)) = [] := by
    rw [List.filter_eq_nil_iff]
    intro l hl
    have := (List.mem_range'_1.mp hl).2
    simp only [decide_eq_true_eq, not_and]
    intro h2
    omega
  have h2 : (List.range' readCount (count - readCount)).filter
      (fun l => decide (readCount ≤ l ∧ pattern.getD l 1 = 0)) =
      (List.range' readCount (count - readCount)).filter
        (fun l => decide (pattern.getD l 1 = 0)) := by
    apply List.filter_congr
    intro l hl
    have := (List.mem_range'_1.mp hl).1
    simp [this]
  rw [h1, h2, List.nil_append]

/-- C20 (the code at a failing input): with the pattern `0 1`, `count = 2` and
`readCount = 2` the loop that computes `k` does not run and leaves `k = 0`, while the pattern
has one zero at the indices `(2 mod 2)..1`. In general `k` is the number of zeros at the
indices `(readCount mod count)..count-1` as long as `readCount < count`, and is 0 for every
`readCount >= count`. -/
theorem C20_skip_count_from_read_count :
    skippedSoFar [0, 1] 2 2 = 0 ∧ zerosFromReadPosition [0, 1] 2 2 = 1 ∧
    (∀ (pattern : List Int) (readCount count : Nat), readCount < count →
      skippedSoFar pattern readCount count = zerosFromReadPosition pattern readCount count) ∧
    (∀ (pattern : List Int) (readCount count : Nat), count ≤ readCount →
      skippedSoFar pattern readCount count = 0) :=
  ⟨by decide, by decide, skippedSoFar_first, skippedSoFar_later⟩

/-! ## Claim C14: scenario A -/

theorem skippedSoFar_all_ones (N readCount : Nat) :
    skippedSoFar (List.replicate N 1) readCount N = 0 := by
  unfold skippedSoFar
  rw [List.length_eq_zero, List.filter_eq_nil_iff]
  intro l _
  simp only [decide_eq_true_eq]
  by_cases hl : l < N
  · rw [List.getD_eq_getElem _ _ (by rw [List.length_replicate]; exact hl)]
    simp
  · rw [List.getD_eq_getElem?_getD, List.getElem?_eq_none (by rw [List.length_replicate]; omega)]
    simp

theorem clearAccumulator_ID (c : Message) : (clearAccumulator c).ID = c.ID := by
  unfold clearAccumulator
  split <;> rfl

theorem commitLater_ID (c : Message) (t : Nat) : (commitLater c t).ID = c.ID := by
  unfold commitLater
  simp only
  split <;> rfl

theorem commitFirst_ID (c : Message) (t : Nat) : (commitFirst c t).ID = c.ID := rfl

theorem analyzeEntity_ID (id_to_long : String → Int) (idle : Bool) (pkt : Message)
    (cands : List Message) (c : Message) :
    (analyzeEntity id_to_long idle pkt cands c).ID = c.ID := by
  rcases analyzeEntity_cases id_to_long idle pkt cands c with hr | ⟨_, _, hr⟩ | ⟨_, hr⟩
  · rw [hr, clearAccumulator_ID]
  · rw [hr]
  · rw [hr]
    show (clearAccumulator _).ID = _
    rw [clearAccumulator_ID]
    split
    · exact commitLater_ID c _
    · exact commitFirst_ID c _

/-- Scenario A, a record of `P1` without idle gap: the accumulator, empty before, holds the
one record afterwards. -/
theorem scenario_step_high (id_to_long : String → Int) (pkt : Message) (cands : List Message)
    (c : Message) (P1 L : Int) (N m : Nat) (hst : ScenarioState P1 L N m false c)
    (hid : id_to_long pkt.ID = P1) (hlt : P1 < id_to_long c.ID) (hL : L = pkt.DLC * 8 + 47) :
    ScenarioState P1 L N m true (analyzeEntity id_to_long false pkt cands c) := by
  obtain ⟨h1, h2, h3, h4, h5, _, h7, h8⟩ := hst
  obtain ⟨a1, a2, a3, a4⟩ := h5 rfl
  rw [analyzeEntity_accumulate id_to_long pkt cands c (by rw [hid]; exact hlt)]
  refine ⟨h1, h2, h3, h4, fun h => absurd h (by decide), fun _ => ?_, h7, h8⟩
  refine ⟨?_, ?_, ?_, ?_⟩
  · show c.tAtkWinLen + pkt.DLC * 8 + 47 = L
    rw [a1]; omega
  · show c.tAtkWinCount + 1 = 1
    rw [a2]
  · show (if c.tAtkWinCount + 1 = 1 then [] else c.tAtkWin) ++ [id_to_long pkt.ID] = [P1]
    rw [a2, hid]; rfl
  · show ((if c.tAtkWinCount + 1 = 1 then [] else c.tInsWin) ++
        [GetCurrentInstance cands pkt.ID]).length = 1
    rw [a2]; rfl

/-- Scenario A, a record of the entity itself: the accumulated single conflict is committed to
the instance `m mod N` and the accumulator is emptied. -/
theorem scenario_step_self (id_to_long : String → Int) (idle : Bool) (pkt : Message)
    (cands : List Message) (c : Message) (P1 L : Int) (N m : Nat) (hN : 0 < N)
    (hst : ScenarioState P1 L N m true c) (hid : id_to_long pkt.ID = id_to_long c.ID)
    (hL : 0 < L) :
    ScenarioState P1 L N (m + 1) false (analyzeEntity id_to_long idle pkt cands c) := by
  obtain ⟨h1, h2, h3, h4, _, h6, h7, h8⟩ := hst
  obtain ⟨a1, a2, a3, a4⟩ := h6 rfl
  have hk : skippedSoFar c.pattern c.readCount c.count = 0 := by
    rw [h3, h1]; exact skippedSoFar_all_ones N _
  have ht : (c.readCount + skippedSoFar c.pattern c.readCount c.count) % c.count = m % N := by
    rw [hk, h1, h2, Nat.add_zero]
  have htN : m % N < N := Nat.mod_lt _ hN
  obtain ⟨w, hw⟩ : ∃ w, c.tInsWin = [w] := by
    match hc : c.tInsWin, a4 with
    | [w], _ => exact ⟨w, rfl⟩
  -- the state after the commit, before the accumulator is dropped
  have hcommit : ∃ c1 : Message,
      (if c.readCount ≥ c.count then commitLater c (m % N) else commitFirst c (m % N)) = c1 ∧
      c1.count = N ∧ c1.readCount = m ∧ c1.pattern = List.replicate N 1 ∧
      c1.tAtkWinLen = L ∧ c1.instances.length = N ∧
      SingleConflict P1 L (c1.instances.getD (m % N) default) ∧
      ∀ p, p ≠ m % N → c1.instances.getD p default = c.instances.getD p default := by
    by_cases hlater : c.readCount ≥ c.count
    · rw [if_pos hlater]
      have hold : SingleConflict P1 L (c.instances.getD (m % N) default) :=
        h7 (m % N) htN (by
          have : N ≤ m := by rw [h1, h2] at hlater; exact hlater
          omega)
      obtain ⟨o1, o2, o3, o4⟩ := hold
      obtain ⟨v, hv⟩ : ∃ v, (c.instances.getD (m % N) default).insWin = [v] := by
        match hc : (c.instances.getD (m % N) default).insWin, o4 with
        | [v], _ => exact ⟨v, rfl⟩
      refine ⟨_, rfl, ?_⟩
      unfold commitLater
      simp only
      have hmin : min (c.instances.getD (m % N) default).atkWinLen c.tAtkWinLen = L := by
        rw [o1, a1]; exact min_self L
      rw [if_neg (by rw [hmin]; omega)]
      refine ⟨h1, h2, h3, a1, by simp [h4], ?_, fun p hp => getD_set_other_inst _ _ _ _ hp⟩
      rw [getD_set_self_inst _ _ _ (by rw [h4]; exact htN),
        CommonMessages_ins _ _ _ _ _ _ _ (by rw [o3, o2]; rfl) (by rw [o4, o2])
          (by rw [a3, a2]; rfl) (by rw [a4, a2]), o2, a2, if_pos (le_refl 1), o3, a3, hw, hmin]
      unfold SingleConflict restrictTo
      simp
    · rw [if_neg hlater]
      refine ⟨_, rfl, ?_⟩
      unfold commitFirst
      simp only
      refine ⟨h1, h2, h3, a1, by simp [h4], ?_, fun p hp => getD_set_other_inst _ _ _ _ hp⟩
      rw [getD_set_self_inst _ _ _ (by rw [h4]; exact htN)]
      unfold SingleConflict
      simp [a1, a2, a3, hw, List.range_succ]
  obtain ⟨c1, hc1, b1, b2, b3, b4, b5, b6, b7⟩ := hcommit
  rw [analyzeEntity_self id_to_long idle pkt cands c hid, ht, hc1, hk]
  have hclear : clearAccumulator c1 =
      { c1 with tAtkWin := [], tInsWin := [], tAtkWinLen := 0, tAtkWinCount := 0 } := by
    unfold clearAccumulator
    rw [if_pos (by rw [b4]; exact hL)]
  rw [hclear]
  refine ⟨b1, by simp only; omega, b3, b5, fun _ => ⟨rfl, rfl, rfl, rfl⟩,
    fun h => absurd h (by decide), ?_, ?_⟩
  · intro p hp hpm
    by_cases hpt : p = m % N
    · rw [hpt]; exact b6
    · show SingleConflict P1 L (c1.instances.getD p default)
      rw [b7 p hpt]
      refine h7 p hp ?_
      by_cases hmN : m < N
      · rw [Nat.mod_eq_of_lt hmN] at hpt; omega
      · omega
  · intro p hp
    by_cases hpt : p = m % N
    · show InstanceWF (c1.instances.getD p default)
      rw [hpt]
      obtain ⟨s1, s2, s3, s4⟩ := b6
      exact ⟨by rw [s1]; omega, by rw [s3, s2]; rfl, by rw [s4, s2]⟩
    · show InstanceWF (c1.instances.getD p default)
      rw [b7 p hpt]
      exact h8 p hp

theorem initEntity_scenario (ID : String) (periodicity : Rat) (N : Nat) (skipLimit : Int)
    (P1 L : Int) : ScenarioState P1 L N 0 false (initEntity ID periodicity N skipLimit) := by
  refine ⟨rfl, rfl, rfl, by simp [initEntity], fun _ => ⟨rfl, rfl, rfl, rfl⟩,
    fun h => absurd h (by decide), fun p _ hp => absurd hp (Nat.not_lt_zero p), fun p _ => ?_⟩
  exact getD_wf _ p (initEntity_wf ID periodicity N skipLimit).2.2.2.2

/-- Scenario A, the whole run: after `k` processed records the entity at position `i` has
committed `k / 2` of its own records and holds the record of `P1` in its accumulator when
`k` is odd. -/
theorem scenario_run (id_to_long : String → Int) (idleGap : Message → Message → Bool)
    (T : List Message) (n : Nat) (cands : List Message) (i : Nat) (hi : i < cands.length)
    (P1 P2 L : Int) (N : Nat) (hN : 0 < N) (hL : 0 < L) (hprio : P1 < P2)
    (hid : id_to_long (cands.getD i default).ID = P2)
    (hinit : ScenarioState P1 L N 0 false (cands.getD i default))
    (heven : ∀ j, j + 1 < n → j % 2 = 0 →
      id_to_long (T.getD j default).ID = P1 ∧ (T.getD j default).DLC * 8 + 47 = L ∧
        idleGap (T.getD j default) (T.getD (j + 1) default) = false)
    (hodd : ∀ j, j + 1 < n → j % 2 = 1 → id_to_long (T.getD j default).ID = P2) :
    ∀ k, k + 1 ≤ n →
      (AnalyzeCANTraffic id_to_long idleGap T (k + 1) cands).length = cands.length ∧
      id_to_long ((AnalyzeCANTraffic id_to_long idleGap T (k + 1) cands).getD i default).ID
        = P2 ∧
      ScenarioState P1 L N (k / 2) (decide (k % 2 = 1))
        ((AnalyzeCANTraffic id_to_long idleGap T (k + 1) cands).getD i default) := by
  intro k
  induction k with
  | zero =>
    intro _
    rw [AnalyzeCANTraffic_le_one _ _ _ 1 (le_refl 1)]
    exact ⟨rfl, hid, hinit⟩
  | succ k ih =>
    intro hk
    obtain ⟨hlen, hid2, hst⟩ := ih (by omega)
    rw [AnalyzeCANTraffic_succ]
    obtain ⟨hlen2, hent⟩ := analyzePacket_entity id_to_long idleGap (T.getD k default)
      (T.getD (k + 1) default) (AnalyzeCANTraffic id_to_long idleGap T (k + 1) cands)
    obtain ⟨cs, hcs⟩ := hent i (by rw [hlen]; exact hi)
    rw [hcs]
    refine ⟨hlen2.trans hlen, by rw [analyzeEntity_ID]; exact hid2, ?_⟩
    rcases Nat.mod_two_eq_zero_or_one k with hpar | hpar
    · obtain ⟨t1, t2, t3⟩ := heven k (by omega) hpar
      have e1 : decide (k % 2 = 1) = false := by rw [hpar]; rfl
      have e2 : decide ((k + 1) % 2 = 1) = true := by
        have : (k + 1) % 2 = 1 := by omega
        rw [this]; rfl
      have e3 : (k + 1) / 2 = k / 2 := by omega
      rw [e1] at hst
      rw [e2, e3, t3]
      exact scenario_step_high id_to_long _ cs _ P1 L N (k / 2) hst t1
        (by rw [hid2]; exact hprio) t2.symm
    · have t1 := hodd k (by omega) hpar
      have e1 : decide (k % 2 = 1) = true := by rw [hpar]; rfl
      have e2 : decide ((k + 1) % 2 = 1) = false := by
        have : (k + 1) % 2 = 0 := by omega
        rw [this]; rfl
      have e3 : (k + 1) / 2 = k / 2 + 1 := by omega
      rw [e1] at hst
      rw [e2, e3]
      exact scenario_step_self id_to_long _ _ cs _ P1 L N (k / 2) hN hst
        (by rw [hid2]; exact t1) hL

/-- C14: scenario A. For two monitored entities with identifiers `P1 < P2`, both with 5
instances and all-transmit patterns, and a trace `P1, P2, P1, P2, ...` of at least 11
records in which every `P1` frame has the size `d` and is not followed by an idle gap, the
run of `AnalyzeCANTraffic` from the initial state leaves the entity `P2` with 5 instances,
each with the window length `d*8+47` and a conflict set of exactly one entry, whose
identifier is `P1`. -/
theorem C14_scenario_A (id_to_long : String → Int) (idleGap : Message → Message → Bool)
    (id1 id2 : String) (per1 per2 : Rat) (skip1 skip2 : Int) (d : Int) (T : List Message)
    (n : Nat) (hprio : id_to_long id1 < id_to_long id2) (hd : 0 ≤ d) (hn : 11 ≤ n)
    (heven : ∀ j, j + 1 < n → j % 2 = 0 →
      id_to_long (T.getD j default).ID = id_to_long id1 ∧ (T.getD j default).DLC = d ∧
        idleGap (T.getD j default) (T.getD (j + 1) default) = false)
    (hodd : ∀ j, j + 1 < n → j % 2 = 1 → id_to_long (T.getD j default).ID = id_to_long id2) :
    ((AnalyzeCANTraffic id_to_long idleGap T n
        [initEntity id1 per1 5 skip1, initEntity id2 per2 5 skip2]).getD 1
          default).instances.length = 5 ∧
    ∀ p, p < 5 →
      (((AnalyzeCANTraffic id_to_long idleGap T n
        [initEntity id1 per1 5 skip1, initEntity id2 per2 5 skip2]).getD 1
          default).instances.getD p default).atkWinLen = d * 8 + 47 ∧
      (((AnalyzeCANTraffic id_to_long idleGap T n
        [initEntity id1 per1 5 skip1, initEntity id2 per2 5 skip2]).getD 1
          default).instances.getD p default).atkWinCount = 1 ∧
      (((AnalyzeCANTraffic id_to_long idleGap T n
        [initEntity id1 per1 5 skip1, initEntity id2 per2 5 skip2]).getD 1
          default).instances.getD p default).atkWin = [id_to_long id1] ∧
      (((AnalyzeCANTraffic id_to_long idleGap T n
        [initEntity id1 per1 5 skip1, initEntity id2 per2 5 skip2]).getD 1
          default).instances.getD p default).insWin.length = 1 := by
  have hrun := scenario_run id_to_long idleGap T n
    [initEntity id1 per1 5 skip1, initEntity id2 per2 5 skip2] 1 (by simp)
    (id_to_long id1) (id_to_long id2) (d * 8 + 47) 5 (by decide) (by omega) hprio rfl
    (initEntity_scenario id2 per2 5 skip2 _ _)
    (fun j hj hpar => by
      obtain ⟨t1, t2, t3⟩ := heven j hj hpar
      exact ⟨t1, by rw [t2], t3⟩)
    hodd (n - 1) (by omega)
  have e : n - 1 + 1 = n := by omega
  rw [e] at hrun
  obtain ⟨_, _, hst⟩ := hrun
  obtain ⟨_, _, _, h4, _, _, h7, _⟩ := hst
  exact ⟨h4, fun p hp => h7 p hp (by omega)⟩

/-- Witness of `C14_scenario_A`: the identifiers `20` and `30` and the trace
`alternatingTrace` of eleven records. -/
theorem C14_scenario_A_witness :
    decimalId "20" < decimalId "30" ∧
      ((AnalyzeCANTraffic decimalId noGap alternatingTrace 11
        [initEntity "20" 1 5 3, initEntity "30" 1 5 3]).getD 1 default).instances.length = 5 :=
  ⟨by decide,
    (C14_scenario_A decimalId noGap "20" "30" 1 1 3 3 8 alternatingTrace 11 (by decide)
      (by decide) (le_refl 11)
      (fun j hj hpar => by
        have hj10 : j < 10 := by omega
        interval_cases j <;> first | exact ⟨rfl, rfl, rfl⟩ | exact absurd hpar (by decide))
      (fun j hj hpar => by
        have hj10 : j < 10 := by omega
        interval_cases j <;> first | rfl | exact absurd hpar (by decide))).1⟩

/-! ## Claim C26: the exact acceptance condition of `IfSkipPossible` -/

/-- A scan that leaves early has just counted `skipLimit` zero pairs in a row: when the
counter stands at `m` and the `m` pairs before `i` are zero pairs, a scan that returns
`false` has met an index `e` with at least `skipLimit` zero pairs ending at `e`. -/
theorem scan_false_pairs (p : List Int) (n : Nat) (S : Int) (hS : 1 ≤ S) :
    ∀ (rem i m : Nat), m ≤ i → (∀ j, j < m → ZeroPair p n (i - 1 - j)) →
      IfSkipPossible.scan p n S rem i (m : Int) = false →
      ∃ e m1 : Nat, e < i + rem ∧ S ≤ (m1 : Int) ∧ m1 ≤ e + 1 ∧
        ∀ j, j < m1 → ZeroPair p n (e - j) := by
  intro rem
  induction rem with
  | zero => intro i m _ _ h; simp [IfSkipPossible.scan] at h
  | succ r ih =>
    intro i m hmi hz h
    rw [scan_succ] at h
    by_cases hp : ZeroPair p n i
    · have hz1 : ∀ j, j < m + 1 → ZeroPair p n (i + 1 - 1 - j) := by
        intro j hj
        by_cases hj0 : j = 0
        · subst hj0; simpa using hp
        · have := hz (j - 1) (by omega)
          have e : i - 1 - (j - 1) = i + 1 - 1 - j := by omega
          rw [e] at this; exact this
      rw [if_pos hp] at h
      by_cases hge : (m : Int) + 1 ≥ S
      · refine ⟨i, m + 1, by omega, by push_cast; omega, by omega, ?_⟩
        intro j hj
        have := hz1 j hj
        have e : i + 1 - 1 - j = i - j := by omega
        rw [e] at this; exact this
      · rw [if_neg hge] at h
        have h2 : IfSkipPossible.scan p n S r (i + 1) ((m + 1 : Nat) : Int) = false := by
          push_cast; exact h
        obtain ⟨e, m1, he, hm1, hme, hze⟩ := ih (i + 1) (m + 1) (by omega) hz1 h2
        exact ⟨e, m1, by omega, hm1, hme, hze⟩
    · rw [if_neg hp, if_neg (by omega)] at h
      have h2 : IfSkipPossible.scan p n S r (i + 1) ((0 : Nat) : Int) = false := by
        push_cast; exact h
      obtain ⟨e, m1, he, hm1, hme, hze⟩ := ih (i + 1) 0 (by omega)
        (fun j hj => absurd hj (by omega)) h2
      exact ⟨e, m1, by omega, hm1, hme, hze⟩

/-- The array followed by one copy of its first element: the entry at `i < n` is the entry of
the array, the entry at `n` is the first one. -/
theorem getD_extended (q : List Int) (n i : Nat) (hlen : q.length = n) (hn : 0 < n)
    (hi : i ≤ n) : (q ++ [q.getD 0 0]).getD i 0 = q.getD (i % n) 0 := by
  by_cases h : i < n
  · rw [List.getD_append _ _ _ _ (by omega), Nat.mod_eq_of_lt h]
  · have e : i = n := by omega
    subst e
    rw [List.getD_append_right _ _ _ _ (by omega), Nat.mod_self]
    simp [hlen]

/-- A zero pair at `i < n` is a pair of zeros at `i`, `i + 1` of the extended sequence. -/
theorem zeroPair_iff_extended (q : List Int) (n i : Nat) (hlen : q.length = n) (hi : i < n) :
    ZeroPair q n i ↔
      (q ++ [q.getD 0 0]).getD i 0 = 0 ∧ (q ++ [q.getD 0 0]).getD (i + 1) 0 = 0 := by
  rw [getD_extended q n i hlen (by omega) (by omega),
    getD_extended q n (i + 1) hlen (by omega) (by omega)]
  unfold ZeroPair
  constructor
  · rintro ⟨h1, h2⟩; exact ⟨h2, by rw [← h1]; exact h2⟩
  · rintro ⟨h1, h2⟩; exact ⟨by rw [h1, h2], h1⟩

/-- The scan of a pattern of length `n` with a limit of at least 1 runs to its end exactly
when the pattern followed by its first element has no run of more than `skipLimit` zeros. -/
theorem scan_true_iff (q : List Int) (n : Nat) (S : Int) (hlen : q.length = n) (hS : 1 ≤ S) :
    IfSkipPossible.scan q n S n 0 0 = true ↔
      ¬ ∃ s len : Nat, S < (len : Int) ∧ LinZeroRun (q ++ [q.getD 0 0]) (n + 1) s len := by
  constructor
  · rintro hscan ⟨s, len, hlt, hsl, hz⟩
    have hlen2 : 2 ≤ len := by omega
    have e : (n - s) + s = n := by omega
    obtain ⟨s1, hs1, hscan1⟩ := scan_true_later q n S s (n - s) 0 0 (le_refl 0)
      (by rw [e]; exact hscan)
    have := scan_true_run q n S (len - 2) (n - s) (0 + s) s1 hscan1 (by omega)
      (fun j hj => by
        rw [Nat.zero_add]
        rw [zeroPair_iff_extended q n (s + j) hlen (by omega)]
        exact ⟨hz j (by omega), by
          have := hz (j + 1) (by omega)
          rw [← Nat.add_assoc] at this; exact this⟩)
    push_cast at this
    omega
  · intro hno
    cases h : IfSkipPossible.scan q n S n 0 0
    · exfalso
      obtain ⟨e, m1, he, hm1, hme, hze⟩ := scan_false_pairs q n S hS n 0 0 (le_refl 0)
        (fun j hj => absurd hj (by omega)) (by push_cast; exact h)
      apply hno
      refine ⟨e + 1 - m1, m1 + 1, by push_cast; omega, by omega, ?_⟩
      intro j hj
      by_cases hj0 : j = m1
      · subst hj0
        have h1 := (zeroPair_iff_extended q n e hlen (by omega)).mp
          (by simpa using hze 0 (by omega))
        have e1 : e + 1 - j + j = e + 1 := by omega
        rw [e1]; exact h1.2
      · have h1 := (zeroPair_iff_extended q n (e - (m1 - 1 - j)) hlen (by omega)).mp
          (hze (m1 - 1 - j) (by omega))
        have e1 : e + 1 - m1 + j = e - (m1 - 1 - j) := by omega
        rw [e1]; exact h1.1
    · rfl

/-- C26: for a pattern of length `n`, a limit `skipLimit >= 1` and `c < n`,
`IfSkipPossible(pattern, n, skipLimit, c)` returns 1 exactly when, with `pattern[c]` set to
0, the sequence `pattern[0], ..., pattern[n-1], pattern[0]` has no run of more than
`skipLimit` consecutive zeros, and returns 0 otherwise; on return `pattern[c]` is 0 when the
result is 1 and 1 when the result is 0, and every other entry is as before. The statement
holds for every pattern, binary or not. -/
theorem C26_exact_acceptance (p : List Int) (n : Nat) (S : Int) (c : Nat)
    (hlen : p.length = n) (hS : 1 ≤ S) (hc : c < n) :
    ((IfSkipPossible p n S c).1 = 1 ↔
      ¬ ∃ s len : Nat, S < (len : Int) ∧
        LinZeroRun (p.set c 0 ++ [(p.set c 0).getD 0 0]) (n + 1) s len) ∧
    ((IfSkipPossible p n S c).1 = 1 ∨ (IfSkipPossible p n S c).1 = 0) ∧
    ((IfSkipPossible p n S c).1 = 1 → (IfSkipPossible p n S c).2[c]? = some 0) ∧
    ((IfSkipPossible p n S c).1 = 0 → (IfSkipPossible p n S c).2[c]? = some 1) ∧
    (IfSkipPossible p n S c).2.length = n ∧
    ∀ i, i ≠ c → (IfSkipPossible p n S c).2[i]? = p[i]? := by
  have hiff := scan_true_iff (p.set c 0) n S (by simp [hlen]) hS
  have hcl : c < p.length := by omega
  rcases IfSkipPossible_cases p n S c with ⟨hscan, hres⟩ | ⟨hscan, hres⟩
  · rw [hres]
    refine ⟨⟨fun _ => hiff.mp hscan, fun _ => rfl⟩, Or.inl rfl, fun _ => ?_,
      fun h => absurd h (by simp), by simp [hlen], fun i hi => ?_⟩
    · simp [List.getElem?_set, hcl]
    · simp [List.getElem?_set, Ne.symm hi]
  · rw [hres]
    refine ⟨⟨fun h => absurd h (by simp), fun h => ?_⟩, Or.inr rfl,
      fun h => absurd h (by simp), fun _ => ?_, by simp [hlen], fun i hi => ?_⟩
    · rw [hiff.mpr h] at hscan; exact absurd hscan (by simp)
    · simp [List.getElem?_set, hcl]
    · simp [List.getElem?_set, Ne.symm hi]

/-- Witness of `C26_exact_acceptance`: the skip at index 3 of `0 0 1 1 0` with limit 3 is
accepted (the sequence `0 0 1 0 0 0` has no run of four zeros). -/
theorem C26_exact_acceptance_witness :
    (IfSkipPossible [0, 0, 1, 1, 0] 5 3 3).1 = 1 ∧
      (IfSkipPossible [0, 0, 1, 1, 0] 5 3 3).2 = [0, 0, 1, 0, 0] ∧
      (IfSkipPossible [0, 0, 1, 1, 0] 5 3 3).2[3]? = some 0 :=
  ⟨by decide, by decide,
    (C26_exact_acceptance [0, 0, 1, 1, 0] 5 3 3 rfl (by decide) (by decide)).2.2.1 (by decide)⟩

/-! ## Lemmas on `InsMergeByAtkWinLen` -/

theorem ins_copyOut_mid (pre A post : List Instance) (s n : Nat) (hs : pre.length = s)
    (hn : A.length = n) : InsMergeByAtkWinLen.copyOut (pre ++ A ++ post) s n = A := by
  subst hs; subst hn
  unfold InsMergeByAtkWinLen.copyOut
  apply List.ext_getElem
  · simp
  · intro i h1 h2
    simp only [List.getElem_map, List.getElem_range]
    rw [List.append_assoc, List.getD_append_right _ _ _ _ (by omega)]
    have e : pre.length + i - pre.length = i := by omega
    rw [e, List.getD_append _ _ _ _ h2, List.getD_eq_getElem _ _ h2]

theorem ins_drop_cons (L : List Instance) (i : Nat) (h : i < L.length) :
    L.drop i = L.getD i default :: L.drop (i + 1) := by
  rw [List.drop_eq_getElem_cons h, List.getD_eq_getElem _ _ h]

theorem ins_set_append_cons (pre : List Instance) (v0 v : Instance) (rest : List Instance)
    (k : Nat) (hk : pre.length = k) : (pre ++ v0 :: rest).set k v = (pre ++ [v]) ++ rest := by
  subst hk
  simp [List.set_append]

theorem mergeDesc_nil_right (l : List Instance) : mergeDesc l [] = l := by
  cases l <;> simp [mergeDesc]

theorem mergeDesc_nil_left (r : List Instance) : mergeDesc [] r = r := by
  simp [mergeDesc]

theorem mergeDesc_cons_ge (a b : Instance) (l r : List Instance)
    (h : a.atkWinLen ≥ b.atkWinLen) :
    mergeDesc (a :: l) (b :: r) = a :: mergeDesc l (b :: r) := by
  rw [mergeDesc, if_pos h]

theorem mergeDesc_cons_lt (a b : Instance) (l r : List Instance)
    (h : ¬ a.atkWinLen ≥ b.atkWinLen) :
    mergeDesc (a :: l) (b :: r) = b :: mergeDesc (a :: l) r := by
  rw [mergeDesc, if_neg h]

/-- The loop `while (i < n1)` writes what is left of `L` behind the written part. -/
theorem ins_restL_spec (L : List Instance) (n1 : Nat) (hL : L.length = n1) :
    ∀ (d : Nat) (st : InsMergeState) (pre rest : List Instance),
      n1 - st.i = d → st.i ≤ n1 → st.instances = pre ++ rest → pre.length = st.k →
      d ≤ rest.length →
      InsMergeByAtkWinLen.restL L n1 st =
        { instances := pre ++ L.drop st.i ++ rest.drop d, i := n1, j := st.j, k := st.k + d } := by
  intro d
  induction d with
  | zero =>
    intro st pre rest hd hi harr hk _
    have hin : st.i = n1 := by omega
    rw [InsMergeByAtkWinLen.restL, if_neg (by omega)]
    have hdrop : L.drop st.i = [] := List.drop_eq_nil_of_le (by omega)
    rw [hdrop]
    cases st
    simp_all
  | succ d ih =>
    intro st pre rest hd hi harr hk hr
    have hlt : st.i < n1 := by omega
    rw [InsMergeByAtkWinLen.restL, if_pos hlt]
    obtain ⟨v0, rest0, rfl⟩ : ∃ v0 rest0, rest = v0 :: rest0 := by
      cases rest with
      | nil => simp at hr
      | cons a t => exact ⟨a, t, rfl⟩
    rw [ih _ (pre ++ [L.getD st.i default]) rest0 (by simp; omega) (by simp; omega)
      (by simp only [harr]; exact ins_set_append_cons pre v0 _ rest0 st.k hk)
      (by simp; omega) (by simp at hr; omega)]
    rw [ins_drop_cons L st.i (by omega)]
    simp
    omega

/-- The loop `while (j < n2)` writes what is left of `R` behind the written part. -/
theorem ins_restR_spec (R : List Instance) (n2 : Nat) (hR : R.length = n2) :
    ∀ (d : Nat) (st : InsMergeState) (pre rest : List Instance),
      n2 - st.j = d → st.j ≤ n2 → st.instances = pre ++ rest → pre.length = st.k →
      d ≤ rest.length →
      InsMergeByAtkWinLen.restR R n2 st =
        { instances := pre ++ R.drop st.j ++ rest.drop d, i := st.i, j := n2, k := st.k + d } := by
  intro d
  induction d with
  | zero =>
    intro st pre rest hd hi harr hk _
    have hin : st.j = n2 := by omega
    rw [InsMergeByAtkWinLen.restR, if_neg (by omega)]
    have hdrop : R.drop st.j = [] := List.drop_eq_nil_of_le (by omega)
    rw [hdrop]
    cases st
    simp_all
  | succ d ih =>
    intro st pre rest hd hi harr hk hr
    have hlt : st.j < n2 := by omega
    rw [InsMergeByAtkWinLen.restR, if_pos hlt]
    obtain ⟨v0, rest0, rfl⟩ : ∃ v0 rest0, rest = v0 :: rest0 := by
      cases rest with
      | nil => simp at hr
      | cons a t => exact ⟨a, t, rfl⟩
    rw [ih _ (pre ++ [R.getD st.j default]) rest0 (by simp; omega) (by simp; omega)
      (by simp only [harr]; exact ins_set_append_cons pre v0 _ rest0 st.k hk)
      (by simp; omega) (by simp at hr; omega)]
    rw [ins_drop_cons R st.j (by omega)]
    simp
    omega

/-- The three loops of `InsMergeByAtkWinLen`, one after the other, write the stable
descending merge of what is left of the two halves behind the written part. -/
theorem ins_mergeLoops_spec (L R : List Instance) (n1 n2 : Nat) (hL : L.length = n1)
    (hR : R.length = n2) :
    ∀ (d : Nat) (st : InsMergeState) (pre rest : List Instance),
      (n1 - st.i) + (n2 - st.j) = d → st.i ≤ n1 → st.j ≤ n2 →
      st.instances = pre ++ rest → pre.length = st.k → d ≤ rest.length →
      (InsMergeByAtkWinLen.restR R n2 (InsMergeByAtkWinLen.restL L n1
          (InsMergeByAtkWinLen.mergeLoop L R n1 n2 st))).instances =
        pre ++ mergeDesc (L.drop st.i) (R.drop st.j) ++ rest.drop d := by
  intro d
  induction d using Nat.strong_induction_on with
  | _ d ih =>
    intro st pre rest hd hi hj harr hk hr
    by_cases hboth : st.i < n1 ∧ st.j < n2
    · obtain ⟨hi1, hj1⟩ := hboth
      obtain ⟨v0, rest0, rfl⟩ : ∃ v0 rest0, rest = v0 :: rest0 := by
        cases rest with
        | nil => simp at hr; omega
        | cons a t => exact ⟨a, t, rfl⟩
      have hdpos : d - 1 < d := by omega
      have hdrop : (v0 :: rest0).drop d = rest0.drop (d - 1) := by
        obtain ⟨e, rfl⟩ : ∃ e, d = e + 1 := ⟨d - 1, by omega⟩
        simp
      have hLd := ins_drop_cons L st.i (by omega)
      have hRd := ins_drop_cons R st.j (by omega)
      rw [InsMergeByAtkWinLen.mergeLoop, if_pos ⟨hi1, hj1⟩, hdrop]
      by_cases hge : (L.getD st.i default).atkWinLen ≥ (R.getD st.j default).atkWinLen
      · rw [if_pos hge]
        have := ih (d - 1) hdpos
          { instances := st.instances.set st.k (L.getD st.i default),
            i := st.i + 1, j := st.j, k := st.k + 1 }
          (pre ++ [L.getD st.i default]) rest0
          (by simp only; omega) (by simp only; omega) (by simp only; omega)
          (by simp only [harr]; exact ins_set_append_cons pre v0 _ rest0 st.k hk)
          (by simp; omega) (by simp at hr; omega)
        simp only at this
        rw [this, hLd, hRd, mergeDesc_cons_ge _ _ _ _ hge]
        simp
      · rw [if_neg hge]
        have := ih (d - 1) hdpos
          { instances := st.instances.set st.k (R.getD st.j default),
            i := st.i, j := st.j + 1, k := st.k + 1 }
          (pre ++ [R.getD st.j default]) rest0
          (by simp only; omega) (by simp only; omega) (by simp only; omega)
          (by simp only [harr]; exact ins_set_append_cons pre v0 _ rest0 st.k hk)
          (by simp; omega) (by simp at hr; omega)
        simp only at this
        rw [this, hRd, hLd, mergeDesc_cons_lt _ _ _ _ hge]
        simp
    · rw [InsMergeByAtkWinLen.mergeLoop, if_neg hboth]
      have hor : st.i = n1 ∨ st.j = n2 := by omega
      rw [ins_restL_spec L n1 hL (n1 - st.i) st pre rest rfl hi harr hk (by omega)]
      rw [ins_restR_spec R n2 hR (n2 - st.j)
        { instances := pre ++ L.drop st.i ++ rest.drop (n1 - st.i), i := n1, j := st.j,
          k := st.k + (n1 - st.i) }
        (pre ++ L.drop st.i) (rest.drop (n1 - st.i)) rfl hj rfl
        (by simp [hL]; omega) (by simp; omega)]
      have hM : mergeDesc (L.drop st.i) (R.drop st.j) = L.drop st.i ++ R.drop st.j := by
        rcases hor with h | h
        · have : L.drop st.i = [] := List.drop_eq_nil_of_le (by omega)
          rw [this, mergeDesc_nil_left]; simp
        · have : R.drop st.j = [] := List.drop_eq_nil_of_le (by omega)
          rw [this, mergeDesc_nil_right]; simp
      have hdd : n1 - st.i + (n2 - st.j) = d := hd
      simp only [hM, List.drop_drop, List.append_assoc, hdd]

/-- The function `InsMergeByAtkWinLen` on an array cut as `pre ++ A ++ B ++ post`, with `A`
the part `l..m` and `B` the part `m+1..r`: the part `l..r` receives the stable descending
merge, the rest stays. -/
theorem InsMerge_spec (pre A B post : List Instance) (l m r : Int)
    (hl : 0 ≤ l) (hpre : pre.length = l.toNat) (hA : (A.length : Int) = m - l + 1)
    (hB : (B.length : Int) = r - m) :
    InsMergeByAtkWinLen (pre ++ A ++ B ++ post) l m r = pre ++ mergeDesc A B ++ post := by
  have hn1 : (m - l + 1).toNat = A.length := by omega
  have hn2 : (r - m).toNat = B.length := by omega
  have hm1 : (m + 1).toNat = pre.length + A.length := by omega
  have hLA : InsMergeByAtkWinLen.copyOut (pre ++ A ++ B ++ post) l.toNat A.length = A := by
    rw [List.append_assoc (pre ++ A)]
    exact ins_copyOut_mid pre A (B ++ post) _ _ hpre rfl
  have hRB : InsMergeByAtkWinLen.copyOut (pre ++ A ++ B ++ post) (pre.length + A.length)
      B.length = B :=
    ins_copyOut_mid (pre ++ A) B post _ _ (by simp) rfl
  unfold InsMergeByAtkWinLen
  simp only [hn1, hn2, hm1, hLA, hRB]
  have := ins_mergeLoops_spec A B A.length B.length rfl rfl (A.length + B.length)
    { instances := pre ++ A ++ B ++ post, i := 0, j := 0, k := l.toNat }
    pre (A ++ B ++ post) (by simp) (by simp) (by simp) (by simp) hpre (by simp)
  simp only [List.drop_zero] at this
  rw [this]
  have e1 : (A ++ B ++ post).drop (A.length + B.length) = post := by
    have := List.drop_left (A ++ B) post
    rw [List.length_append] at this
    exact this
  rw [e1]

/-! ## Properties of the stable descending merge -/

theorem mergeDesc_perm : ∀ (l r : List Instance), (mergeDesc l r).Perm (l ++ r) := by
  intro l
  induction l with
  | nil => intro r; rw [mergeDesc_nil_left]; exact List.Perm.refl _
  | cons a l ihl =>
    intro r
    induction r with
    | nil => rw [mergeDesc_nil_right, List.append_nil]
    | cons b r ihr =>
      by_cases h : a.atkWinLen ≥ b.atkWinLen
      · rw [mergeDesc_cons_ge _ _ _ _ h]
        exact (ihl (b :: r)).cons a
      · rw [mergeDesc_cons_lt _ _ _ _ h]
        exact (ihr.cons b).trans (List.perm_middle.symm)

theorem mergeDesc_sorted : ∀ (l r : List Instance), LenSortedDesc l → LenSortedDesc r →
    LenSortedDesc (mergeDesc l r) := by
  intro l
  induction l with
  | nil => intro r _ hr; rw [mergeDesc_nil_left]; exact hr
  | cons a l ihl =>
    intro r
    induction r with
    | nil => intro hl _; rw [mergeDesc_nil_right]; exact hl
    | cons b r ihr =>
      intro hl hr
      unfold LenSortedDesc at hl hr ⊢
      rw [List.pairwise_cons] at hl hr
      by_cases h : a.atkWinLen ≥ b.atkWinLen
      · rw [mergeDesc_cons_ge _ _ _ _ h, List.pairwise_cons]
        refine ⟨?_, ihl (b :: r) hl.2 (List.pairwise_cons.mpr hr)⟩
        intro q hq
        have hq1 : q ∈ l ++ b :: r := (mergeDesc_perm l (b :: r)).subset hq
        rcases List.mem_append.mp hq1 with hq2 | hq2
        · exact hl.1 q hq2
        · rcases List.mem_cons.mp hq2 with hq3 | hq3
          · rw [hq3]; exact h
          · exact le_trans (hr.1 q hq3) h
      · rw [mergeDesc_cons_lt _ _ _ _ h, List.pairwise_cons]
        refine ⟨?_, ihr (List.pairwise_cons.mpr hl) hr.2⟩
        intro q hq
        have hq1 : q ∈ (a :: l) ++ r := (mergeDesc_perm (a :: l) r).subset hq
        rcases List.mem_append.mp hq1 with hq2 | hq2
        · rcases List.mem_cons.mp hq2 with hq3 | hq3
          · rw [hq3]; omega
          · have := hl.1 q hq3; omega
        · exact hr.1 q hq2

theorem withLen_cons (k : Int) (a : Instance) (l : List Instance) :
    withLen k (a :: l) = if a.atkWinLen = k then a :: withLen k l else withLen k l := by
  unfold withLen
  rw [List.filter_cons]
  simp

theorem withLen_append (k : Int) (l r : List Instance) :
    withLen k (l ++ r) = withLen k l ++ withLen k r := by
  unfold withLen
  exact List.filter_append l r

theorem withLen_eq_nil (k : Int) (l : List Instance) (h : ∀ q ∈ l, q.atkWinLen ≠ k) :
    withLen k l = [] := by
  unfold withLen
  rw [List.filter_eq_nil_iff]
  intro q hq
  simpa using h q hq

/-- The descending merge is stable: for every window length, the instances of the left list
come first, in their order, then those of the right list, in their order. -/
theorem mergeDesc_withLen (k : Int) : ∀ (l r : List Instance), LenSortedDesc l →
    withLen k (mergeDesc l r) = withLen k l ++ withLen k r := by
  intro l
  induction l with
  | nil => intro r _; rw [mergeDesc_nil_left]; simp [withLen]
  | cons a l ihl =>
    intro r
    induction r with
    | nil => intro _; rw [mergeDesc_nil_right]; simp [withLen]
    | cons b r ihr =>
      intro hl
      have hl2 := hl
      unfold LenSortedDesc at hl2
      rw [List.pairwise_cons] at hl2
      by_cases h : a.atkWinLen ≥ b.atkWinLen
      · rw [mergeDesc_cons_ge _ _ _ _ h, withLen_cons, ihl (b :: r) hl2.2, withLen_cons k a l]
        split <;> simp
      · rw [mergeDesc_cons_lt _ _ _ _ h, withLen_cons, ihr hl, withLen_cons k b r]
        split
        · next hb =>
          have hnil : withLen k (a :: l) = [] := by
            apply withLen_eq_nil
            intro q hq
            rcases List.mem_cons.mp hq with hq3 | hq3
            · rw [hq3]; omega
            · have := hl2.1 q hq3; omega
          rw [hnil]; simp
        · rfl

/-- Merging two lists whose concatenation is already in descending order gives the
concatenation. -/
theorem mergeDesc_of_sorted_append : ∀ (l r : List Instance), LenSortedDesc (l ++ r) →
    mergeDesc l r = l ++ r := by
  intro l
  induction l with
  | nil => intro r _; rw [mergeDesc_nil_left]; rfl
  | cons a l ihl =>
    intro r hs
    cases r with
    | nil => rw [mergeDesc_nil_right, List.append_nil]
    | cons b r =>
      unfold LenSortedDesc at hs
      rw [List.cons_append, List.pairwise_cons] at hs
      have h : a.atkWinLen ≥ b.atkWinLen := hs.1 b (by simp)
      rw [mergeDesc_cons_ge _ _ _ _ h, ihl (b :: r) hs.2]
      rfl

/-! ## Lemmas on `InsSortByAtkWinLen` -/

theorem lenSortedDesc_of_length_le_one (S : List Instance) (h : S.length ≤ 1) :
    LenSortedDesc S := by
  unfold LenSortedDesc
  match S, h with
  | [], _ => exact List.Pairwise.nil
  | [a], _ => exact List.pairwise_singleton _ a
  | _ :: _ :: _, h => simp at h

theorem isStableDescSortOf_merge (inA inB S1 S2 : List Instance)
    (h1 : IsStableDescSortOf inA S1) (h2 : IsStableDescSortOf inB S2) :
    IsStableDescSortOf (inA ++ inB) (mergeDesc S1 S2) := by
  refine ⟨?_, mergeDesc_sorted S1 S2 h1.2.1 h2.2.1, ?_⟩
  · exact (mergeDesc_perm S1 S2).trans (List.Perm.append h1.1 h2.1)
  · intro k
    rw [mergeDesc_withLen k S1 S2 h1.2.1, withLen_append, h1.2.2 k, h2.2.2 k]

/-- The function `InsSortByAtkWinLen` on an array cut as `pre ++ mid ++ post`, with `mid` the
part `l..r`: that part receives its stable descending sort, the rest stays; a part that is
already in descending order stays as it is. -/
theorem InsSort_spec : ∀ (n : Nat) (l r : Int) (pre mid post : List Instance),
    (r - l).toNat = n → 0 ≤ l → pre.length = l.toNat → (mid.length : Int) = r - l + 1 →
    ∃ S : List Instance,
      InsSortByAtkWinLen (pre ++ mid ++ post) l r = pre ++ S ++ post ∧
      IsStableDescSortOf mid S ∧ (LenSortedDesc mid → S = mid) := by
  intro n
  induction n using Nat.strong_induction_on with
  | _ n ih =>
    intro l r pre mid post hn hl hpre hmid
    by_cases hlr : l < r
    · rw [InsSortByAtkWinLen, if_pos hlr]
      have hm : Int.tdiv (r - l) 2 = (r - l) / 2 := Int.tdiv_eq_ediv (by omega) (by decide)
      rw [hm]
      generalize hmdef : l + (r - l) / 2 = m
      have hm1 : l ≤ m := by omega
      have hm2 : m < r := by omega
      have hAlen : ((mid.take (m - l + 1).toNat).length : Int) = m - l + 1 := by
        rw [List.length_take]; omega
      have hBlen : ((mid.drop (m - l + 1).toNat).length : Int) = r - (m + 1) + 1 := by
        rw [List.length_drop]; omega
      have hsplit : mid = mid.take (m - l + 1).toNat ++ mid.drop (m - l + 1).toNat :=
        (List.take_append_drop _ _).symm
      generalize mid.take (m - l + 1).toNat = A at hAlen hsplit
      generalize mid.drop (m - l + 1).toNat = B at hBlen hsplit
      subst hsplit
      obtain ⟨S1, hS1, hst1, hid1⟩ := ih (m - l).toNat (by omega) l m pre A (B ++ post)
        rfl hl hpre hAlen
      have hS1len : S1.length = A.length := hst1.1.length_eq
      obtain ⟨S2, hS2, hst2, hid2⟩ := ih (r - (m + 1)).toNat (by omega) (m + 1) r
        (pre ++ S1) B post rfl (by omega) (by simp; omega) hBlen
      have hS2len : S2.length = B.length := hst2.1.length_eq
      have e1 : pre ++ (A ++ B) ++ post = pre ++ A ++ (B ++ post) := by simp
      have hmerge := InsMerge_spec pre S1 S2 post l m r hl hpre (by omega) (by omega)
      refine ⟨mergeDesc S1 S2, ?_, isStableDescSortOf_merge _ _ _ _ hst1 hst2, ?_⟩
      · have e3 : pre ++ S1 ++ (B ++ post) = pre ++ S1 ++ B ++ post := by simp
        simp only [e1, hS1]
        rw [e3, hS2]
        exact hmerge
      · intro hsorted
        have hsA : LenSortedDesc A := (List.pairwise_append.mp hsorted).1
        have hsB : LenSortedDesc B := (List.pairwise_append.mp hsorted).2.1
        rw [hid1 hsA, hid2 hsB]
        exact mergeDesc_of_sorted_append _ _ hsorted
    · rw [InsSortByAtkWinLen, if_neg hlr]
      have hlen : mid.length ≤ 1 := by omega
      exact ⟨mid, rfl, ⟨List.Perm.refl _, lenSortedDesc_of_length_le_one _ hlen, fun _ => rfl⟩,
        fun _ => rfl⟩

/-- The call `InsSortByAtkWinLen(&instances, 0, count - 1)` of `main` on an array of `count`
instances: the stable descending sort of the array; an array that is already in descending
order stays as it is. -/
theorem InsSort_full (instances : List Instance) :
    IsStableDescSortOf instances
        (InsSortByAtkWinLen instances 0 ((instances.length : Int) - 1)) ∧
      (LenSortedDesc instances →
        InsSortByAtkWinLen instances 0 ((instances.length : Int) - 1) = instances) := by
  obtain ⟨S, hS, hst, hid⟩ := InsSort_spec ((instances.length : Int) - 1 - 0).toNat 0
    ((instances.length : Int) - 1) [] instances [] rfl (le_refl 0) rfl (by omega)
  simp only [List.nil_append, List.append_nil] at hS
  rw [hS]
  exact ⟨hst, hid⟩

/-- Two entries of a list that both pass a filter stand in a relation that holds pairwise on
the filtered list. -/
theorem pairwise_filter_getElem {α : Type} (R : α → α → Prop) (P : α → Bool) :
    ∀ (l : List α), (l.filter P).Pairwise R → ∀ (i j : Nat) (hij : i < j) (hj : j < l.length),
      P (l.get ⟨i, by omega⟩) = true → P (l.get ⟨j, hj⟩) = true →
      R (l.get ⟨i, by omega⟩) (l.get ⟨j, hj⟩) := by
  intro l
  induction l with
  | nil => intro _ i j _ hj; simp at hj
  | cons a t ih =>
    intro hp i j hij hj hPi hPj
    obtain ⟨j1, rfl⟩ : ∃ j1, j = j1 + 1 := ⟨j - 1, by omega⟩
    cases i with
    | zero =>
      simp only [List.get_eq_getElem, List.getElem_cons_zero, List.getElem_cons_succ] at hPi hPj ⊢
      rw [List.filter_cons_of_pos hPi, List.pairwise_cons] at hp
      exact hp.1 _ (List.mem_filter.mpr ⟨List.getElem_mem _, hPj⟩)
    | succ i1 =>
      simp only [List.get_eq_getElem, List.getElem_cons_succ] at hPi hPj ⊢
      have hp2 : (t.filter P).Pairwise R := by
        by_cases hPa : P a = true
        · rw [List.filter_cons_of_pos hPa, List.pairwise_cons] at hp; exact hp.2
        · rw [List.filter_cons_of_neg hPa] at hp; exact hp
      have := ih hp2 i1 j1 (by omega) (by simp at hj; omega)
      simp only [List.get_eq_getElem] at this
      exact this hPi hPj

/-! ## Claim C22: the sort of the instances -/

/-- C22 (as stated, refuted): on the array `tiedInstances`, two instances of window length 5
with `index` 1 and 0 in this order, `InsSortByAtkWinLen` leaves the array as it is: the two
instances of equal window length stand in decreasing order of their index. Such an array
comes up in `main`: after two rounds over `reorderTrace` the sorted array of the entity `20`
holds the instance of `index` 1 before the instance of `index` 0, both of window length 0. -/
theorem C22_counterexample :
    InsSortByAtkWinLen tiedInstances 0 ((tiedInstances.length : Int) - 1) = tiedInstances ∧
      (tiedInstances.getD 0 default).atkWinLen = (tiedInstances.getD 1 default).atkWinLen ∧
      ¬ (tiedInstances.getD 0 default).index < (tiedInstances.getD 1 default).index ∧
      instanceView ((analyzeAndSort decimalId noGap reorderTrace 4 reorderRoundOne).getD 0
        default) = [(1, 0), (0, 0)] :=
  ⟨(InsSort_full tiedInstances).2 (by decide), by decide, by decide, by decide!⟩

/-- C22 (amended): for every array of `count` instances, after
`InsSortByAtkWinLen(instances, 0, count - 1)` the array is a permutation of the input in
non-increasing order of window length and the sort is stable (the instances of each window
length keep the order they had in the input); when the input is in increasing order of the
`index` field, instances of equal window length appear in increasing order of `index`. -/
theorem C22_InsSort_stable_descending (instances : List Instance) (count : Nat)
    (hcount : instances.length = count) :
    (InsSortByAtkWinLen instances 0 ((count : Int) - 1)).Perm instances ∧
      LenSortedDesc (InsSortByAtkWinLen instances 0 ((count : Int) - 1)) ∧
      (∀ k, withLen k (InsSortByAtkWinLen instances 0 ((count : Int) - 1)) =
        withLen k instances) ∧
      (IndexIncreasing instances → ∀ i j : Nat, i < j → j < count →
        ((InsSortByAtkWinLen instances 0 ((count : Int) - 1)).getD i default).atkWinLen =
          ((InsSortByAtkWinLen instances 0 ((count : Int) - 1)).getD j default).atkWinLen →
        ((InsSortByAtkWinLen instances 0 ((count : Int) - 1)).getD i default).index <
          ((InsSortByAtkWinLen instances 0 ((count : Int) - 1)).getD j default).index) := by
  subst hcount
  obtain ⟨⟨hperm, hsorted, hstable⟩, _⟩ := InsSort_full instances
  refine ⟨hperm, hsorted, hstable, ?_⟩
  intro hinc i j hij hj heq
  generalize InsSortByAtkWinLen instances 0 ((instances.length : Int) - 1) = out at *
  have hlen : out.length = instances.length := hperm.length_eq
  have hjo : j < out.length := by omega
  have hio : i < out.length := by omega
  rw [List.getD_eq_getElem _ _ hio, List.getD_eq_getElem _ _ hjo] at heq ⊢
  have hpw : (out.filter (fun a => decide (a.atkWinLen = out[j].atkWinLen))).Pairwise
      (fun a b => a.index < b.index) := by
    have h1 := hstable out[j].atkWinLen
    unfold withLen at h1
    rw [h1]
    exact List.Pairwise.sublist (List.filter_sublist _) hinc
  have := pairwise_filter_getElem (fun a b : Instance => a.index < b.index)
    (fun a => decide (a.atkWinLen = out[j].atkWinLen)) out hpw i j hij hjo
    (by simpa using heq) (by simp)
  simpa using this

/-- Witness of `C22_InsSort_stable_descending`: the array `freshInstances`, in increasing
order of `index`; the two instances of window length 3 keep the order of their indices 0
and 2 behind the instance of window length 7. -/
theorem C22_InsSort_stable_descending_witness :
    freshInstances.length = 3 ∧ IndexIncreasing freshInstances ∧
      ((InsSortByAtkWinLen freshInstances 0 ((3 : Nat) - 1 : Int)).getD 1 default).index <
        ((InsSortByAtkWinLen freshInstances 0 ((3 : Nat) - 1 : Int)).getD 2 default).index :=
  ⟨rfl, by decide,
    (C22_InsSort_stable_descending freshInstances 3 rfl).2.2.2 (by decide) 1 2 (by decide)
      (by decide) (by decide!)⟩

/-! ## Claim C21: the instance that a commit updates -/

/-- C21 (the code diverges): the entity `20` (two instances, skip limit 2) and the trace
`reorderTrace`. The first round leaves window length 0 on instance 0 and 111 on instance 1;
the sort puts the instance of `index` 1 at position 0 and Strategy 1 skips it (pattern
`1 0`). In the second round the first record is a self-match with `readCount = 2`, so the
target index is `(2 + 0) mod 2 = 0`; the commit updates the instance at position 0, whose
`index` is 1 (its window length goes from 111 to 0), not the instance whose `index` is 0. -/
theorem C21_commit_updates_position :
    instanceView (reorderRoundOne.getD 0 default) = [(1, 111), (0, 0)] ∧
    (reorderRoundOne.getD 0 default).pattern = [1, 0] ∧
    (reorderRoundOne.getD 0 default).readCount = 2 ∧
    (reorderRoundOne.getD 0 default).count = 2 ∧
    ((reorderRoundOne.getD 0 default).readCount +
        skippedSoFar (reorderRoundOne.getD 0 default).pattern
          (reorderRoundOne.getD 0 default).readCount (reorderRoundOne.getD 0 default).count) %
      (reorderRoundOne.getD 0 default).count = 0 ∧
    decimalId (reorderTrace.getD 0 default).ID = decimalId (reorderRoundOne.getD 0 default).ID ∧
    instanceView ((AnalyzeCANTraffic decimalId noGap reorderTrace 2 reorderRoundOne).getD 0
      default) = [(1, 0), (0, 0)] := by
  decide!

/-! ## Claim C24: the position that Strategy 2 passes -/

/-- C24 (the code diverges): the entities `20` (two instances) and `30` (one instance, skip
limit 1) and the trace `upstreamTrace`. In the first round the instance of `30` chosen by
Strategy 1 (sorted position 0, `index` 0) holds the conflict set `20` with recorded origin 1.
Strategy 1 fails; `CheckMembership` finds `20` at position 0 of the conflict set, and Strategy
2 puts the skip of `20` at index 0 (pattern `0 1`), the position in the conflict set, not at
the recorded origin 1, where a skip was feasible as well (pattern `1 0`). -/
theorem C24_strategy2_passes_position :
    firstSkipCandidate (upstreamSorted.getD 1 default) = 0 ∧
    ((upstreamSorted.getD 1 default).instances.getD 0 default).index = 0 ∧
    ((upstreamSorted.getD 1 default).instances.getD 0 default).atkWin = [20] ∧
    ((upstreamSorted.getD 1 default).instances.getD 0 default).insWin = [1] ∧
    (IfSkipPossible (upstreamSorted.getD 1 default).pattern
      (upstreamSorted.getD 1 default).count (upstreamSorted.getD 1 default).skipLimit 0).1 = 0 ∧
    decimalId (upstreamSorted.getD 0 default).ID = 20 ∧
    CheckMembership ((upstreamSorted.getD 1 default).instances.getD 0 default).atkWin
      ((upstreamSorted.getD 1 default).instances.getD 0 default).atkWinCount 20 = 0 ∧
    (upstreamSorted.getD 0 default).pattern = [1, 1] ∧
    IfSkipPossible [1, 1] 2 3 1 = (1, [1, 0]) ∧
    ((obfuscateEntity decimalId [3, 1] upstreamSorted 1).getD 0 default).pattern = [0, 1] ∧
    ((obfuscationRound decimalId noGap [3, 1] upstreamTrace 3 twoEntities).getD 0
      default).pattern = [0, 1] := by
  decide!

/-! ## Claim C27: the skip limit that Strategy 2 passes -/

/-- C27 (the code diverges): the entities `limitEntities` with the table `limitTable` and the
trace `limitTrace`. `InitializeECU` gives each entity the limit of its position. In the
first round Strategies 1 and 2 fail for `30` at position 1 and Strategy 3 swaps it with `20`:
position 1 now holds `20`, whose own limit is 1, while the table holds 2 at position 1. Then
Strategy 2 of `25` at position 2 finds `20` in its conflict set and calls `IfSkipPossible` on
the pattern of `20` with the limit 2 of the table: the skip is accepted (pattern `0`), while
the own limit 1 of `20` rejects it. -/
theorem C27_strategy2_stale_limit :
    limitEntities.map (fun c => c.skipLimit) = limitTable ∧
    limitSwapped.map (fun c => c.ID) = ["30", "20", "25"] ∧
    limitSwapped.map (fun c => c.skipLimit) = [2, 1, 1] ∧
    (limitSwapped.getD 1 default).skipLimit ≠ limitTable.getD 1 0 ∧
    (limitSwapped.getD 1 default).pattern = [1] ∧
    CheckMembership ((limitSwapped.getD 2 default).instances.getD 0 default).atkWin
      ((limitSwapped.getD 2 default).instances.getD 0 default).atkWinCount
      (decimalId (limitSwapped.getD 1 default).ID) = 0 ∧
    IfSkipPossible [1] 1 (limitTable.getD 1 0) 0 = (1, [0]) ∧
    IfSkipPossible [1] 1 (limitSwapped.getD 1 default).skipLimit 0 = (0, [1]) ∧
    (obfuscateEntity decimalId limitTable limitSwapped 2).map (fun c => c.pattern) =
      [[1], [0], [1]] ∧
    (obfuscationRound decimalId noGap limitTable limitTrace 4 limitEntities).map
      (fun c => (c.ID, c.skipLimit, c.pattern)) =
        [("30", 2, [1]), ("20", 1, [0]), ("25", 1, [1])] := by
  decide!

/-! ## Claim C23: Strategy 1 -/

/-- The first hit of a search through `0, ..., n-1`: the hit satisfies the test and nothing
before it does; without a hit nothing below `n` satisfies the test. -/
theorem find_range_spec (p : Nat → Bool) : ∀ n : Nat,
    (∀ j, (List.range n).find? p = some j → j < n ∧ p j = true ∧ ∀ j1, j1 < j → p j1 = false) ∧
    ((List.range n).find? p = none → ∀ j, j < n → p j = false) := by
  intro n
  induction n with
  | zero => simp
  | succ n ih =>
    rw [List.range_succ, List.find?_append]
    cases h : (List.range n).find? p with
    | some j0 =>
      obtain ⟨h1, h2, h3⟩ := ih.1 j0 h
      refine ⟨fun j hj => ?_, fun hj => by simp at hj⟩
      simp only [Option.or, Option.some.injEq] at hj
      subst hj
      exact ⟨by omega, h2, h3⟩
    | none =>
      have h0 := ih.2 h
      simp only [Option.or]
      by_cases hp : p n = true
      · refine ⟨fun j hj => ?_, fun hj => by simp [hp] at hj⟩
        simp only [List.find?_cons, hp, Option.some.injEq] at hj
        subst hj
        exact ⟨by omega, hp, fun j1 hj1 => h0 j1 hj1⟩
      · have hpf : p n = false := by simpa using hp
        refine ⟨fun j hj => by simp [hpf] at hj, fun _ j hj => ?_⟩
        by_cases hjn : j = n
        · subst hjn; exact hpf
        · exact h0 j (by omega)

/-- The `while` loop of Strategy 1 stops at the first sorted position whose instance is
attackable and not yet skipped, or at `count`. -/
theorem firstSkipCandidate_spec (c : Message) :
    firstSkipCandidate c ≤ c.count ∧
    (firstSkipCandidate c < c.count →
      (c.instances.getD (firstSkipCandidate c) default).attackable ≠ 0 ∧
      c.pattern.getD (c.instances.getD (firstSkipCandidate c) default).index.toNat 0 ≠ 0) ∧
    ∀ j1, j1 < firstSkipCandidate c →
      (c.instances.getD j1 default).attackable = 0 ∨
        c.pattern.getD (c.instances.getD j1 default).index.toNat 0 = 0 := by
  have hspec := find_range_spec (fun j =>
      decide (¬ ((c.instances.getD j default).attackable = 0 ∨
        c.pattern.getD (c.instances.getD j default).index.toNat 0 = 0))) c.count
  unfold firstSkipCandidate
  cases h : (List.range c.count).find? (fun j =>
      decide (¬ ((c.instances.getD j default).attackable = 0 ∨
        c.pattern.getD (c.instances.getD j default).index.toNat 0 = 0))) with
  | some j0 =>
    obtain ⟨h1, h2, h3⟩ := hspec.1 j0 h
    simp only [decide_eq_true_eq, not_or] at h2
    refine ⟨by simp only; omega, fun _ => h2, fun j1 hj1 => ?_⟩
    have := h3 j1 hj1
    simp only [decide_eq_false_iff_not, Decidable.not_not] at this
    exact this
  | none =>
    have h0 := hspec.2 h
    refine ⟨le_refl _, fun hlt => absurd hlt (by simp), fun j1 hj1 => ?_⟩
    have := h0 j1 hj1
    simp only [decide_eq_false_iff_not, Decidable.not_not] at this
    exact this

/-- C23: Strategy 1 for the entity `c` at position `i`, whose instances carry the labels of
this round and whose pattern is binary. When the `while` loop stops at an instance `ins`
(sorted position `firstSkipCandidate c`), that instance is attackable (window length at least
`minAtkWinLen`) with pattern entry 1 at its `index`, and no instance before it in sorted order
is both; the call made is `IfSkipPossible(pattern of c, count of c, skipLimit of c, index of
ins)`; when that call returns 1, the processing of the entity ends in the collection that
differs from the one before only in the entry at `index` of the pattern of `c`, changed from 1
to 0: every other entity and the order of the collection are as before. -/
theorem C23_strategy1_self_skip (id_to_long : String → Int) (ctrlSkipLimitArr : List Int)
    (cand : List Message) (i : Nat) (c : Message) (ins : Instance)
    (hc : cand[i]? = some c) (hins : c.instances[firstSkipCandidate c]? = some ins)
    (hcount : c.instances.length = c.count) (hlab : Labelled c) (hbin : IsBinary c.pattern)
    (hidx : 0 ≤ ins.index) :
    (ins.atkWinLen ≥ minAtkWinLen ∧ c.pattern[ins.index.toNat]? = some 1 ∧
      (ins.index.toNat : Int) = ins.index) ∧
    (∀ (j1 : Nat) (ins1 : Instance), j1 < firstSkipCandidate c → c.instances[j1]? = some ins1 →
      ¬ (ins1.atkWinLen ≥ minAtkWinLen ∧ c.pattern.getD ins1.index.toNat 0 = 1)) ∧
    ((IfSkipPossible c.pattern c.count c.skipLimit ins.index.toNat).1 = 1 →
      obfuscateEntity id_to_long ctrlSkipLimitArr cand i =
          cand.set i { c with pattern := c.pattern.set ins.index.toNat 0 } ∧
        (obfuscateEntity id_to_long ctrlSkipLimitArr cand i).length = cand.length ∧
        (obfuscateEntity id_to_long ctrlSkipLimitArr cand i).map (fun e => e.ID) =
          cand.map (fun e => e.ID) ∧
        ∀ i1, i1 ≠ i →
          (obfuscateEntity id_to_long ctrlSkipLimitArr cand i)[i1]? = cand[i1]?) := by
  obtain ⟨hjlen, hlt⟩ := List.getElem?_eq_some_iff.mp hins
  have hj : firstSkipCandidate c < c.count := by omega
  have hgetD : c.instances.getD (firstSkipCandidate c) default = ins := by
    rw [List.getD_eq_getElem _ _ hjlen]; exact hlt
  have hcD : cand.getD i default = c := by
    rw [List.getD_eq_getElem?_getD, hc]; rfl
  obtain ⟨_, hhit, hbefore⟩ := firstSkipCandidate_spec c
  obtain ⟨hatk, hpat⟩ := hhit hj
  rw [hgetD] at hatk hpat
  have hmem : ins ∈ c.instances := by rw [← hlt]; exact List.getElem_mem _
  have hone : c.pattern[ins.index.toNat]? = some 1 := by
    rw [List.getD_eq_getElem?_getD] at hpat
    cases hv : c.pattern[ins.index.toNat]? with
    | none => rw [hv] at hpat; exact absurd rfl hpat
    | some v =>
      rw [hv] at hpat
      have hvm : v ∈ c.pattern := by
        obtain ⟨hvl, hvg⟩ := List.getElem?_eq_some_iff.mp hv
        rw [← hvg]; exact List.getElem_mem _
      rcases hbin v hvm with h0 | h1
      · exact absurd h0 hpat
      · rw [h1]
  refine ⟨⟨?_, hone, by omega⟩, ?_, ?_⟩
  · have := hlab ins hmem
    by_contra hneg
    rw [if_neg hneg] at this
    exact hatk this
  · intro j1 ins1 hj1 hins1 hboth
    obtain ⟨hj1len, hlt1⟩ := List.getElem?_eq_some_iff.mp hins1
    have hg1 : c.instances.getD j1 default = ins1 := by
      rw [List.getD_eq_getElem _ _ hj1len]; exact hlt1
    have hmem1 : ins1 ∈ c.instances := by rw [← hlt1]; exact List.getElem_mem _
    rcases hbefore j1 hj1 with h | h
    · rw [hg1, hlab ins1 hmem1, if_pos hboth.1] at h
      exact absurd h (by decide)
    · rw [hg1, hboth.2] at h
      exact absurd h (by decide)
  · intro hsucc
    have heq : obfuscateEntity id_to_long ctrlSkipLimitArr cand i =
        cand.set i { c with pattern := c.pattern.set ins.index.toNat 0 } := by
      unfold obfuscateEntity
      simp only [hcD, hj, if_true, hgetD]
      rcases IfSkipPossible_cases c.pattern c.count c.skipLimit ins.index.toNat with
        ⟨_, hres⟩ | ⟨_, hres⟩
      · rw [hres]; simp
      · rw [hres] at hsucc; simp at hsucc
    have hilen : i < cand.length := (List.getElem?_eq_some_iff.mp hc).1
    rw [heq]
    refine ⟨rfl, by simp, ?_, fun i1 hi1 => ?_⟩
    · apply List.ext_getElem?
      intro t
      by_cases hti : i = t
      · subst hti
        have hci : cand[i] = c := (List.getElem?_eq_some_iff.mp hc).2
        simp [List.getElem?_set, hilen, hci]
      · simp [List.getElem?_set, hti]
    · simp [List.getElem?_set, Ne.symm hi1]

/-- Witness of `C23_strategy1_self_skip`: the entity `20` in the first round over
`attackTrace`; the instance at sorted position 0 is attackable and the skip at its index 0 is
feasible, so the round ends with the pattern `0 1`. -/
theorem C23_strategy1_self_skip_witness :
    firstSkipCandidate (selfSkipSorted.getD 0 default) = 0 ∧
      Labelled (selfSkipSorted.getD 0 default) ∧
      obfuscateEntity decimalId [3] selfSkipSorted 0 =
        selfSkipSorted.set 0
          { selfSkipSorted.getD 0 default with
            pattern := (selfSkipSorted.getD 0 default).pattern.set
              ((selfSkipSorted.getD 0 default).instances.getD 0 default).index.toNat 0 } ∧
      ((obfuscateEntity decimalId [3] selfSkipSorted 0).getD 0 default).pattern = [0, 1] :=
  ⟨by decide!, by decide!,
    ((C23_strategy1_self_skip decimalId [3] selfSkipSorted 0 (selfSkipSorted.getD 0 default)
      ((selfSkipSorted.getD 0 default).instances.getD 0 default) (by decide!) (by decide!)
      (by decide!) (by decide!) (by decide!) (by decide!)).2.2 (by decide!)).1,
    by decide!⟩

/-! ## Claim C25: Strategy 3 -/

/-- The backward loop of Strategy 3 runs through the entities of the periodicity of entity
`i` and stops at the first other one: when the positions `k..n-1` hold that periodicity and
position `k-1` does not (or `k = 0`), the loop started below `n` leaves `k - 1`. -/
theorem strategy3Scan_block (cand : List Message) (i k : Nat)
    (hstop : k = 0 ∨
      (cand.getD (k - 1) default).periodicity ≠ (cand.getD i default).periodicity) :
    ∀ n, k ≤ n →
      (∀ t, k ≤ t → t < n →
        (cand.getD t default).periodicity = (cand.getD i default).periodicity) →
      strategy3Scan cand i n = (k : Int) - 1 := by
  intro n
  induction n with
  | zero =>
    intro hk _
    have : k = 0 := by omega
    subst this
    rfl
  | succ m ih =>
    intro hk hblock
    by_cases hkm : k = m + 1
    · rcases hstop with h0 | hne
      · omega
      · have e : k - 1 = m := by omega
        rw [e] at hne
        rw [strategy3Scan, if_pos (Ne.symm hne), hkm]
        push_cast; omega
    · rw [strategy3Scan, if_neg (by rw [hblock m (by omega) (by omega)]; simp)]
      exact ih (by omega) (fun t h1 h2 => hblock t h1 (by omega))

/-- What Strategy 3 does with the collection `T` for the entity at position `i`: with `k` the
start of the run of entities of the periodicity of entity `i` that ends at `i - 1`, the
entities at `k` and `i` are swapped when the identifier of the entity at `k` is in the
conflict set that is consulted; without such a run the collection stays. -/
theorem strategy3_spec (id_to_long : String → Int) (i : Nat) (insToSkipObf1 : Int)
    (T : List Message) :
    (∀ k, k < i →
      (∀ t, k ≤ t → t < i →
        (T.getD t default).periodicity = (T.getD i default).periodicity) →
      (k = 0 ∨ (T.getD (k - 1) default).periodicity ≠ (T.getD i default).periodicity) →
      strategy3 id_to_long i insToSkipObf1 T =
        if CheckMembership
            ((T.getD i default).instances.getD insToSkipObf1.toNat default).atkWin
            ((T.getD i default).instances.getD insToSkipObf1.toNat default).atkWinCount
            (id_to_long (T.getD k default).ID) ≥ 0
        then swapCandidates T k i else T) ∧
    ((i = 0 ∨ (T.getD (i - 1) default).periodicity ≠ (T.getD i default).periodicity) →
      strategy3 id_to_long i insToSkipObf1 T = T) := by
  constructor
  · intro k hk hblock hstop
    have hscan := strategy3Scan_block T i k hstop i (by omega) hblock
    unfold strategy3
    simp only [hscan]
    have hne : (k : Int) - 1 ≠ (i : Int) - 1 := by omega
    have hk1 : ((k : Int) - 1 + 1).toNat = k := by omega
    rw [if_pos hne, hk1]
    have hper := hblock k (le_refl k) hk
    by_cases hm : CheckMembership
        ((T.getD i default).instances.getD insToSkipObf1.toNat default).atkWin
        ((T.getD i default).instances.getD insToSkipObf1.toNat default).atkWinCount
        (id_to_long (T.getD k default).ID) ≥ 0
    · rw [if_pos ⟨hper.symm, hm⟩, if_pos hm]
    · rw [if_neg (fun h => hm h.2), if_neg hm]
  · intro hstop
    have hscan := strategy3Scan_block T i i hstop i (le_refl i) (fun t h1 h2 => by omega)
    unfold strategy3
    simp only [hscan]
    rw [if_neg (by simp)]

theorem sameButPattern_refl (a : List Message) : SameButPattern a a :=
  ⟨rfl, fun _ => rfl⟩

theorem sameButPattern_trans (a b c : List Message) (h1 : SameButPattern a b)
    (h2 : SameButPattern b c) : SameButPattern a c :=
  ⟨h1.1.trans h2.1, fun t => (h1.2 t).trans (h2.2 t)⟩

/-- Writing a new pattern into one entity keeps the collection, up to patterns. -/
theorem sameButPattern_set (l : List Message) (j : Nat) (p : List Int) :
    SameButPattern (l.set j { l.getD j default with pattern := p }) l := by
  refine ⟨by simp, fun t => ?_⟩
  by_cases hjt : j = t
  · subst hjt
    by_cases hj : j < l.length
    · simp [List.getD_eq_getElem?_getD, List.getElem?_set, hj]
    · rw [List.set_eq_of_length_le (by omega)]
  · simp [List.getD_eq_getElem?_getD, List.getElem?_set, hjt]

/-- Collections that agree up to patterns agree on identifiers, periodicities and
instances. -/
theorem sameButPattern_fields (a b : List Message) (h : SameButPattern a b) (t : Nat) :
    (a.getD t default).ID = (b.getD t default).ID ∧
    (a.getD t default).periodicity = (b.getD t default).periodicity ∧
    (a.getD t default).instances = (b.getD t default).instances ∧
    (a.getD t default).skipLimit = (b.getD t default).skipLimit := by
  have h1 := congrArg Message.ID (h.2 t)
  have h2 := congrArg Message.periodicity (h.2 t)
  have h3 := congrArg Message.instances (h.2 t)
  have h4 := congrArg Message.skipLimit (h.2 t)
  exact ⟨h1, h2, h3, h4⟩

/-- Strategy 2 writes into skip patterns only. -/
theorem strategy2_sameButPattern (id_to_long : String → Int) (ctrlSkipLimitArr : List Int)
    (i : Nat) (insToSkipObf1 : Int) (cand : List Message) :
    SameButPattern (strategy2 id_to_long ctrlSkipLimitArr i insToSkipObf1 cand).2 cand := by
  unfold strategy2
  generalize i = m at *
  suffices h : ∀ n, SameButPattern ((List.range n).foldl
      (fun (st : Int × List Message) j =>
        if st.1 ≠ 0 then st
        else
          let ins := (st.2.getD m default).instances.getD insToSkipObf1.toNat default
          let cj := st.2.getD j default
          let insToSkipObf2 := CheckMembership ins.atkWin ins.atkWinCount (id_to_long cj.ID)
          if insToSkipObf2 ≥ 0 then
            let res := IfSkipPossible cj.pattern cj.count (ctrlSkipLimitArr.getD j 0)
              insToSkipObf2.toNat
            (res.1, st.2.set j { cj with pattern := res.2 })
          else st)
      (0, cand)).2 cand from h m
  intro n
  induction n with
  | zero => exact sameButPattern_refl cand
  | succ n ih =>
    rw [List.range_succ, List.foldl_append]
    simp only [List.foldl_cons, List.foldl_nil]
    split
    · exact ih
    · split
      · exact sameButPattern_trans _ _ _ (sameButPattern_set _ n _) ih
      · exact ih

/-- The backward loop of Strategy 3 leaves `-1` or a position below its start. -/
theorem strategy3Scan_range (cand : List Message) (i : Nat) :
    ∀ n, -1 ≤ strategy3Scan cand i n ∧ strategy3Scan cand i n < (n : Int) := by
  intro n
  induction n with
  | zero => simp [strategy3Scan]
  | succ m ih =>
    rw [strategy3Scan]
    split
    · constructor <;> push_cast <;> omega
    · constructor
      · exact ih.1
      · have := ih.2; push_cast; omega

/-- Strategy 3 leaves the entities of the collection whole: its result is a permutation of
the collection it starts from. -/
theorem strategy3_perm (id_to_long : String → Int) (i : Nat) (insToSkipObf1 : Int)
    (T : List Message) (hi : i < T.length) :
    (strategy3 id_to_long i insToSkipObf1 T).Perm T := by
  obtain ⟨hlo, hhi⟩ := strategy3Scan_range T i i
  unfold strategy3
  simp only
  split
  · split
    · exact swapCandidates_perm T _ i (by omega) hi
    · exact List.Perm.refl T
  · exact List.Perm.refl T

/-- C25 (as stated, refuted): the entities `20`, `30`, `40` of one periodicity in the first
round over `nearestTrace`. For `40` at position 2 Strategy 1 chooses the instance at sorted
position 0, whose conflict set is `30`, and fails; Strategy 2 fails. The nearest earlier
entity of the same periodicity is `30` at position 1 and its identifier is in the conflict
set of the chosen instance, yet the collection stays as it is: Strategy 3 looks at `20` at
position 0, which is not in the conflict set. -/
theorem C25_counterexample :
    firstSkipCandidate (nearestSorted.getD 2 default) = 0 ∧
    (nearestSorted.getD 2 default).count = 1 ∧
    ((nearestSorted.getD 2 default).instances.getD 0 default).index = 0 ∧
    ((nearestSorted.getD 2 default).instances.getD 0 default).atkWin = [30] ∧
    IfSkipPossible (nearestSorted.getD 2 default).pattern (nearestSorted.getD 2 default).count
      (nearestSorted.getD 2 default).skipLimit 0 = (0, (nearestSorted.getD 2 default).pattern) ∧
    (strategy2 decimalId [1, 1, 1] 2 0 nearestSorted).1 = 0 ∧
    (nearestSorted.getD 1 default).periodicity = (nearestSorted.getD 2 default).periodicity ∧
    CheckMembership ((nearestSorted.getD 2 default).instances.getD 0 default).atkWin
      ((nearestSorted.getD 2 default).instances.getD 0 default).atkWinCount
      (decimalId (nearestSorted.getD 1 default).ID) ≥ 0 ∧
    obfuscateEntity decimalId [1, 1, 1] nearestSorted 2 = nearestSorted ∧
    obfuscateEntity decimalId [1, 1, 1] nearestSorted 2 ≠ swapCandidates nearestSorted 1 2 ∧
    (obfuscationRound decimalId noGap [1, 1, 1] nearestTrace 3 blockEntities).map
      (fun c => c.ID) = ["20", "30", "40"] := by
  decide!

/-- C25 (amended): Strategy 3 for the entity `c` at position `i`, when Strategy 1 has chosen
the instance `chosen`, standing at the position of its `index`, and Strategies 1 and 2 have
both failed, leaving the collection `T` (the collection before, up to what the rejected calls
wrote into patterns). The engine takes the earliest position `k < i` such that every entity
at the positions `k..i-1` has the periodicity of `c`; when there is such a `k` (the entity at
`i - 1` has the periodicity of `c`) and the identifier of the entity at `k` is in the
conflict set of `chosen`, the entities at `k` and `i` are swapped, otherwise the collection is
unchanged; in either case the entities are carried over whole, no pattern entry is
modified. -/
theorem C25_strategy3_block_start (id_to_long : String → Int) (ctrlSkipLimitArr : List Int)
    (cand T : List Message) (i : Nat) (c : Message) (chosen : Instance) (p1 : List Int)
    (hc : cand[i]? = some c) (hchosen : c.instances[firstSkipCandidate c]? = some chosen)
    (hcount : c.instances.length = c.count)
    (hpos : chosen.index = (firstSkipCandidate c : Int))
    (h1 : IfSkipPossible c.pattern c.count c.skipLimit (firstSkipCandidate c) = (0, p1))
    (h2 : strategy2 id_to_long ctrlSkipLimitArr i (firstSkipCandidate c : Int)
      (cand.set i { c with pattern := p1 }) = (0, T)) :
    SameButPattern T cand ∧
    (∀ k, k < i →
      (∀ t, k ≤ t → t < i → (cand.getD t default).periodicity = c.periodicity) →
      (k = 0 ∨ (cand.getD (k - 1) default).periodicity ≠ c.periodicity) →
      obfuscateEntity id_to_long ctrlSkipLimitArr cand i =
        if CheckMembership chosen.atkWin chosen.atkWinCount
            (id_to_long (cand.getD k default).ID) ≥ 0
        then swapCandidates T k i else T) ∧
    ((i = 0 ∨ (cand.getD (i - 1) default).periodicity ≠ c.periodicity) →
      obfuscateEntity id_to_long ctrlSkipLimitArr cand i = T) ∧
    (obfuscateEntity id_to_long ctrlSkipLimitArr cand i).Perm T := by
  obtain ⟨hjlen, hlt⟩ := List.getElem?_eq_some_iff.mp hchosen
  obtain ⟨hilen, hci⟩ := List.getElem?_eq_some_iff.mp hc
  have hj : firstSkipCandidate c < c.count := by omega
  have hgetD : c.instances.getD (firstSkipCandidate c) default = chosen := by
    rw [List.getD_eq_getElem _ _ hjlen]; exact hlt
  have hcD : cand.getD i default = c := by
    rw [List.getD_eq_getElem?_getD, hc]; rfl
  have htoNat : ((firstSkipCandidate c : Nat) : Int).toNat = firstSkipCandidate c := by omega
  -- the collection after Strategies 1 and 2
  have hsame : SameButPattern T cand := by
    have hT : T = (strategy2 id_to_long ctrlSkipLimitArr i (firstSkipCandidate c : Int)
        (cand.set i { c with pattern := p1 })).2 := by rw [h2]
    rw [hT]
    refine sameButPattern_trans _ _ _ (strategy2_sameButPattern _ _ _ _ _) ?_
    have := sameButPattern_set cand i p1
    rw [hcD] at this
    exact this
  have hTlen : i < T.length := by rw [hsame.1]; exact hilen
  -- the processing of the entity ends in Strategy 3
  have heq : obfuscateEntity id_to_long ctrlSkipLimitArr cand i =
      strategy3 id_to_long i (firstSkipCandidate c : Int) T := by
    unfold obfuscateEntity
    simp only [hcD, hj, if_true, hgetD, hpos, htoNat, h1, h2]
    simp
  have hper : ∀ t, (T.getD t default).periodicity = (cand.getD t default).periodicity :=
    fun t => (sameButPattern_fields T cand hsame t).2.1
  have hins : (T.getD i default).instances.getD
      ((firstSkipCandidate c : Nat) : Int).toNat default = chosen := by
    rw [(sameButPattern_fields T cand hsame i).2.2.1, hcD, htoNat, hgetD]
  have hspec := strategy3_spec id_to_long i (firstSkipCandidate c : Int) T
  rw [hins] at hspec
  refine ⟨hsame, ?_, ?_, ?_⟩
  · intro k hk hblock hstop
    rw [heq, hspec.1 k hk
      (fun t ht1 ht2 => by rw [hper t, hper i, hcD]; exact hblock t ht1 ht2)
      (by rw [hper (k - 1), hper i, hcD]; exact hstop),
      (sameButPattern_fields T cand hsame k).1]
  · intro hstop
    rw [heq]
    exact hspec.2 (by rw [hper (i - 1), hper i, hcD]; exact hstop)
  · rw [heq]
    exact strategy3_perm id_to_long i _ T hTlen

/-- Witness of `C25_strategy3_block_start`: the entities `20`, `30`, `40` in the first round
over `blockTrace`. For `40` at position 2 both strategies fail; the run of entities of its
periodicity starts at position 0, and `20` is in the conflict set of the chosen instance:
the entities at the positions 0 and 2 are swapped. -/
theorem C25_strategy3_block_start_witness :
    obfuscateEntity decimalId [1, 1, 1] blockSorted 2 =
        (if CheckMembership ((blockSorted.getD 2 default).instances.getD 0 default).atkWin
            ((blockSorted.getD 2 default).instances.getD 0 default).atkWinCount
            (decimalId (blockSorted.getD 0 default).ID) ≥ 0
        then swapCandidates blockSorted 0 2 else blockSorted) ∧
      (obfuscateEntity decimalId [1, 1, 1] blockSorted 2).map (fun c => c.ID) =
        ["40", "30", "20"] :=
  ⟨(C25_strategy3_block_start decimalId [1, 1, 1] blockSorted blockSorted 2
      (blockSorted.getD 2 default) ((blockSorted.getD 2 default).instances.getD 0 default) [1]
      (by decide!) (by decide!) (by decide!) (by decide!) (by decide!) (by decide!)).2.1 0
      (by decide) (by decide!) (Or.inl rfl),
    by decide!⟩

/-! ## The labels of a round -/

/-- The loop that sets the `attackable` flags, run over the first `n` instances: these carry
the flag that their window length asks for, and the array keeps its length. -/
theorem labelLoop_spec (l : List Instance) : ∀ n,
    ((List.range n).foldl
      (fun (ins : List Instance) j =>
        ins.set j { ins.getD j default with
          attackable := if (ins.getD j default).atkWinLen ≥ minAtkWinLen then 1 else 0 })
      l).length = l.length ∧
    ∀ t, t < n → t < l.length →
      (((List.range n).foldl
        (fun (ins : List Instance) j =>
          ins.set j { ins.getD j default with
            attackable := if (ins.getD j default).atkWinLen ≥ minAtkWinLen then 1 else 0 })
        l).getD t default).attackable =
      if (((List.range n).foldl
        (fun (ins : List Instance) j =>
          ins.set j { ins.getD j default with
            attackable := if (ins.getD j default).atkWinLen ≥ minAtkWinLen then 1 else 0 })
        l).getD t default).atkWinLen ≥ minAtkWinLen then 1 else 0 := by
  intro n
  induction n with
  | zero => exact ⟨rfl, fun t ht => absurd ht (by omega)⟩
  | succ n ih =>
    rw [List.range_succ, List.foldl_append]
    simp only [List.foldl_cons, List.foldl_nil]
    generalize (List.range n).foldl
      (fun (ins : List Instance) j =>
        ins.set j { ins.getD j default with
          attackable := if (ins.getD j default).atkWinLen ≥ minAtkWinLen then 1 else 0 })
      l = res at ih ⊢
    obtain ⟨hlen, hlab⟩ := ih
    refine ⟨by rw [List.length_set, hlen], fun t ht htl => ?_⟩
    by_cases htn : t = n
    · subst htn
      simp only [getD_set_self_inst res t _ (show t < res.length by omega)]
    · simp only [getD_set_other_inst res n t _ htn]
      exact hlab t (by omega) htl

/-- After the labels and the sort of a round, an entity with `count` instances is labelled
and still has `count` instances. -/
theorem labelled_sort_label (a : Message) (h : a.instances.length = a.count) :
    Labelled (sortEntity (labelEntity a)) ∧
      (sortEntity (labelEntity a)).instances.length = a.count ∧
      (sortEntity (labelEntity a)).count = a.count ∧
      (sortEntity (labelEntity a)).pattern = a.pattern := by
  obtain ⟨hlen, hlab⟩ := labelLoop_spec a.instances a.count
  have hL : (labelEntity a).instances.length = a.count := by
    unfold labelEntity; simp only; rw [hlen, h]
  have hperm : (sortEntity (labelEntity a)).instances.Perm (labelEntity a).instances := by
    have := (InsSort_full (labelEntity a).instances).1.1
    rw [hL] at this
    exact this
  refine ⟨?_, by rw [hperm.length_eq, hL], rfl, rfl⟩
  intro ins hins
  have hmem : ins ∈ (labelEntity a).instances := hperm.subset hins
  obtain ⟨t, ht, hget⟩ := List.getElem_of_mem hmem
  have := hlab t (by omega) (by omega)
  have hg : (labelEntity a).instances.getD t default = ins := by
    rw [List.getD_eq_getElem _ _ ht]; exact hget
  unfold labelEntity at hg
  simp only at hg
  rw [hg] at this
  exact this

end HideNSeek
